import Mathlib

/-!
Buffer cache (`kernel/bio.c`)


A shallow embedding of the xv6 buffer cache.  The pool is the C structure
`bcache`: the structural spinlock, the array `buf[NBUF]` and the sentinel
`head` of the doubly-linked recency list threaded through the `prev`/`next`
fields of the buffers.  Pointers to `struct buf` are values of `Ptr`; every
C assignment through a pointer is one field update on the state.

Every operation is a function from a state to a `Result`: it returns, panics,
or leaves the caller waiting on a lock.  The two list scans of `bget` follow
the links of the state and take an explicit iteration budget.
-/

namespace Bio

/-! ## Data model -/

/-- Address of a `struct buf`: `&bcache.head` or `&bcache.buf[i]`. -/
inductive Ptr where
  | head : Ptr
  | slot (i : Nat) : Ptr
  deriving DecidableEq

/-- The `struct spinlock` of `spinlock.h`; the debugging fields carry no behaviour. -/
structure spinlock where
  locked : Nat
  deriving DecidableEq

/-- Modelled from the spec: `struct sleeplock` (`sleeplock.h` is not part of the
sources).  The content lock is an exclusive blocking lock; the state of the
lock is its current holder, if any. -/
structure sleeplock where
  holder : Option Nat
  deriving DecidableEq

/-- The block size `BSIZE` of `fs.h`. -/
def BSIZE : Nat := 1024

/-- The `struct buf` of `buf.h`.  `uint` fields are natural numbers, `int`
fields are integers, `data` is the byte array of the block. -/
structure buf where
  valid : Int
  disk : Int
  dev : Nat
  blockno : Nat
  lock : sleeplock
  refcnt : Nat
  prev : Ptr
  next : Ptr
  data : List Nat
  deriving DecidableEq

/-- Calls to the collaborators of the cache, as they happen. -/
inductive Event where
  | acquire : Event
  | release : Event
  | acquiresleep (b : Ptr) (pid : Nat) : Event
  | releasesleep (b : Ptr) : Event
  | disk_read (dev blockno : Nat) : Event
  | disk_write (dev blockno : Nat) (data : List Nat) : Event
  deriving DecidableEq

/-- The anonymous structure `bcache` (fields `lock`, `buf`, `head`) together
with the backing store and the log of collaborator calls, most recent first. -/
structure State where
  lock : spinlock
  buf : Nat → Bio.buf
  head : Bio.buf
  disk : Nat → Nat → List Nat
  trace : List Event

/-- Outcome of a call: it returns a value, halts in `panic`, busy-waits on the
spinlock, sleeps on the content lock of `b`, or a list scan did not finish
within its budget. -/
inductive Result (α : Type) where
  | ok (a : α) (s : State) : Result α
  | panic (msg : String) (s : State) : Result α
  | spin (s : State) : Result α
  | sleep (b : Ptr) (s : State) : Result α
  | outOfFuel : Result α

/-- The C expression `*p`. -/
def State.deref (s : State) : Ptr → Bio.buf
  | .head => s.head
  | .slot i => s.buf i

/-- The C assignment `*p = v`. -/
def State.store (s : State) (p : Ptr) (v : Bio.buf) : State :=
  match p with
  | .head => { s with head := v }
  | .slot i => { s with buf := fun j => if j = i then v else s.buf j }

/-- The C assignment `p->valid = v`. -/
def State.set_valid (s : State) (p : Ptr) (v : Int) : State :=
  s.store p { s.deref p with valid := v }

/-- The C assignment `p->dev = v`. -/
def State.set_dev (s : State) (p : Ptr) (v : Nat) : State :=
  s.store p { s.deref p with dev := v }

/-- The C assignment `p->blockno = v`. -/
def State.set_blockno (s : State) (p : Ptr) (v : Nat) : State :=
  s.store p { s.deref p with blockno := v }

/-- The C assignment `p->lock = v`. -/
def State.set_lock (s : State) (p : Ptr) (v : sleeplock) : State :=
  s.store p { s.deref p with lock := v }

/-- The C assignment `p->refcnt = v`. -/
def State.set_refcnt (s : State) (p : Ptr) (v : Nat) : State :=
  s.store p { s.deref p with refcnt := v }

/-- The C assignment `p->prev = v`. -/
def State.set_prev (s : State) (p : Ptr) (v : Ptr) : State :=
  s.store p { s.deref p with prev := v }

/-- The C assignment `p->next = v`. -/
def State.set_next (s : State) (p : Ptr) (v : Ptr) : State :=
  s.store p { s.deref p with next := v }

/-- The C assignment `p->data = v`. -/
def State.set_data (s : State) (p : Ptr) (v : List Nat) : State :=
  s.store p { s.deref p with data := v }

/-- The C statement `x++` on a `uint`. -/
def uint_inc (x : Nat) : Nat := (x + 1) % 2 ^ 32

/-- The C statement `x--` on a `uint`. -/
def uint_dec (x : Nat) : Nat := (x + 2 ^ 32 - 1) % 2 ^ 32

/-! ## Collaborators -/

/-- The state in which a successful `acquire` leaves `s`. -/
def acquired (s : State) : State :=
  { s with lock := { locked := 1 }, trace := Event.acquire :: s.trace }

/-- Modelled from the spec: `acquire` of `spinlock.c` (absent).  Busy-wait mutual
exclusion: the caller proceeds only when the lock is free (`none`: it spins). -/
def acquire (s : State) : Option State :=
  if s.lock.locked = 0 then some (acquired s) else none

/-- Modelled from the spec: `release` of `spinlock.c` (absent). -/
def release (s : State) : State :=
  { s with lock := { locked := 0 }, trace := Event.release :: s.trace }

/-- Modelled from the spec: `initlock` of `spinlock.c` (absent). -/
def initlock (s : State) : State :=
  { s with lock := { locked := 0 } }

/-- Modelled from the spec: `initsleeplock` of `sleeplock.c` (absent). -/
def initsleeplock (b : Ptr) (s : State) : State :=
  s.set_lock b { holder := none }

/-- The state in which a successful `acquiresleep` by `pid` leaves `s`. -/
def acquiredsleep (pid : Nat) (b : Ptr) (s : State) : State :=
  { s.set_lock b { holder := some pid } with trace := Event.acquiresleep b pid :: s.trace }

/-- Modelled from the spec: `acquiresleep` of `sleeplock.c` (absent).  Exclusive
and blocking: the caller obtains the lock only when nobody holds it (`none`:
the caller is suspended). -/
def acquiresleep (pid : Nat) (b : Ptr) (s : State) : Option State :=
  if (s.deref b).lock.holder = none then some (acquiredsleep pid b s) else none

/-- Modelled from the spec: `holdingsleep` of `sleeplock.c` (absent): does the
caller hold the content lock? -/
def holdingsleep (pid : Nat) (b : Ptr) (s : State) : Bool :=
  decide ((s.deref b).lock.holder = some pid)

/-- Modelled from the spec: `releasesleep` of `sleeplock.c` (absent). -/
def releasesleep (b : Ptr) (s : State) : State :=
  { s.set_lock b { holder := none } with
    trace := Event.releasesleep b :: s.trace }

/-- Modelled from the spec: `virtio_disk_rw` of the disk driver (absent): a
synchronous transfer between the payload of `b` and the backing store, a
write when `write` is set and a read otherwise. -/
def virtio_disk_rw (b : Ptr) (write : Bool) (s : State) : State :=
  if write then
    { s with
      disk := fun d n =>
        if d = (s.deref b).dev ∧ n = (s.deref b).blockno then (s.deref b).data else s.disk d n,
      trace := Event.disk_write (s.deref b).dev (s.deref b).blockno (s.deref b).data :: s.trace }
  else
    { s.set_data b (s.disk (s.deref b).dev (s.deref b).blockno) with
      trace := Event.disk_read (s.deref b).dev (s.deref b).blockno :: s.trace }

/-! ## `binit` -/

/-- The zero-filled `bcache` at boot.  The links are unset before `binit`,
which assigns every link of `head` and of `buf[0..NBUF)`; `Ptr.head` stands
for the unset value. -/
def boot (disk : Nat → Nat → List Nat) : State :=
  let z : buf :=
    { valid := 0, disk := 0, dev := 0, blockno := 0, lock := { holder := none },
      refcnt := 0, prev := Ptr.head, next := Ptr.head, data := List.replicate BSIZE 0 }
  { lock := { locked := 0 }, buf := fun _ => z, head := z, disk := disk, trace := [] }

/-- One iteration of the loop of `binit`, for `b = &bcache.buf[i]`. -/
def binit_body (i : Nat) (s : State) : State :=
  let b := Ptr.slot i
  let s := s.set_next b s.head.next
  let s := s.set_prev b Ptr.head
  let s := initsleeplock b s
  let s := s.set_prev s.head.next b
  s.set_next Ptr.head b

/-- The loop of `binit` run over `buf[0..n)`. -/
def binit_loop : Nat → State → State
  | 0, s => s
  | n + 1, s => binit_body n (binit_loop n s)

/-- `binit`, with `NBUF` (of `param.h`, absent) as a parameter. -/
def binit (NBUF : Nat) (s : State) : State :=
  let s := initlock s
  let s := s.set_prev Ptr.head Ptr.head
  let s := s.set_next Ptr.head Ptr.head
  binit_loop NBUF s

/-! ## `bget` -/

/-- First loop of `bget`, started at `b`: follow `next` until the sentinel,
stopping at the first buffer bound to `(dev, blockno)`.  `none`: the budget
ran out; `some none`: the sentinel was reached. -/
def bget_cached (dev blockno : Nat) (s : State) : Nat → Ptr → Option (Option Ptr)
  | 0, _ => none
  | fuel + 1, b =>
    if b = Ptr.head then some none
    else if (s.deref b).dev = dev ∧ (s.deref b).blockno = blockno then some (some b)
    else bget_cached dev blockno s fuel (s.deref b).next

/-- Second loop of `bget`, started at `b`: follow `prev` until the sentinel,
stopping at the first buffer with `refcnt == 0`. -/
def bget_recycle (s : State) : Nat → Ptr → Option (Option Ptr)
  | 0, _ => none
  | fuel + 1, b =>
    if b = Ptr.head then some none
    else if (s.deref b).refcnt = 0 then some (some b)
    else bget_recycle s fuel (s.deref b).prev

/-- The tail `acquiresleep(&b->lock); return b;` of both branches of `bget`. -/
def bget_lock (pid : Nat) (b : Ptr) (s : State) : Result Ptr :=
  match acquiresleep pid b s with
  | some s1 => Result.ok b s1
  | none => Result.sleep b s

/-- The branch of `bget` taken on a hit: `b->refcnt++; release(&bcache.lock);`. -/
def bget_hit (b : Ptr) (s : State) : State :=
  let s := s.set_refcnt b (uint_inc (s.deref b).refcnt)
  release s

/-- The branch of `bget` that recycles `b`: the four assignments and
`release(&bcache.lock);`. -/
def bget_miss (dev blockno : Nat) (b : Ptr) (s : State) : State :=
  let s := s.set_dev b dev
  let s := s.set_blockno b blockno
  let s := s.set_valid b 0
  let s := s.set_refcnt b 1
  release s

/-- `bget(dev, blockno)` called by process `pid`; each scan may take `fuel`
iterations. -/
def bget (fuel pid dev blockno : Nat) (s : State) : Result Ptr :=
  match acquire s with
  | none => Result.spin s
  | some s =>
    match bget_cached dev blockno s fuel s.head.next with
    | none => Result.outOfFuel
    | some (some b) => bget_lock pid b (bget_hit b s)
    | some none =>
      match bget_recycle s fuel s.head.prev with
      | none => Result.outOfFuel
      | some (some b) => bget_lock pid b (bget_miss dev blockno b s)
      | some none => Result.panic "bget: no buffers" s

/-! ## `bread`, `bwrite`, `brelse`, `bpin`, `bunpin` -/

/-- The statements of `bread` after the call of `bget`. -/
def bread_fill (b : Ptr) (s : State) : State :=
  if (s.deref b).valid = 0 then
    let s := virtio_disk_rw b false s
    s.set_valid b 1
  else s

/-- `bread(dev, blockno)` called by process `pid`. -/
def bread (fuel pid dev blockno : Nat) (s : State) : Result Ptr :=
  match bget fuel pid dev blockno s with
  | Result.ok b s => Result.ok b (bread_fill b s)
  | r => r

/-- `bwrite(b)` called by process `pid`. -/
def bwrite (pid : Nat) (b : Ptr) (s : State) : Result Unit :=
  if holdingsleep pid b s = false then Result.panic "bwrite" s
  else Result.ok () (virtio_disk_rw b true s)

/-- The six link assignments of `brelse` that move `b` behind the sentinel. -/
def brelse_move (b : Ptr) (s : State) : State :=
  let s := s.set_prev (s.deref b).next (s.deref b).prev
  let s := s.set_next (s.deref b).prev (s.deref b).next
  let s := s.set_next b s.head.next
  let s := s.set_prev b Ptr.head
  let s := s.set_prev s.head.next b
  s.set_next Ptr.head b

/-- `brelse(b)` called by process `pid`. -/
def brelse (pid : Nat) (b : Ptr) (s : State) : Result Unit :=
  if holdingsleep pid b s = false then Result.panic "brelse" s
  else
    let s := releasesleep b s
    match acquire s with
    | none => Result.spin s
    | some s =>
      let s := s.set_refcnt b (uint_dec (s.deref b).refcnt)
      let s := if (s.deref b).refcnt = 0 then brelse_move b s else s
      Result.ok () (release s)

/-- `bpin(b)`. -/
def bpin (b : Ptr) (s : State) : Result Unit :=
  match acquire s with
  | none => Result.spin s
  | some s =>
    let s := s.set_refcnt b (uint_inc (s.deref b).refcnt)
    Result.ok () (release s)

/-- `bunpin(b)`. -/
def bunpin (b : Ptr) (s : State) : Result Unit :=
  match acquire s with
  | none => Result.spin s
  | some s =>
    let s := s.set_refcnt b (uint_dec (s.deref b).refcnt)
    Result.ok () (release s)

/-! ## Observations on a state -/

/-- Number of backing-store reads in a log. -/
def reads (t : List Event) : Nat :=
  (t.filter fun e => match e with | Event.disk_read _ _ => true | _ => false).length

/-- Number of backing-store writes in a log. -/
def writes (t : List Event) : Nat :=
  (t.filter fun e => match e with | Event.disk_write _ _ _ => true | _ => false).length

/-- The link `a.next = b` together with its inverse `b.prev = a`. -/
def linked (s : State) (a b : Ptr) : Prop :=
  (s.deref a).next = b ∧ (s.deref b).prev = a

instance (s : State) (a b : Ptr) : Decidable (linked s a b) :=
  inferInstanceAs (Decidable ((s.deref a).next = b ∧ (s.deref b).prev = a))

/-- Every element of the list is `linked` to the one that follows it. -/
def Links (s : State) : List Ptr → Prop
  | a :: b :: l => linked s a b ∧ Links s (b :: l)
  | _ => True

instance decLinks (s : State) : (l : List Ptr) → Decidable (Links s l)
  | [] => isTrue trivial
  | [_] => isTrue trivial
  | a :: b :: l =>
    have := decLinks s (b :: l)
    inferInstanceAs (Decidable (linked s a b ∧ Links s (b :: l)))

/-- The sentinel, the buffers of `l`, and the sentinel again. -/
def cycle (l : List Nat) : List Ptr :=
  Ptr.head :: (l.map Ptr.slot ++ [Ptr.head])

/-- The recency list of `s` is `l`, from most to least recently used: starting
at the sentinel, `next` runs through the buffers of `l` in order and back to
the sentinel, `prev` is its inverse, and no buffer occurs twice. -/
def IsRing (s : State) (l : List Nat) : Prop :=
  l.Nodup ∧ Links s (cycle l)

instance (s : State) (l : List Nat) : Decidable (IsRing s l) :=
  inferInstanceAs (Decidable (l.Nodup ∧ Links s (cycle l)))

/-- A well-formed pool of `NBUF` buffers with recency list `l`: the list is a
ring through the sentinel holding exactly the buffers `buf[0..NBUF)` and the
structural lock is free. -/
def WellFormed (NBUF : Nat) (s : State) (l : List Nat) : Prop :=
  IsRing s l ∧ (∀ i ∈ l, i < NBUF) ∧ (∀ i, i < NBUF → i ∈ l) ∧ s.lock.locked = 0

instance (NBUF : Nat) (s : State) (l : List Nat) : Decidable (WellFormed NBUF s l) :=
  inferInstanceAs (Decidable
    (IsRing s l ∧ (∀ i ∈ l, i < NBUF) ∧ (∀ i, i < NBUF → i ∈ l) ∧ s.lock.locked = 0))

/-- The state a call returned with, or `s` if it did not return. -/
def Result.stateD {α : Type} (r : Result α) (s : State) : State :=
  match r with
  | Result.ok _ t => t
  | _ => s

/-- The buffer at `p` is bound to the key `(dev, blockno)`. -/
def bound (s : State) (dev blockno : Nat) (p : Ptr) : Prop :=
  (s.deref p).dev = dev ∧ (s.deref p).blockno = blockno

instance (s : State) (dev blockno : Nat) (p : Ptr) : Decidable (bound s dev blockno p) :=
  inferInstanceAs (Decidable ((s.deref p).dev = dev ∧ (s.deref p).blockno = blockno))

/-- The pool as a call left it, whatever its outcome (no pool is recorded when a
scan ran out of budget). -/
def Result.after? {α : Type} : Result α → Option State
  | Result.ok _ s => some s
  | Result.panic _ s => some s
  | Result.spin s => some s
  | Result.sleep _ s => some s
  | Result.outOfFuel => none

/-- `OtherCalls dev blockno s t`: the pool `t` arises from `s` by a sequence of
returning `bread` calls for keys other than `(dev, blockno)` and returning
`brelse` calls on buffers bound to other keys, by any processes. -/
inductive OtherCalls (dev blockno : Nat) : State → State → Prop where
  | refl (s : State) : OtherCalls dev blockno s s
  | bread {s t t' : State} (fuel pid d n : Nat) (b : Ptr) :
      OtherCalls dev blockno s t → ¬ (d = dev ∧ n = blockno) →
      bread fuel pid d n t = Result.ok b t' → OtherCalls dev blockno s t'
  | brelse {s t t' : State} (pid : Nat) (b : Ptr) :
      OtherCalls dev blockno s t → ¬ bound t dev blockno b →
      brelse pid b t = Result.ok () t' → OtherCalls dev blockno s t'

/-- The buffers at `p` and `q` are bound to the same key. -/
def sameKey (s : State) (p q : Ptr) : Prop :=
  (s.deref p).dev = (s.deref q).dev ∧ (s.deref p).blockno = (s.deref q).blockno

/-- The pool states reachable from `binit` on a pool of `NBUF` buffers by calls
of `bget`, `bread`, `bwrite`, `brelse`, `bpin` and `bunpin`, by any processes and
whatever their outcome (`Result.after?`: returned, asleep, spinning or halted),
each scan of `bget` being given a budget above `NBUF`.  `brelse`, `bpin` and
`bunpin` are applied to buffers of the pool whose `refcnt` is positive. -/
inductive Reachable (NBUF : Nat) : State → Prop where
  | binit (disk : Nat → Nat → List Nat) : Reachable NBUF (binit NBUF (boot disk))
  | bget {s s' : State} (fuel pid dev blockno : Nat) :
      Reachable NBUF s → NBUF < fuel →
      (bget fuel pid dev blockno s).after? = some s' → Reachable NBUF s'
  | bread {s s' : State} (fuel pid dev blockno : Nat) :
      Reachable NBUF s → NBUF < fuel →
      (bread fuel pid dev blockno s).after? = some s' → Reachable NBUF s'
  | bwrite {s s' : State} (pid : Nat) (b : Ptr) :
      Reachable NBUF s → (bwrite pid b s).after? = some s' → Reachable NBUF s'
  | brelse {s s' : State} (pid i : Nat) :
      Reachable NBUF s → i < NBUF → 0 < (s.deref (Ptr.slot i)).refcnt →
      (brelse pid (Ptr.slot i) s).after? = some s' → Reachable NBUF s'
  | bpin {s s' : State} (i : Nat) :
      Reachable NBUF s → i < NBUF → 0 < (s.deref (Ptr.slot i)).refcnt →
      (bpin (Ptr.slot i) s).after? = some s' → Reachable NBUF s'
  | bunpin {s s' : State} (i : Nat) :
      Reachable NBUF s → i < NBUF → 0 < (s.deref (Ptr.slot i)).refcnt →
      (bunpin (Ptr.slot i) s).after? = some s' → Reachable NBUF s'

/-- Along the recency list, a buffer with a non-zero `refcnt` shares its key
with no buffer before it. -/
def KeyInv (s : State) (l : List Nat) : Prop :=
  l.Pairwise fun a b =>
    (s.deref (Ptr.slot b)).refcnt ≠ 0 → ¬ sameKey s (Ptr.slot a) (Ptr.slot b)

/-- The invariant of the reachable pools: the recency list is a ring holding
exactly the buffers `buf[0..NBUF)`, and it satisfies `KeyInv`. -/
def PoolInv (NBUF : Nat) (s : State) : Prop :=
  ∃ l, IsRing s l ∧ (∀ i, i ∈ l ↔ i < NBUF) ∧ KeyInv s l

/-- The pool `t` has the links, keys and reference counts of `s`. -/
def sameMeta (s t : State) : Prop :=
  ∀ q, (t.deref q).next = (s.deref q).next ∧ (t.deref q).prev = (s.deref q).prev ∧
    (t.deref q).dev = (s.deref q).dev ∧ (t.deref q).blockno = (s.deref q).blockno ∧
    (t.deref q).refcnt = (s.deref q).refcnt

/-- The pool states reachable from `binit` on a pool of `NBUF` buffers through
the interface of the cache: returning calls of `bread`, `bwrite`, `brelse`,
`bpin` and `bunpin` by any processes, the last three on buffers of the pool
whose `refcnt` is positive (`bget` is static and runs only inside `bread`). -/
inductive ApiReachable (NBUF : Nat) : State → Prop where
  | binit (disk : Nat → Nat → List Nat) : ApiReachable NBUF (binit NBUF (boot disk))
  | bread {s s' : State} (fuel pid dev blockno : Nat) (b : Ptr) :
      ApiReachable NBUF s → NBUF < fuel →
      bread fuel pid dev blockno s = Result.ok b s' → ApiReachable NBUF s'
  | bwrite {s s' : State} (pid : Nat) (b : Ptr) :
      ApiReachable NBUF s → bwrite pid b s = Result.ok () s' → ApiReachable NBUF s'
  | brelse {s s' : State} (pid i : Nat) :
      ApiReachable NBUF s → i < NBUF → 0 < (s.deref (Ptr.slot i)).refcnt →
      brelse pid (Ptr.slot i) s = Result.ok () s' → ApiReachable NBUF s'
  | bpin {s s' : State} (i : Nat) :
      ApiReachable NBUF s → i < NBUF → 0 < (s.deref (Ptr.slot i)).refcnt →
      bpin (Ptr.slot i) s = Result.ok () s' → ApiReachable NBUF s'
  | bunpin {s s' : State} (i : Nat) :
      ApiReachable NBUF s → i < NBUF → 0 < (s.deref (Ptr.slot i)).refcnt →
      bunpin (Ptr.slot i) s = Result.ok () s' → ApiReachable NBUF s'

/-- The `valid` flag of every buffer is 0 or 1, and a buffer whose flag is 0 has
`refcnt = 0`. -/
def ValidInv (s : State) : Prop :=
  ∀ q, ((s.deref q).valid = 0 ∨ (s.deref q).valid = 1) ∧
    ((s.deref q).valid = 0 → (s.deref q).refcnt = 0)

/-- `LruRun NBUF s c r`: the pool `s` arises from a freshly initialised pool of
`NBUF` buffers by a sequence of returning `bread` and `brelse` calls, `c` of
them `brelse` calls, and `r i` is the number of the last `brelse` of `buf[i]` in
that sequence (0 if `buf[i]` was never released).  A `brelse` returns only for
the holder of the content lock, and a `bread` returns only when the content
lock of its buffer is free. -/
inductive LruRun (NBUF : Nat) : State → Nat → (Nat → Nat) → Prop where
  | binit (disk : Nat → Nat → List Nat) : LruRun NBUF (binit NBUF (boot disk)) 0 (fun _ => 0)
  | bread {s s' : State} {c : Nat} {r : Nat → Nat} (fuel pid dev blockno : Nat) (b : Ptr) :
      LruRun NBUF s c r → NBUF < fuel →
      bread fuel pid dev blockno s = Result.ok b s' → LruRun NBUF s' c r
  | brelse {s s' : State} {c : Nat} {r : Nat → Nat} (pid i : Nat) :
      LruRun NBUF s c r → i < NBUF →
      brelse pid (Ptr.slot i) s = Result.ok () s' →
      LruRun NBUF s' (c + 1) (fun j => if j = i then c + 1 else r j)

/-- The invariant of `LruRun`: a buffer is either unreferenced and unlocked or
referenced once and locked, no release is numbered above `c`, and along the
recency list the release numbers decrease strictly until the buffers never
released. -/
def LruInv (s : State) (c : Nat) (r : Nat → Nat) (l : List Nat) : Prop :=
  (∀ i ∈ l, ((s.deref (Ptr.slot i)).refcnt = 0 ∧ (s.deref (Ptr.slot i)).lock.holder = none) ∨
    ((s.deref (Ptr.slot i)).refcnt = 1 ∧ (s.deref (Ptr.slot i)).lock.holder ≠ none)) ∧
  (∀ i, r i ≤ c) ∧
  l.Pairwise fun a b => r b < r a ∨ r b = 0

/-- A backing store whose block `(d, n)` holds the two bytes `d`, `n`. -/
def disk0 : Nat → Nat → List Nat := fun d n => [d, n]

/-- A freshly initialised pool of two buffers. -/
def pool2 : State := binit 2 (boot disk0)

/-- The pool `pool2` after `bread(1, 1)` by process 7. -/
def pool2_held : State := (bread 3 7 1 1 pool2).stateD pool2

/-- The pool `pool2_held` after `bpin` of `buf[0]` and its release by process 7. -/
def pool2_pinned : State :=
  (brelse 7 (Ptr.slot 0) ((bpin (Ptr.slot 0) pool2_held).stateD pool2)).stateD pool2

/-- The pool `pool2_pinned` after `bread(1, 2)` by process 8. -/
def pool2_other : State := (bread 3 8 1 2 pool2_pinned).stateD pool2

/-! ## Further observations -/

/-- The pool `t` has the `prev` and `next` links of `s`, at the sentinel and at
every buffer. -/
def sameLinks (s t : State) : Prop :=
  ∀ q, (t.deref q).next = (s.deref q).next ∧ (t.deref q).prev = (s.deref q).prev

/-- `PinRun NBUF s c q z p`: the pool `s` arises from a freshly initialised pool of
`NBUF` buffers by a sequence of returning `bread`, `brelse`, `bpin` and `bunpin` calls on
buffers of the pool, `c` of them `brelse` calls.  `q i` is the number of the last `brelse`
of `buf[i]` in that sequence and `z i` the number of the last `brelse` of `buf[i]` that
brought its `refcnt` to 0 (0: there was none); `p i` counts the `bpin` calls on `buf[i]`
not yet matched by a `bunpin`.  A `brelse` returns only for the holder of the content
lock, and `bunpin` is called only on a buffer with an unmatched `bpin`. -/
inductive PinRun (NBUF : Nat) :
    State → Nat → (Nat → Nat) → (Nat → Nat) → (Nat → Nat) → Prop where
  | binit (disk : Nat → Nat → List Nat) :
      PinRun NBUF (binit NBUF (boot disk)) 0 (fun _ => 0) (fun _ => 0) (fun _ => 0)
  | bread {s s' : State} {c : Nat} {q z p : Nat → Nat} (fuel pid dev blockno : Nat) (b : Ptr) :
      PinRun NBUF s c q z p → NBUF < fuel →
      bread fuel pid dev blockno s = Result.ok b s' → PinRun NBUF s' c q z p
  | brelse {s s' : State} {c : Nat} {q z p : Nat → Nat} (pid i : Nat) :
      PinRun NBUF s c q z p → i < NBUF →
      brelse pid (Ptr.slot i) s = Result.ok () s' →
      PinRun NBUF s' (c + 1) (fun j => if j = i then c + 1 else q j)
        (fun j => if j = i ∧ (s'.deref (Ptr.slot i)).refcnt = 0 then c + 1 else z j) p
  | bpin {s s' : State} {c : Nat} {q z p : Nat → Nat} (i : Nat) :
      PinRun NBUF s c q z p → i < NBUF →
      bpin (Ptr.slot i) s = Result.ok () s' →
      PinRun NBUF s' c q z (fun j => if j = i then p j + 1 else p j)
  | bunpin {s s' : State} {c : Nat} {q z p : Nat → Nat} (i : Nat) :
      PinRun NBUF s c q z p → i < NBUF → 0 < p i →
      bunpin (Ptr.slot i) s = Result.ok () s' →
      PinRun NBUF s' c q z (fun j => if j = i then p j - 1 else p j)

/-- The pool `pool2_held` (process 7 holds `buf[0]` for block `(1, 1)`) after `bpin` of
`buf[0]`. -/
def tie1 : State := (bpin (Ptr.slot 0) pool2_held).stateD pool2

/-- The pool `tie1` after `bread(1, 2)` by process 8, which takes `buf[1]`. -/
def tie2 : State := (bread 3 8 1 2 tie1).stateD pool2

/-- The pool `tie2` after process 8 released `buf[1]`. -/
def tie3 : State := (brelse 8 (Ptr.slot 1) tie2).stateD pool2

/-- The pool `tie3` after process 7 released `buf[0]`. -/
def tie4 : State := (brelse 7 (Ptr.slot 0) tie3).stateD pool2

/-- The pool `tie4` after `bunpin` of `buf[0]`: both buffers have `refcnt = 0`. -/
def tie5 : State := (bunpin (Ptr.slot 0) tie4).stateD pool2

/-- The pool `pool2_held` after `bunpin` of `buf[0]`: process 7 still holds the content lock
of `buf[0]`, whose `refcnt` is 0. -/
def pool2_unpinned : State := (bunpin (Ptr.slot 0) pool2_held).stateD pool2

/-- `Call NBUF s t`: one call of `bget`, `bread`, `bwrite`, `brelse`, `bpin` or `bunpin`, by
any process and with any arguments, takes the pool `s` to the pool `t`, whatever its outcome
(returned, asleep, spinning or halted).  `brelse` is given a buffer of the pool. -/
inductive Call (NBUF : Nat) (s t : State) : Prop where
  | bget (fuel pid dev blockno : Nat) :
      (bget fuel pid dev blockno s).after? = some t → Call NBUF s t
  | bread (fuel pid dev blockno : Nat) :
      (bread fuel pid dev blockno s).after? = some t → Call NBUF s t
  | bwrite (pid : Nat) (b : Ptr) : (bwrite pid b s).after? = some t → Call NBUF s t
  | brelse (pid i : Nat) :
      i < NBUF → (brelse pid (Ptr.slot i) s).after? = some t → Call NBUF s t
  | bpin (b : Ptr) : (bpin b s).after? = some t → Call NBUF s t
  | bunpin (b : Ptr) : (bunpin b s).after? = some t → Call NBUF s t

/-- The pools that arise from `binit` on `NBUF` buffers by any sequence of calls. -/
inductive Calls (NBUF : Nat) : State → Prop where
  | binit (disk : Nat → Nat → List Nat) : Calls NBUF (binit NBUF (boot disk))
  | call {s t : State} : Calls NBUF s → Call NBUF s t → Calls NBUF t

/-- The pool `pool2_held` after process 7 released `buf[0]` and read block `(1, 1)` again:
process 7 holds `buf[0]`, the most recently used buffer. -/
def pool2_front : State :=
  (bread 3 7 1 1 ((brelse 7 (Ptr.slot 0) pool2_held).stateD pool2)).stateD pool2

/-- The pool left by a call that did not halt in `panic`: it returned, sleeps on a content
lock or busy-waits for the structural lock. -/
def Result.running? {α : Type} : Result α → Option State
  | Result.ok _ s => some s
  | Result.spin s => some s
  | Result.sleep _ s => some s
  | Result.panic _ _ => none
  | Result.outOfFuel => none

/-- Replay of the collaborator calls of one thread, oldest first; `held` tells whether the
thread holds the structural lock.  The result is true when every `acquiresleep` and every
transfer of `virtio_disk_rw` happens with the structural lock not held, and the lock is not
held at the end of the log. -/
def lock_order : Bool → List Event → Bool
  | held, [] => !held
  | _, Event.acquire :: t => lock_order true t
  | _, Event.release :: t => lock_order false t
  | held, Event.releasesleep _ :: t => lock_order held t
  | held, Event.acquiresleep _ _ :: t => !held && lock_order held t
  | held, Event.disk_read _ _ :: t => !held && lock_order held t
  | held, Event.disk_write _ _ _ :: t => !held && lock_order held t

/-- The collaborator calls logged from the pool `s` to the pool `t` by a thread that did not
hold the structural lock at `s` respect the lock order. -/
def ordered (s t : State) : Prop :=
  ∃ ev, t.trace = ev ++ s.trace ∧ lock_order false ev.reverse = true

/-- One call of `bunpin` on each of the buffers `buf[0..n)`. -/
def bunpin_all : Nat → State → State
  | 0, s => s
  | n + 1, s => (bunpin (Ptr.slot n) (bunpin_all n s)).stateD (bunpin_all n s)


/-! ## Memory -/

theorem head_eq_deref (s : State) : s.head = s.deref Ptr.head := rfl

theorem deref_store (s : State) (p q : Ptr) (v : buf) :
    (s.store p v).deref q = if q = p then v else s.deref q := by
  cases p <;> cases q <;> simp [State.store, State.deref]

theorem lock_store (s : State) (p : Ptr) (v : buf) : (s.store p v).lock = s.lock := by
  cases p <;> rfl

theorem disk_store (s : State) (p : Ptr) (v : buf) : (s.store p v).disk = s.disk := by
  cases p <;> rfl

theorem trace_store (s : State) (p : Ptr) (v : buf) : (s.store p v).trace = s.trace := by
  cases p <;> rfl

@[simp] theorem deref_with_trace (s : State) (t : List Event) (p : Ptr) :
    ({ s with trace := t } : State).deref p = s.deref p := by
  cases p <;> rfl

@[simp] theorem deref_with_lock (s : State) (k : spinlock) (p : Ptr) :
    ({ s with lock := k } : State).deref p = s.deref p := by
  cases p <;> rfl

@[simp] theorem deref_with_lock_trace (s : State) (k : spinlock) (t : List Event) (p : Ptr) :
    ({ s with lock := k, trace := t } : State).deref p = s.deref p := by
  cases p <;> rfl

@[simp] theorem deref_with_disk_trace (s : State) (k : Nat → Nat → List Nat) (t : List Event)
    (p : Ptr) : ({ s with disk := k, trace := t } : State).deref p = s.deref p := by
  cases p <;> rfl

theorem state_ext {s t : State} (hl : s.lock = t.lock) (hd : ∀ p, s.deref p = t.deref p)
    (hk : s.disk = t.disk) (ht : s.trace = t.trace) : s = t := by
  cases s; cases t
  simp only [State.mk.injEq]
  refine ⟨hl, ?_, ?_, hk, ht⟩
  · funext i; exact hd (Ptr.slot i)
  · exact hd Ptr.head

@[simp] theorem st_lock_set_valid (s : State) (p : Ptr) v : (s.set_valid p v).lock = s.lock :=
  lock_store _ _ _

@[simp] theorem st_disk_set_valid (s : State) (p : Ptr) v : (s.set_valid p v).disk = s.disk :=
  disk_store _ _ _

@[simp] theorem st_trace_set_valid (s : State) (p : Ptr) v : (s.set_valid p v).trace = s.trace :=
  trace_store _ _ _

@[simp] theorem valid_set_valid (s : State) (p q : Ptr) v :
    ((s.set_valid p v).deref q).valid = if q = p then v else (s.deref q).valid := by
  rw [State.set_valid, deref_store]; split <;> rfl

@[simp] theorem disk_set_valid (s : State) (p q : Ptr) v :
    ((s.set_valid p v).deref q).disk = (s.deref q).disk := by
  rw [State.set_valid, deref_store]; split
  · next h => rw [h]
  · rfl

@[simp] theorem dev_set_valid (s : State) (p q : Ptr) v :
    ((s.set_valid p v).deref q).dev = (s.deref q).dev := by
  rw [State.set_valid, deref_store]; split
  · next h => rw [h]
  · rfl

@[simp] theorem blockno_set_valid (s : State) (p q : Ptr) v :
    ((s.set_valid p v).deref q).blockno = (s.deref q).blockno := by
  rw [State.set_valid, deref_store]; split
  · next h => rw [h]
  · rfl

@[simp] theorem lock_set_valid (s : State) (p q : Ptr) v :
    ((s.set_valid p v).deref q).lock = (s.deref q).lock := by
  rw [State.set_valid, deref_store]; split
  · next h => rw [h]
  · rfl

@[simp] theorem refcnt_set_valid (s : State) (p q : Ptr) v :
    ((s.set_valid p v).deref q).refcnt = (s.deref q).refcnt := by
  rw [State.set_valid, deref_store]; split
  · next h => rw [h]
  · rfl

@[simp] theorem prev_set_valid (s : State) (p q : Ptr) v :
    ((s.set_valid p v).deref q).prev = (s.deref q).prev := by
  rw [State.set_valid, deref_store]; split
  · next h => rw [h]
  · rfl

@[simp] theorem next_set_valid (s : State) (p q : Ptr) v :
    ((s.set_valid p v).deref q).next = (s.deref q).next := by
  rw [State.set_valid, deref_store]; split
  · next h => rw [h]
  · rfl

@[simp] theorem data_set_valid (s : State) (p q : Ptr) v :
    ((s.set_valid p v).deref q).data = (s.deref q).data := by
  rw [State.set_valid, deref_store]; split
  · next h => rw [h]
  · rfl

@[simp] theorem st_lock_set_dev (s : State) (p : Ptr) v : (s.set_dev p v).lock = s.lock :=
  lock_store _ _ _

@[simp] theorem st_disk_set_dev (s : State) (p : Ptr) v : (s.set_dev p v).disk = s.disk :=
  disk_store _ _ _

@[simp] theorem st_trace_set_dev (s : State) (p : Ptr) v : (s.set_dev p v).trace = s.trace :=
  trace_store _ _ _

@[simp] theorem valid_set_dev (s : State) (p q : Ptr) v :
    ((s.set_dev p v).deref q).valid = (s.deref q).valid := by
  rw [State.set_dev, deref_store]; split
  · next h => rw [h]
  · rfl

@[simp] theorem disk_set_dev (s : State) (p q : Ptr) v :
    ((s.set_dev p v).deref q).disk = (s.deref q).disk := by
  rw [State.set_dev, deref_store]; split
  · next h => rw [h]
  · rfl

@[simp] theorem dev_set_dev (s : State) (p q : Ptr) v :
    ((s.set_dev p v).deref q).dev = if q = p then v else (s.deref q).dev := by
  rw [State.set_dev, deref_store]; split <;> rfl

@[simp] theorem blockno_set_dev (s : State) (p q : Ptr) v :
    ((s.set_dev p v).deref q).blockno = (s.deref q).blockno := by
  rw [State.set_dev, deref_store]; split
  · next h => rw [h]
  · rfl

@[simp] theorem lock_set_dev (s : State) (p q : Ptr) v :
    ((s.set_dev p v).deref q).lock = (s.deref q).lock := by
  rw [State.set_dev, deref_store]; split
  · next h => rw [h]
  · rfl

@[simp] theorem refcnt_set_dev (s : State) (p q : Ptr) v :
    ((s.set_dev p v).deref q).refcnt = (s.deref q).refcnt := by
  rw [State.set_dev, deref_store]; split
  · next h => rw [h]
  · rfl

@[simp] theorem prev_set_dev (s : State) (p q : Ptr) v :
    ((s.set_dev p v).deref q).prev = (s.deref q).prev := by
  rw [State.set_dev, deref_store]; split
  · next h => rw [h]
  · rfl

@[simp] theorem next_set_dev (s : State) (p q : Ptr) v :
    ((s.set_dev p v).deref q).next = (s.deref q).next := by
  rw [State.set_dev, deref_store]; split
  · next h => rw [h]
  · rfl

@[simp] theorem data_set_dev (s : State) (p q : Ptr) v :
    ((s.set_dev p v).deref q).data = (s.deref q).data := by
  rw [State.set_dev, deref_store]; split
  · next h => rw [h]
  · rfl

@[simp] theorem st_lock_set_blockno (s : State) (p : Ptr) v : (s.set_blockno p v).lock = s.lock :=
  lock_store _ _ _

@[simp] theorem st_disk_set_blockno (s : State) (p : Ptr) v : (s.set_blockno p v).disk = s.disk :=
  disk_store _ _ _

@[simp] theorem st_trace_set_blockno (s : State) (p : Ptr) v : (s.set_blockno p v).trace = s.trace :=
  trace_store _ _ _

@[simp] theorem valid_set_blockno (s : State) (p q : Ptr) v :
    ((s.set_blockno p v).deref q).valid = (s.deref q).valid := by
  rw [State.set_blockno, deref_store]; split
  · next h => rw [h]
  · rfl

@[simp] theorem disk_set_blockno (s : State) (p q : Ptr) v :
    ((s.set_blockno p v).deref q).disk = (s.deref q).disk := by
  rw [State.set_blockno, deref_store]; split
  · next h => rw [h]
  · rfl

@[simp] theorem dev_set_blockno (s : State) (p q : Ptr) v :
    ((s.set_blockno p v).deref q).dev = (s.deref q).dev := by
  rw [State.set_blockno, deref_store]; split
  · next h => rw [h]
  · rfl

@[simp] theorem blockno_set_blockno (s : State) (p q : Ptr) v :
    ((s.set_blockno p v).deref q).blockno = if q = p then v else (s.deref q).blockno := by
  rw [State.set_blockno, deref_store]; split <;> rfl

@[simp] theorem lock_set_blockno (s : State) (p q : Ptr) v :
    ((s.set_blockno p v).deref q).lock = (s.deref q).lock := by
  rw [State.set_blockno, deref_store]; split
  · next h => rw [h]
  · rfl

@[simp] theorem refcnt_set_blockno (s : State) (p q : Ptr) v :
    ((s.set_blockno p v).deref q).refcnt = (s.deref q).refcnt := by
  rw [State.set_blockno, deref_store]; split
  · next h => rw [h]
  · rfl

@[simp] theorem prev_set_blockno (s : State) (p q : Ptr) v :
    ((s.set_blockno p v).deref q).prev = (s.deref q).prev := by
  rw [State.set_blockno, deref_store]; split
  · next h => rw [h]
  · rfl

@[simp] theorem next_set_blockno (s : State) (p q : Ptr) v :
    ((s.set_blockno p v).deref q).next = (s.deref q).next := by
  rw [State.set_blockno, deref_store]; split
  · next h => rw [h]
  · rfl

@[simp] theorem data_set_blockno (s : State) (p q : Ptr) v :
    ((s.set_blockno p v).deref q).data = (s.deref q).data := by
  rw [State.set_blockno, deref_store]; split
  · next h => rw [h]
  · rfl

@[simp] theorem st_lock_set_lock (s : State) (p : Ptr) v : (s.set_lock p v).lock = s.lock :=
  lock_store _ _ _

@[simp] theorem st_disk_set_lock (s : State) (p : Ptr) v : (s.set_lock p v).disk = s.disk :=
  disk_store _ _ _

@[simp] theorem st_trace_set_lock (s : State) (p : Ptr) v : (s.set_lock p v).trace = s.trace :=
  trace_store _ _ _

@[simp] theorem valid_set_lock (s : State) (p q : Ptr) v :
    ((s.set_lock p v).deref q).valid = (s.deref q).valid := by
  rw [State.set_lock, deref_store]; split
  · next h => rw [h]
  · rfl

@[simp] theorem disk_set_lock (s : State) (p q : Ptr) v :
    ((s.set_lock p v).deref q).disk = (s.deref q).disk := by
  rw [State.set_lock, deref_store]; split
  · next h => rw [h]
  · rfl

@[simp] theorem dev_set_lock (s : State) (p q : Ptr) v :
    ((s.set_lock p v).deref q).dev = (s.deref q).dev := by
  rw [State.set_lock, deref_store]; split
  · next h => rw [h]
  · rfl

@[simp] theorem blockno_set_lock (s : State) (p q : Ptr) v :
    ((s.set_lock p v).deref q).blockno = (s.deref q).blockno := by
  rw [State.set_lock, deref_store]; split
  · next h => rw [h]
  · rfl

@[simp] theorem lock_set_lock (s : State) (p q : Ptr) v :
    ((s.set_lock p v).deref q).lock = if q = p then v else (s.deref q).lock := by
  rw [State.set_lock, deref_store]; split <;> rfl

@[simp] theorem refcnt_set_lock (s : State) (p q : Ptr) v :
    ((s.set_lock p v).deref q).refcnt = (s.deref q).refcnt := by
  rw [State.set_lock, deref_store]; split
  · next h => rw [h]
  · rfl

@[simp] theorem prev_set_lock (s : State) (p q : Ptr) v :
    ((s.set_lock p v).deref q).prev = (s.deref q).prev := by
  rw [State.set_lock, deref_store]; split
  · next h => rw [h]
  · rfl

@[simp] theorem next_set_lock (s : State) (p q : Ptr) v :
    ((s.set_lock p v).deref q).next = (s.deref q).next := by
  rw [State.set_lock, deref_store]; split
  · next h => rw [h]
  · rfl

@[simp] theorem data_set_lock (s : State) (p q : Ptr) v :
    ((s.set_lock p v).deref q).data = (s.deref q).data := by
  rw [State.set_lock, deref_store]; split
  · next h => rw [h]
  · rfl

@[simp] theorem st_lock_set_refcnt (s : State) (p : Ptr) v : (s.set_refcnt p v).lock = s.lock :=
  lock_store _ _ _

@[simp] theorem st_disk_set_refcnt (s : State) (p : Ptr) v : (s.set_refcnt p v).disk = s.disk :=
  disk_store _ _ _

@[simp] theorem st_trace_set_refcnt (s : State) (p : Ptr) v : (s.set_refcnt p v).trace = s.trace :=
  trace_store _ _ _

@[simp] theorem valid_set_refcnt (s : State) (p q : Ptr) v :
    ((s.set_refcnt p v).deref q).valid = (s.deref q).valid := by
  rw [State.set_refcnt, deref_store]; split
  · next h => rw [h]
  · rfl

@[simp] theorem disk_set_refcnt (s : State) (p q : Ptr) v :
    ((s.set_refcnt p v).deref q).disk = (s.deref q).disk := by
  rw [State.set_refcnt, deref_store]; split
  · next h => rw [h]
  · rfl

@[simp] theorem dev_set_refcnt (s : State) (p q : Ptr) v :
    ((s.set_refcnt p v).deref q).dev = (s.deref q).dev := by
  rw [State.set_refcnt, deref_store]; split
  · next h => rw [h]
  · rfl

@[simp] theorem blockno_set_refcnt (s : State) (p q : Ptr) v :
    ((s.set_refcnt p v).deref q).blockno = (s.deref q).blockno := by
  rw [State.set_refcnt, deref_store]; split
  · next h => rw [h]
  · rfl

@[simp] theorem lock_set_refcnt (s : State) (p q : Ptr) v :
    ((s.set_refcnt p v).deref q).lock = (s.deref q).lock := by
  rw [State.set_refcnt, deref_store]; split
  · next h => rw [h]
  · rfl

@[simp] theorem refcnt_set_refcnt (s : State) (p q : Ptr) v :
    ((s.set_refcnt p v).deref q).refcnt = if q = p then v else (s.deref q).refcnt := by
  rw [State.set_refcnt, deref_store]; split <;> rfl

@[simp] theorem prev_set_refcnt (s : State) (p q : Ptr) v :
    ((s.set_refcnt p v).deref q).prev = (s.deref q).prev := by
  rw [State.set_refcnt, deref_store]; split
  · next h => rw [h]
  · rfl

@[simp] theorem next_set_refcnt (s : State) (p q : Ptr) v :
    ((s.set_refcnt p v).deref q).next = (s.deref q).next := by
  rw [State.set_refcnt, deref_store]; split
  · next h => rw [h]
  · rfl

@[simp] theorem data_set_refcnt (s : State) (p q : Ptr) v :
    ((s.set_refcnt p v).deref q).data = (s.deref q).data := by
  rw [State.set_refcnt, deref_store]; split
  · next h => rw [h]
  · rfl

@[simp] theorem st_lock_set_prev (s : State) (p : Ptr) v : (s.set_prev p v).lock = s.lock :=
  lock_store _ _ _

@[simp] theorem st_disk_set_prev (s : State) (p : Ptr) v : (s.set_prev p v).disk = s.disk :=
  disk_store _ _ _

@[simp] theorem st_trace_set_prev (s : State) (p : Ptr) v : (s.set_prev p v).trace = s.trace :=
  trace_store _ _ _

@[simp] theorem valid_set_prev (s : State) (p q : Ptr) v :
    ((s.set_prev p v).deref q).valid = (s.deref q).valid := by
  rw [State.set_prev, deref_store]; split
  · next h => rw [h]
  · rfl

@[simp] theorem disk_set_prev (s : State) (p q : Ptr) v :
    ((s.set_prev p v).deref q).disk = (s.deref q).disk := by
  rw [State.set_prev, deref_store]; split
  · next h => rw [h]
  · rfl

@[simp] theorem dev_set_prev (s : State) (p q : Ptr) v :
    ((s.set_prev p v).deref q).dev = (s.deref q).dev := by
  rw [State.set_prev, deref_store]; split
  · next h => rw [h]
  · rfl

@[simp] theorem blockno_set_prev (s : State) (p q : Ptr) v :
    ((s.set_prev p v).deref q).blockno = (s.deref q).blockno := by
  rw [State.set_prev, deref_store]; split
  · next h => rw [h]
  · rfl

@[simp] theorem lock_set_prev (s : State) (p q : Ptr) v :
    ((s.set_prev p v).deref q).lock = (s.deref q).lock := by
  rw [State.set_prev, deref_store]; split
  · next h => rw [h]
  · rfl

@[simp] theorem refcnt_set_prev (s : State) (p q : Ptr) v :
    ((s.set_prev p v).deref q).refcnt = (s.deref q).refcnt := by
  rw [State.set_prev, deref_store]; split
  · next h => rw [h]
  · rfl

@[simp] theorem prev_set_prev (s : State) (p q : Ptr) v :
    ((s.set_prev p v).deref q).prev = if q = p then v else (s.deref q).prev := by
  rw [State.set_prev, deref_store]; split <;> rfl

@[simp] theorem next_set_prev (s : State) (p q : Ptr) v :
    ((s.set_prev p v).deref q).next = (s.deref q).next := by
  rw [State.set_prev, deref_store]; split
  · next h => rw [h]
  · rfl

@[simp] theorem data_set_prev (s : State) (p q : Ptr) v :
    ((s.set_prev p v).deref q).data = (s.deref q).data := by
  rw [State.set_prev, deref_store]; split
  · next h => rw [h]
  · rfl

@[simp] theorem st_lock_set_next (s : State) (p : Ptr) v : (s.set_next p v).lock = s.lock :=
  lock_store _ _ _

@[simp] theorem st_disk_set_next (s : State) (p : Ptr) v : (s.set_next p v).disk = s.disk :=
  disk_store _ _ _

@[simp] theorem st_trace_set_next (s : State) (p : Ptr) v : (s.set_next p v).trace = s.trace :=
  trace_store _ _ _

@[simp] theorem valid_set_next (s : State) (p q : Ptr) v :
    ((s.set_next p v).deref q).valid = (s.deref q).valid := by
  rw [State.set_next, deref_store]; split
  · next h => rw [h]
  · rfl

@[simp] theorem disk_set_next (s : State) (p q : Ptr) v :
    ((s.set_next p v).deref q).disk = (s.deref q).disk := by
  rw [State.set_next, deref_store]; split
  · next h => rw [h]
  · rfl

@[simp] theorem dev_set_next (s : State) (p q : Ptr) v :
    ((s.set_next p v).deref q).dev = (s.deref q).dev := by
  rw [State.set_next, deref_store]; split
  · next h => rw [h]
  · rfl

@[simp] theorem blockno_set_next (s : State) (p q : Ptr) v :
    ((s.set_next p v).deref q).blockno = (s.deref q).blockno := by
  rw [State.set_next, deref_store]; split
  · next h => rw [h]
  · rfl

@[simp] theorem lock_set_next (s : State) (p q : Ptr) v :
    ((s.set_next p v).deref q).lock = (s.deref q).lock := by
  rw [State.set_next, deref_store]; split
  · next h => rw [h]
  · rfl

@[simp] theorem refcnt_set_next (s : State) (p q : Ptr) v :
    ((s.set_next p v).deref q).refcnt = (s.deref q).refcnt := by
  rw [State.set_next, deref_store]; split
  · next h => rw [h]
  · rfl

@[simp] theorem prev_set_next (s : State) (p q : Ptr) v :
    ((s.set_next p v).deref q).prev = (s.deref q).prev := by
  rw [State.set_next, deref_store]; split
  · next h => rw [h]
  · rfl

@[simp] theorem next_set_next (s : State) (p q : Ptr) v :
    ((s.set_next p v).deref q).next = if q = p then v else (s.deref q).next := by
  rw [State.set_next, deref_store]; split <;> rfl

@[simp] theorem data_set_next (s : State) (p q : Ptr) v :
    ((s.set_next p v).deref q).data = (s.deref q).data := by
  rw [State.set_next, deref_store]; split
  · next h => rw [h]
  · rfl

@[simp] theorem st_lock_set_data (s : State) (p : Ptr) v : (s.set_data p v).lock = s.lock :=
  lock_store _ _ _

@[simp] theorem st_disk_set_data (s : State) (p : Ptr) v : (s.set_data p v).disk = s.disk :=
  disk_store _ _ _

@[simp] theorem st_trace_set_data (s : State) (p : Ptr) v : (s.set_data p v).trace = s.trace :=
  trace_store _ _ _

@[simp] theorem valid_set_data (s : State) (p q : Ptr) v :
    ((s.set_data p v).deref q).valid = (s.deref q).valid := by
  rw [State.set_data, deref_store]; split
  · next h => rw [h]
  · rfl

@[simp] theorem disk_set_data (s : State) (p q : Ptr) v :
    ((s.set_data p v).deref q).disk = (s.deref q).disk := by
  rw [State.set_data, deref_store]; split
  · next h => rw [h]
  · rfl

@[simp] theorem dev_set_data (s : State) (p q : Ptr) v :
    ((s.set_data p v).deref q).dev = (s.deref q).dev := by
  rw [State.set_data, deref_store]; split
  · next h => rw [h]
  · rfl

@[simp] theorem blockno_set_data (s : State) (p q : Ptr) v :
    ((s.set_data p v).deref q).blockno = (s.deref q).blockno := by
  rw [State.set_data, deref_store]; split
  · next h => rw [h]
  · rfl

@[simp] theorem lock_set_data (s : State) (p q : Ptr) v :
    ((s.set_data p v).deref q).lock = (s.deref q).lock := by
  rw [State.set_data, deref_store]; split
  · next h => rw [h]
  · rfl

@[simp] theorem refcnt_set_data (s : State) (p q : Ptr) v :
    ((s.set_data p v).deref q).refcnt = (s.deref q).refcnt := by
  rw [State.set_data, deref_store]; split
  · next h => rw [h]
  · rfl

@[simp] theorem prev_set_data (s : State) (p q : Ptr) v :
    ((s.set_data p v).deref q).prev = (s.deref q).prev := by
  rw [State.set_data, deref_store]; split
  · next h => rw [h]
  · rfl

@[simp] theorem next_set_data (s : State) (p q : Ptr) v :
    ((s.set_data p v).deref q).next = (s.deref q).next := by
  rw [State.set_data, deref_store]; split
  · next h => rw [h]
  · rfl

@[simp] theorem data_set_data (s : State) (p q : Ptr) v :
    ((s.set_data p v).deref q).data = if q = p then v else (s.deref q).data := by
  rw [State.set_data, deref_store]; split <;> rfl



/-! ## The six link assignments of `brelse` -/

/-- Pointwise description of the `next` links after the six assignments. -/
theorem brelse_move_next (s : State) (b : Ptr) (hb : b ≠ Ptr.head)
    (hN : (s.deref b).next ≠ b) (q : Ptr) :
    ((brelse_move b s).deref q).next =
      if q = Ptr.head then b
      else if q = b then
        (if Ptr.head = (s.deref b).prev then (s.deref b).next else (s.deref Ptr.head).next)
      else if q = (s.deref b).prev then (s.deref b).next
      else (s.deref q).next := by
  simp only [brelse_move, head_eq_deref, next_set_next, next_set_prev, prev_set_next, prev_set_prev,
    hb, hN, hb.symm, hN.symm, if_true, if_false, ite_self]

/-- Pointwise description of the `prev` links after the six assignments. -/
theorem brelse_move_prev (s : State) (b : Ptr) (hb : b ≠ Ptr.head)
    (hN : (s.deref b).next ≠ b) (q : Ptr) :
    ((brelse_move b s).deref q).prev =
      if q = (if Ptr.head = (s.deref b).prev then (s.deref b).next else (s.deref Ptr.head).next)
        then b
      else if q = b then Ptr.head
      else if q = (s.deref b).next then (s.deref b).prev
      else (s.deref q).prev := by
  simp only [brelse_move, head_eq_deref, next_set_next, next_set_prev, prev_set_next, prev_set_prev,
    hb, hN, hb.symm, hN.symm, if_true, if_false, ite_self]

theorem links_iff_chain' (s : State) : ∀ l : List Ptr, Links s l ↔ List.Chain' (linked s) l
  | [] => by simp [Links]
  | [_] => by simp [Links]
  | a :: b :: l => by
    rw [List.chain'_cons, ← links_iff_chain' s (b :: l)]
    rfl

/-- A link that starts neither at the sentinel nor at `b` and does not end at `b` survives the
move of `b`. -/
theorem linked_brelse_move (s : State) (b : Ptr) (hb : b ≠ Ptr.head)
    (hN : (s.deref b).next ≠ b)
    (hPb : (s.deref (s.deref b).prev).next = b)
    (hbN : (s.deref (s.deref b).next).prev = b)
    (hH : (s.deref (s.deref Ptr.head).next).prev = Ptr.head)
    {q q' : Ptr} (h : linked s q q') (hq : q ≠ Ptr.head) (hqb : q ≠ b) (hq'b : q' ≠ b) :
    linked (brelse_move b s) q q' := by
  obtain ⟨h1, h2⟩ := h
  have hqP : q ≠ (s.deref b).prev := by
    rintro rfl; exact hq'b (by rw [← h1, hPb])
  have hq'N : q' ≠ (s.deref b).next := by
    rintro rfl; exact hqb (by rw [← h2, hbN])
  have hq'F : q' ≠ (if Ptr.head = (s.deref b).prev then (s.deref b).next
      else (s.deref Ptr.head).next) := by
    split
    · exact hq'N
    · rintro rfl; exact hq (by rw [← h2, hH])
  refine ⟨?_, ?_⟩
  · rw [brelse_move_next s b hb hN, if_neg hq, if_neg hqb, if_neg hqP, h1]
  · rw [brelse_move_prev s b hb hN, if_neg hq'F, if_neg hq'b, if_neg hq'N, h2]

/-- The move of `b` on a ring `head, L1, b, L2, head` yields the ring `head, b, L1, L2, head`. -/
theorem chain_brelse_move (s : State) (b : Ptr) (L1 L2 : List Ptr)
    (hc : List.Chain' (linked s) (Ptr.head :: (L1 ++ b :: (L2 ++ [Ptr.head]))))
    (hnd : (Ptr.head :: (L1 ++ b :: L2)).Nodup) :
    List.Chain' (linked (brelse_move b s)) (Ptr.head :: b :: (L1 ++ (L2 ++ [Ptr.head]))) := by
  -- distinctness
  have hnd' := hnd
  rw [List.nodup_cons, List.nodup_append] at hnd'
  obtain ⟨hH, hnd1, hnd2, hdisj⟩ := hnd'
  rw [List.nodup_cons] at hnd2
  have hb : b ≠ Ptr.head := fun h => hH (by simp [h])
  have hL1H : ∀ q ∈ L1, q ≠ Ptr.head := fun q hq h => hH (by simp [← h, hq])
  have hL2H : ∀ q ∈ L2, q ≠ Ptr.head := fun q hq h => hH (by simp [← h, hq])
  have hL1b : ∀ q ∈ L1, q ≠ b := fun q hq h => hdisj hq (by simp [h])
  have hL2b : ∀ q ∈ L2, q ≠ b := fun q hq h => hnd2.1 (h ▸ hq)
  have hL12 : ∀ q ∈ L1, ∀ q' ∈ L2, q ≠ q' := fun q hq q' hq' h =>
    hdisj hq (by simp [h, hq'])
  -- the old ring, taken apart
  rw [List.chain'_cons', List.chain'_append, List.chain'_cons', List.chain'_append] at hc
  obtain ⟨hHy, hC1, ⟨hby, hC2, -, hL2last⟩, hL1last⟩ := hc
  -- the successor of `b`
  obtain ⟨n, hn, hbn, hnmem⟩ : ∃ n, n ∈ (L2 ++ [Ptr.head]).head? ∧ linked s b n ∧
      (n = Ptr.head ∨ n ∈ L2) := by
    cases L2 with
    | nil => exact ⟨Ptr.head, by simp, hby _ (by simp), Or.inl rfl⟩
    | cons c t => exact ⟨c, by simp, hby _ (by simp), Or.inr (by simp)⟩
  have hnb : n ≠ b := by
    rcases hnmem with h | h
    · rw [h]; exact hb.symm
    · exact hL2b n h
  -- the predecessor of `b`
  obtain ⟨p, hpb, hpmem⟩ : ∃ p, linked s p b ∧
      ((p = Ptr.head ∧ L1 = []) ∨ (p ∈ L1.getLast? ∧ p ∈ L1)) := by
    rcases L1.eq_nil_or_concat with h | ⟨t, z, h⟩
    · subst h; exact ⟨Ptr.head, hHy _ (by simp), Or.inl ⟨rfl, rfl⟩⟩
    · subst h
      exact ⟨z, hL1last z (by simp) b (by simp), Or.inr ⟨by simp, by simp⟩⟩
  have hpne : p ≠ b := by
    rcases hpmem with ⟨h, -⟩ | ⟨-, h⟩
    · rw [h]; exact hb.symm
    · exact hL1b p h
  -- the successor of the sentinel
  obtain ⟨f, hf, hHf⟩ : ∃ f, f ∈ (L1 ++ b :: (L2 ++ [Ptr.head])).head? ∧ linked s Ptr.head f := by
    cases L1 with
    | nil => exact ⟨b, by simp, hHy _ (by simp)⟩
    | cons c t => exact ⟨c, by simp, hHy _ (by simp)⟩
  have eP : (s.deref b).prev = p := hpb.2
  have eN : (s.deref b).next = n := hbn.1
  have eF : (s.deref Ptr.head).next = f := hHf.1
  have hP : (s.deref b).prev ≠ b := by rw [eP]; exact hpne
  have hN : (s.deref b).next ≠ b := by rw [eN]; exact hnb
  have keep : ∀ {q q' : Ptr}, linked s q q' → q ≠ Ptr.head → q ≠ b → q' ≠ b →
      linked (brelse_move b s) q q' := fun h h1 h2 h3 =>
    linked_brelse_move s b hb hN (by rw [eP]; exact hpb.1) (by rw [eN]; exact hbn.2)
      (by rw [eF]; exact hHf.2) h h1 h2 h3
  have hnext := brelse_move_next s b hb hN
  have hprev := brelse_move_prev s b hb hN
  rw [eP, eN, eF] at hnext hprev
  have hC1' : List.Chain' (linked (brelse_move b s)) L1 := by
    rw [List.Chain'.iff_mem] at hC1
    exact hC1.imp fun q q' ⟨h1, h2, h3⟩ => keep h3 (hL1H q h1) (hL1b q h1) (hL1b q' h2)
  have hC2' : List.Chain' (linked (brelse_move b s)) L2 := by
    rw [List.Chain'.iff_mem] at hC2
    exact hC2.imp fun q q' ⟨h1, h2, h3⟩ => keep h3 (hL2H q h1) (hL2b q h1) (hL2b q' h2)
  have hlast' : ∀ x ∈ L2.getLast?, ∀ y ∈ [Ptr.head].head?, linked (brelse_move b s) x y := by
    intro x hx y hy
    have hxm := List.mem_of_mem_getLast? hx
    have hy' : y = Ptr.head := by simpa using hy.symm
    subst hy'
    exact keep (hL2last x hx _ hy) (hL2H x hxm) (hL2b x hxm) hb.symm
  -- the new successor of `b`
  obtain ⟨F, eF', hFb, hFhead, hFmem⟩ : ∃ F, (if Ptr.head = p then n else f) = F ∧ F ≠ b ∧
      F ∈ (L1 ++ (L2 ++ [Ptr.head])).head? ∧ (L1 ≠ [] → F ∈ L1) := by
    rcases hpmem with ⟨h1, h2⟩ | ⟨-, h⟩
    · subst h2
      exact ⟨n, by simp [h1], hnb, by simpa using hn, fun h => absurd rfl h⟩
    · have hpH : Ptr.head ≠ p := (hL1H p h).symm
      cases L1 with
      | nil => simp at h
      | cons c t =>
        have hfc : f = c := by simpa using hf.symm
        subst hfc
        exact ⟨f, by simp [hpH], hL1b f (by simp), by simp, fun _ => by simp⟩
  rw [eF'] at hnext hprev
  rw [List.chain'_cons, List.chain'_cons', List.chain'_append, List.chain'_append]
  refine ⟨?_, ?_, hC1', ⟨hC2', List.chain'_singleton _, hlast'⟩, ?_⟩
  · refine ⟨?_, ?_⟩
    · rw [hnext, if_pos rfl]
    · rw [hprev, if_neg hFb.symm, if_pos rfl]
  · intro y hy
    have hy' : y = F := Option.mem_unique hy hFhead
    subst hy'
    refine ⟨?_, ?_⟩
    · rw [hnext, if_neg hb, if_pos rfl]
    · rw [hprev, if_pos rfl]
  · intro x hx y hy
    have hxm := List.mem_of_mem_getLast? hx
    have hxp : x = p := by rw [← hpb.2]; exact ((hL1last x hx b (by simp)).2).symm
    have hyn : y = n := Option.mem_unique hy hn
    subst hxp hyn
    have hFm := hFmem (List.ne_nil_of_mem hxm)
    have hyF : y ≠ F := by
      rcases hnmem with h | h
      · rw [h]; exact (hL1H F hFm).symm
      · exact (hL12 F hFm y h).symm
    refine ⟨?_, ?_⟩
    · rw [hnext, if_neg (hL1H x hxm), if_neg (hL1b x hxm), if_pos rfl]
    · rw [hprev, if_neg hyF, if_neg hnb, if_pos rfl]


theorem cycle_append_cons (l1 l2 : List Nat) (x : Nat) :
    cycle (l1 ++ x :: l2) =
      Ptr.head :: (l1.map Ptr.slot ++ Ptr.slot x :: (l2.map Ptr.slot ++ [Ptr.head])) := by
  simp [cycle]

theorem slot_injective : Function.Injective Ptr.slot := fun _ _ h => by
  injection h

theorem nodup_head_slots {l : List Nat} (h : l.Nodup) :
    (Ptr.head :: l.map Ptr.slot).Nodup := by
  rw [List.nodup_cons]
  exact ⟨by simp, h.map slot_injective⟩

/-- Moving `buf[x]` behind the sentinel turns the recency list `l1 ++ x :: l2` into
`x :: (l1 ++ l2)`. -/
theorem isRing_brelse_move {s : State} {l1 l2 : List Nat} {x : Nat}
    (h : IsRing s (l1 ++ x :: l2)) : IsRing (brelse_move (Ptr.slot x) s) (x :: (l1 ++ l2)) := by
  obtain ⟨hnd, hl⟩ := h
  rw [links_iff_chain', cycle_append_cons] at hl
  have hnd' := nodup_head_slots hnd
  rw [List.map_append, List.map_cons] at hnd'
  have := chain_brelse_move s (Ptr.slot x) _ _ hl hnd'
  refine ⟨?_, ?_⟩
  · have hp : (x :: (l1 ++ l2)).Perm (l1 ++ x :: l2) := List.perm_middle.symm
    exact hp.nodup_iff.mpr hnd
  · rw [links_iff_chain']
    simpa [cycle] using this

/-- The move touches only the links. -/
theorem brelse_move_fields (s : State) (b q : Ptr) :
    ((brelse_move b s).deref q).valid = (s.deref q).valid ∧
    ((brelse_move b s).deref q).disk = (s.deref q).disk ∧
    ((brelse_move b s).deref q).dev = (s.deref q).dev ∧
    ((brelse_move b s).deref q).blockno = (s.deref q).blockno ∧
    ((brelse_move b s).deref q).lock = (s.deref q).lock ∧
    ((brelse_move b s).deref q).refcnt = (s.deref q).refcnt ∧
    ((brelse_move b s).deref q).data = (s.deref q).data := by
  simp [brelse_move]

theorem brelse_move_state (s : State) (b : Ptr) :
    (brelse_move b s).lock = s.lock ∧ (brelse_move b s).disk = s.disk ∧
    (brelse_move b s).trace = s.trace := by
  simp [brelse_move]

/-- A state with the same links has the same recency list. -/
theorem isRing_congr {s t : State} {l : List Nat} (h : IsRing s l)
    (hn : ∀ q, (t.deref q).next = (s.deref q).next)
    (hp : ∀ q, (t.deref q).prev = (s.deref q).prev) : IsRing t l := by
  refine ⟨h.1, ?_⟩
  have := h.2
  rw [links_iff_chain'] at this ⊢
  exact this.imp fun a b ⟨h1, h2⟩ => ⟨by rw [hn, h1], by rw [hp, h2]⟩


/-! ## The two scans of `bget` -/

theorem bget_cached_chain (s : State) (dev blockno : Nat) :
    ∀ (l : List Nat) (a : Ptr) (fuel : Nat),
      List.Chain' (fun p q => (s.deref p).next = q) (a :: (l.map Ptr.slot ++ [Ptr.head])) →
      l.length < fuel →
      bget_cached dev blockno s fuel (s.deref a).next =
        some ((l.find? fun i => decide (bound s dev blockno (Ptr.slot i))).map Ptr.slot)
  | [], a, fuel, hc, hf => by
    obtain ⟨f, rfl⟩ : ∃ f, fuel = f + 1 := ⟨fuel - 1, by simp at hf; omega⟩
    have : (s.deref a).next = Ptr.head := by simpa using hc
    simp [this, bget_cached]
  | i :: t, a, fuel, hc, hf => by
    obtain ⟨f, rfl⟩ : ∃ f, fuel = f + 1 := ⟨fuel - 1, by simp at hf; omega⟩
    rw [List.map_cons, List.cons_append, List.chain'_cons] at hc
    have ih := bget_cached_chain s dev blockno t (Ptr.slot i) f hc.2 (by simp at hf; omega)
    rw [hc.1, bget_cached, if_neg (by simp)]
    by_cases hb : bound s dev blockno (Ptr.slot i)
    · have hb' := hb
      unfold bound at hb'
      simp [hb, hb']
    · have hb' := hb
      unfold bound at hb'
      rw [if_neg hb', ih]
      simp [hb]

theorem bget_recycle_chain (s : State) :
    ∀ (l : List Nat) (a : Ptr) (fuel : Nat),
      List.Chain' (fun p q => (s.deref p).prev = q) (a :: (l.map Ptr.slot ++ [Ptr.head])) →
      l.length < fuel →
      bget_recycle s fuel (s.deref a).prev =
        some ((l.find? fun i => decide ((s.deref (Ptr.slot i)).refcnt = 0)).map Ptr.slot)
  | [], a, fuel, hc, hf => by
    obtain ⟨f, rfl⟩ : ∃ f, fuel = f + 1 := ⟨fuel - 1, by simp at hf; omega⟩
    have : (s.deref a).prev = Ptr.head := by simpa using hc
    simp [this, bget_recycle]
  | i :: t, a, fuel, hc, hf => by
    obtain ⟨f, rfl⟩ : ∃ f, fuel = f + 1 := ⟨fuel - 1, by simp at hf; omega⟩
    rw [List.map_cons, List.cons_append, List.chain'_cons] at hc
    have ih := bget_recycle_chain s t (Ptr.slot i) f hc.2 (by simp at hf; omega)
    rw [hc.1, bget_recycle, if_neg (by simp)]
    by_cases hb : (s.deref (Ptr.slot i)).refcnt = 0
    · simp [hb]
    · rw [if_neg hb, ih]
      simp [hb]

theorem cycle_reverse (l : List Nat) : (cycle l).reverse = cycle l.reverse := by
  simp [cycle]

/-- On a ring, the first scan finds the first buffer of the recency list bound to the key. -/
theorem bget_cached_ring {s : State} {l : List Nat} (h : IsRing s l) (dev blockno fuel : Nat)
    (hf : l.length < fuel) :
    bget_cached dev blockno s fuel s.head.next =
      some ((l.find? fun i => decide (bound s dev blockno (Ptr.slot i))).map Ptr.slot) := by
  have hl := h.2
  rw [links_iff_chain'] at hl
  exact bget_cached_chain s dev blockno l Ptr.head fuel (hl.imp fun _ _ h => h.1) hf

/-- On a ring, the second scan finds the last buffer of the recency list with `refcnt == 0`. -/
theorem bget_recycle_ring {s : State} {l : List Nat} (h : IsRing s l) (fuel : Nat)
    (hf : l.length < fuel) :
    bget_recycle s fuel s.head.prev =
      some ((l.reverse.find? fun i => decide ((s.deref (Ptr.slot i)).refcnt = 0)).map
        Ptr.slot) := by
  have hl := h.2
  rw [links_iff_chain'] at hl
  have hr : List.Chain' (flip (linked s)) (cycle l.reverse) := by
    rw [← cycle_reverse, ← List.chain'_reverse, List.reverse_reverse]
    exact hl
  have := bget_recycle_chain s l.reverse Ptr.head fuel (hr.imp fun _ _ h => h.2)
    (by simpa using hf)
  exact this


/-! ## What the operations do -/

theorem buf_ext {a b : buf} (h1 : a.valid = b.valid) (h2 : a.disk = b.disk) (h3 : a.dev = b.dev)
    (h4 : a.blockno = b.blockno) (h5 : a.lock = b.lock) (h6 : a.refcnt = b.refcnt)
    (h7 : a.prev = b.prev) (h8 : a.next = b.next) (h9 : a.data = b.data) : a = b := by
  cases a; cases b; simp_all

theorem uint_inc_of_lt {x : Nat} (h : x + 1 < 2 ^ 32) : uint_inc x = x + 1 :=
  Nat.mod_eq_of_lt h

theorem uint_dec_succ {x : Nat} (h : x + 1 < 2 ^ 32) : uint_dec (x + 1) = x := by
  unfold uint_dec
  have : x + 1 + 2 ^ 32 - 1 = x + 2 ^ 32 := by omega
  rw [this, Nat.add_mod_right, Nat.mod_eq_of_lt (by omega)]

theorem uint_dec_inc {x : Nat} (h : x < 2 ^ 32) : uint_dec (uint_inc x) = x := by
  unfold uint_dec uint_inc
  omega

theorem acquire_eq {s : State} (h : s.lock.locked = 0) : acquire s = some (acquired s) := by
  simp [acquire, h]

@[simp] theorem deref_acquired (s : State) (p : Ptr) : (acquired s).deref p = s.deref p := by
  cases p <;> rfl

@[simp] theorem deref_release (s : State) (p : Ptr) : (release s).deref p = s.deref p := by
  cases p <;> rfl

@[simp] theorem disk_acquired (s : State) : (acquired s).disk = s.disk := rfl

@[simp] theorem disk_release (s : State) : (release s).disk = s.disk := rfl

@[simp] theorem lock_acquired (s : State) : (acquired s).lock = { locked := 1 } := rfl

@[simp] theorem lock_release (s : State) : (release s).lock = { locked := 0 } := rfl

@[simp] theorem trace_acquired (s : State) : (acquired s).trace = Event.acquire :: s.trace := rfl

@[simp] theorem trace_release (s : State) : (release s).trace = Event.release :: s.trace := rfl

/-- A buffer found by the first scan is not the sentinel and is bound to the key. -/
theorem bget_cached_some (s : State) (dev blockno : Nat) :
    ∀ (fuel : Nat) (p b : Ptr), bget_cached dev blockno s fuel p = some (some b) →
      b ≠ Ptr.head ∧ bound s dev blockno b
  | 0, _, _, h => by simp [bget_cached] at h
  | fuel + 1, p, b, h => by
    rw [bget_cached] at h
    split at h
    · simp at h
    · next hp =>
      split at h
      · next hb =>
        have : p = b := by simpa using h
        subst this
        exact ⟨hp, hb⟩
      · exact bget_cached_some s dev blockno fuel _ b h

/-- A buffer found by the second scan is not the sentinel and has `refcnt == 0`. -/
theorem bget_recycle_some (s : State) :
    ∀ (fuel : Nat) (p b : Ptr), bget_recycle s fuel p = some (some b) →
      b ≠ Ptr.head ∧ (s.deref b).refcnt = 0
  | 0, _, _, h => by simp [bget_recycle] at h
  | fuel + 1, p, b, h => by
    rw [bget_recycle] at h
    split at h
    · simp at h
    · next hp =>
      split at h
      · next hb =>
        have : p = b := by simpa using h
        subst this
        exact ⟨hp, hb⟩
      · exact bget_recycle_some s fuel _ b h

/-- The scans read only the links and the key, respectively the reference count. -/
theorem bget_cached_congr (s t : State) (dev blockno : Nat)
    (h : ∀ q, (t.deref q).next = (s.deref q).next ∧ (t.deref q).dev = (s.deref q).dev ∧
      (t.deref q).blockno = (s.deref q).blockno) :
    ∀ (fuel : Nat) (p : Ptr), bget_cached dev blockno t fuel p = bget_cached dev blockno s fuel p
  | 0, _ => rfl
  | fuel + 1, p => by
    rw [bget_cached, bget_cached, (h p).1, (h p).2.1, (h p).2.2,
      bget_cached_congr s t dev blockno h fuel]

theorem bget_recycle_congr (s t : State)
    (h : ∀ q, (t.deref q).prev = (s.deref q).prev ∧ (t.deref q).refcnt = (s.deref q).refcnt) :
    ∀ (fuel : Nat) (p : Ptr), bget_recycle t fuel p = bget_recycle s fuel p
  | 0, _ => rfl
  | fuel + 1, p => by
    rw [bget_recycle, bget_recycle, (h p).1, (h p).2, bget_recycle_congr s t h fuel]

/-- `bget` on a hit. -/
theorem bget_of_cached {s : State} {fuel pid dev blockno : Nat} {b : Ptr}
    (hl : s.lock.locked = 0)
    (hc : bget_cached dev blockno s fuel s.head.next = some (some b)) :
    bget fuel pid dev blockno s = bget_lock pid b (bget_hit b (acquired s)) := by
  have hc' : bget_cached dev blockno (acquired s) fuel s.head.next = some (some b) := by
    rw [bget_cached_congr s _ dev blockno (by simp)]; exact hc
  have : (acquired s).head = s.head := rfl
  simp only [bget, acquire_eq hl, hc', this]

/-- `bget` on a miss with a free buffer. -/
theorem bget_of_recycle {s : State} {fuel pid dev blockno : Nat} {b : Ptr}
    (hl : s.lock.locked = 0)
    (hc : bget_cached dev blockno s fuel s.head.next = some none)
    (hr : bget_recycle s fuel s.head.prev = some (some b)) :
    bget fuel pid dev blockno s = bget_lock pid b (bget_miss dev blockno b (acquired s)) := by
  have hc' : bget_cached dev blockno (acquired s) fuel s.head.next = some none := by
    rw [bget_cached_congr s _ dev blockno (by simp)]; exact hc
  have hr' : bget_recycle (acquired s) fuel s.head.prev = some (some b) := by
    rw [bget_recycle_congr s _ (by simp)]; exact hr
  have : (acquired s).head = s.head := rfl
  simp only [bget, acquire_eq hl, hc', hr', this]

/-- Exhaustion: both scans reach the sentinel. -/
theorem bget_of_exhausted {s : State} {fuel pid dev blockno : Nat}
    (hl : s.lock.locked = 0)
    (hc : bget_cached dev blockno s fuel s.head.next = some none)
    (hr : bget_recycle s fuel s.head.prev = some none) :
    bget fuel pid dev blockno s = Result.panic "bget: no buffers" (acquired s) := by
  have hc' : bget_cached dev blockno (acquired s) fuel s.head.next = some none := by
    rw [bget_cached_congr s _ dev blockno (by simp)]; exact hc
  have hr' : bget_recycle (acquired s) fuel s.head.prev = some none := by
    rw [bget_recycle_congr s _ (by simp)]; exact hr
  have : (acquired s).head = s.head := rfl
  simp only [bget, acquire_eq hl, hc', hr', this]

/-- Every call of `bget` that gets past the spinlock and whose scans finish ends in one of
the three ways above. -/
theorem bget_cases (fuel pid dev blockno : Nat) (s : State) :
    bget fuel pid dev blockno s = Result.spin s ∧ s.lock.locked ≠ 0 ∨
    bget fuel pid dev blockno s = Result.outOfFuel ∨
    (s.lock.locked = 0 ∧
      ((∃ b, bget_cached dev blockno s fuel s.head.next = some (some b) ∧
          bget fuel pid dev blockno s = bget_lock pid b (bget_hit b (acquired s))) ∨
       (∃ b, bget_cached dev blockno s fuel s.head.next = some none ∧
          bget_recycle s fuel s.head.prev = some (some b) ∧
          bget fuel pid dev blockno s = bget_lock pid b (bget_miss dev blockno b (acquired s))) ∨
       (bget_cached dev blockno s fuel s.head.next = some none ∧
          bget_recycle s fuel s.head.prev = some none ∧
          bget fuel pid dev blockno s = Result.panic "bget: no buffers" (acquired s)))) := by
  by_cases hl : s.lock.locked = 0
  · right
    rcases hc : bget_cached dev blockno s fuel s.head.next with _ | _ | b
    · left
      have hc' : bget_cached dev blockno (acquired s) fuel s.head.next = none := by
        rw [bget_cached_congr s _ dev blockno (by simp)]; exact hc
      have : (acquired s).head = s.head := rfl
      simp only [bget, acquire_eq hl, hc', this]
    · rcases hr : bget_recycle s fuel s.head.prev with _ | _ | b
      · left
        have hc' : bget_cached dev blockno (acquired s) fuel s.head.next = some none := by
          rw [bget_cached_congr s _ dev blockno (by simp)]; exact hc
        have hr' : bget_recycle (acquired s) fuel s.head.prev = none := by
          rw [bget_recycle_congr s _ (by simp)]; exact hr
        have : (acquired s).head = s.head := rfl
        simp only [bget, acquire_eq hl, hc', hr', this]
      · exact Or.inr ⟨hl, Or.inr (Or.inr ⟨rfl, rfl, bget_of_exhausted hl hc hr⟩)⟩
      · exact Or.inr ⟨hl, Or.inr (Or.inl ⟨b, rfl, rfl, bget_of_recycle hl hc hr⟩)⟩
    · exact Or.inr ⟨hl, Or.inl ⟨b, rfl, bget_of_cached hl hc⟩⟩
  · left
    exact ⟨by simp [bget, acquire, hl], hl⟩

/-! ### Fields after each step -/

@[simp] theorem deref_acquiredsleep (pid : Nat) (b : Ptr) (s : State) (q : Ptr) :
    (acquiredsleep pid b s).deref q = (s.set_lock b { holder := some pid }).deref q := by
  cases q <;> rfl

@[simp] theorem disk_acquiredsleep (pid : Nat) (b : Ptr) (s : State) :
    (acquiredsleep pid b s).disk = s.disk := by
  simp [acquiredsleep]

@[simp] theorem lock_acquiredsleep (pid : Nat) (b : Ptr) (s : State) :
    (acquiredsleep pid b s).lock = s.lock := by
  simp [acquiredsleep]

@[simp] theorem trace_acquiredsleep (pid : Nat) (b : Ptr) (s : State) :
    (acquiredsleep pid b s).trace = Event.acquiresleep b pid :: s.trace := rfl

@[simp] theorem deref_releasesleep (b : Ptr) (s : State) (q : Ptr) :
    (releasesleep b s).deref q = (s.set_lock b { holder := none }).deref q := by
  cases q <;> rfl

@[simp] theorem disk_releasesleep (b : Ptr) (s : State) : (releasesleep b s).disk = s.disk := by
  simp [releasesleep]

@[simp] theorem lock_releasesleep (b : Ptr) (s : State) : (releasesleep b s).lock = s.lock := by
  simp [releasesleep]

@[simp] theorem trace_releasesleep (b : Ptr) (s : State) :
    (releasesleep b s).trace = Event.releasesleep b :: s.trace := rfl

@[simp] theorem deref_bget_hit (b : Ptr) (s : State) (q : Ptr) :
    (bget_hit b s).deref q = (s.set_refcnt b (uint_inc (s.deref b).refcnt)).deref q := by
  simp [bget_hit]

@[simp] theorem disk_bget_hit (b : Ptr) (s : State) : (bget_hit b s).disk = s.disk := by
  simp [bget_hit]

@[simp] theorem lock_bget_hit (b : Ptr) (s : State) : (bget_hit b s).lock = { locked := 0 } := by
  simp [bget_hit]

@[simp] theorem trace_bget_hit (b : Ptr) (s : State) :
    (bget_hit b s).trace = Event.release :: s.trace := by
  simp [bget_hit]

@[simp] theorem deref_bget_miss (dev blockno : Nat) (b : Ptr) (s : State) (q : Ptr) :
    (bget_miss dev blockno b s).deref q =
      ((((s.set_dev b dev).set_blockno b blockno).set_valid b 0).set_refcnt b 1).deref q := by
  simp [bget_miss]

@[simp] theorem disk_bget_miss (dev blockno : Nat) (b : Ptr) (s : State) :
    (bget_miss dev blockno b s).disk = s.disk := by
  simp [bget_miss]

@[simp] theorem lock_bget_miss (dev blockno : Nat) (b : Ptr) (s : State) :
    (bget_miss dev blockno b s).lock = { locked := 0 } := by
  simp [bget_miss]

@[simp] theorem trace_bget_miss (dev blockno : Nat) (b : Ptr) (s : State) :
    (bget_miss dev blockno b s).trace = Event.release :: s.trace := by
  simp [bget_miss]

@[simp] theorem deref_disk_read (b : Ptr) (s : State) (q : Ptr) :
    (virtio_disk_rw b false s).deref q =
      (s.set_data b (s.disk (s.deref b).dev (s.deref b).blockno)).deref q := by
  cases q <;> rfl

@[simp] theorem disk_disk_read (b : Ptr) (s : State) : (virtio_disk_rw b false s).disk = s.disk := by
  simp [virtio_disk_rw]

@[simp] theorem lock_disk_read (b : Ptr) (s : State) : (virtio_disk_rw b false s).lock = s.lock := by
  simp [virtio_disk_rw]

@[simp] theorem trace_disk_read (b : Ptr) (s : State) :
    (virtio_disk_rw b false s).trace =
      Event.disk_read (s.deref b).dev (s.deref b).blockno :: s.trace := by
  simp [virtio_disk_rw]

@[simp] theorem deref_disk_write (b : Ptr) (s : State) (q : Ptr) :
    (virtio_disk_rw b true s).deref q = s.deref q := by
  simp [virtio_disk_rw]

@[simp] theorem lock_disk_write (b : Ptr) (s : State) : (virtio_disk_rw b true s).lock = s.lock := by
  simp [virtio_disk_rw]

@[simp] theorem trace_disk_write (b : Ptr) (s : State) :
    (virtio_disk_rw b true s).trace =
      Event.disk_write (s.deref b).dev (s.deref b).blockno (s.deref b).data :: s.trace := by
  simp [virtio_disk_rw]

@[simp] theorem reads_cons_acquire (t : List Event) : reads (Event.acquire :: t) = reads t := rfl

@[simp] theorem reads_cons_release (t : List Event) : reads (Event.release :: t) = reads t := rfl

@[simp] theorem reads_cons_acquiresleep (b : Ptr) (pid : Nat) (t : List Event) :
    reads (Event.acquiresleep b pid :: t) = reads t := rfl

@[simp] theorem reads_cons_releasesleep (b : Ptr) (t : List Event) :
    reads (Event.releasesleep b :: t) = reads t := rfl

@[simp] theorem reads_cons_disk_write (d n : Nat) (x : List Nat) (t : List Event) :
    reads (Event.disk_write d n x :: t) = reads t := rfl

@[simp] theorem reads_cons_disk_read (d n : Nat) (t : List Event) :
    reads (Event.disk_read d n :: t) = reads t + 1 := by
  simp [reads]

@[simp] theorem writes_cons_acquire (t : List Event) : writes (Event.acquire :: t) = writes t := rfl

@[simp] theorem writes_cons_release (t : List Event) : writes (Event.release :: t) = writes t := rfl

@[simp] theorem writes_cons_acquiresleep (b : Ptr) (pid : Nat) (t : List Event) :
    writes (Event.acquiresleep b pid :: t) = writes t := rfl

@[simp] theorem writes_cons_releasesleep (b : Ptr) (t : List Event) :
    writes (Event.releasesleep b :: t) = writes t := rfl

@[simp] theorem writes_cons_disk_read (d n : Nat) (t : List Event) :
    writes (Event.disk_read d n :: t) = writes t := rfl

@[simp] theorem writes_cons_disk_write (d n : Nat) (x : List Nat) (t : List Event) :
    writes (Event.disk_write d n x :: t) = writes t + 1 := by
  simp [writes]

theorem bget_lock_free {pid : Nat} {b : Ptr} {s : State} (h : (s.deref b).lock.holder = none) :
    bget_lock pid b s = Result.ok b (acquiredsleep pid b s) := by
  simp [bget_lock, acquiresleep, h]

theorem bget_lock_held {pid : Nat} {b : Ptr} {s : State} (h : (s.deref b).lock.holder ≠ none) :
    bget_lock pid b s = Result.sleep b s := by
  simp [bget_lock, acquiresleep, h]

theorem bget_lock_ok {pid : Nat} {b c : Ptr} {s t : State} (h : bget_lock pid b s = Result.ok c t) :
    c = b ∧ (s.deref b).lock.holder = none ∧ t = acquiredsleep pid b s := by
  by_cases hh : (s.deref b).lock.holder = none
  · rw [bget_lock_free hh] at h
    injection h with h1 h2
    exact ⟨h1.symm, hh, h2.symm⟩
  · rw [bget_lock_held hh] at h
    cases h

/-- How a returning `bget` got its buffer: a hit on a buffer bound to the key, or a buffer
with `refcnt == 0` recycled after the first scan found nothing. -/
theorem bget_ok {fuel pid dev blockno : Nat} {s s1 : State} {b : Ptr}
    (h : bget fuel pid dev blockno s = Result.ok b s1) :
    s.lock.locked = 0 ∧ b ≠ Ptr.head ∧
    ((bget_cached dev blockno s fuel s.head.next = some (some b) ∧ bound s dev blockno b ∧
        (s.deref b).lock.holder = none ∧
        s1 = acquiredsleep pid b (bget_hit b (acquired s))) ∨
     (bget_cached dev blockno s fuel s.head.next = some none ∧
        bget_recycle s fuel s.head.prev = some (some b) ∧ (s.deref b).refcnt = 0 ∧
        (s.deref b).lock.holder = none ∧
        s1 = acquiredsleep pid b (bget_miss dev blockno b (acquired s)))) := by
  rcases bget_cases fuel pid dev blockno s with ⟨h1, -⟩ | h1 | ⟨hl, h1⟩
  · rw [h1] at h; cases h
  · rw [h1] at h; cases h
  · refine ⟨hl, ?_⟩
    rcases h1 with ⟨c, hc, h1⟩ | ⟨c, hc, hr, h1⟩ | ⟨-, -, h1⟩
    · rw [h1] at h
      obtain ⟨rfl, h2, h3⟩ := bget_lock_ok h
      have := bget_cached_some s dev blockno fuel _ b hc
      refine ⟨this.1, Or.inl ⟨hc, this.2, ?_, h3⟩⟩
      simpa using h2
    · rw [h1] at h
      obtain ⟨rfl, h2, h3⟩ := bget_lock_ok h
      have := bget_recycle_some s fuel _ b hr
      refine ⟨this.1, Or.inr ⟨hc, hr, this.2, ?_, h3⟩⟩
      simpa using h2
    · rw [h1] at h; cases h


/-! ## `binit` -/

theorem binit_body_next (s : State) (i : Nat) (q : Ptr) :
    ((binit_body i s).deref q).next =
      if q = Ptr.head then Ptr.slot i
      else if q = Ptr.slot i then (s.deref Ptr.head).next
      else (s.deref q).next := by
  have hb : Ptr.slot i ≠ Ptr.head := by simp
  simp only [binit_body, initsleeplock, head_eq_deref, next_set_next, next_set_prev,
    next_set_lock, hb, hb.symm, if_true, if_false]

theorem binit_body_prev (s : State) (i : Nat) (q : Ptr) :
    ((binit_body i s).deref q).prev =
      if q = (s.deref Ptr.head).next then Ptr.slot i
      else if q = Ptr.slot i then Ptr.head
      else (s.deref q).prev := by
  have hb : Ptr.slot i ≠ Ptr.head := by simp
  simp only [binit_body, initsleeplock, head_eq_deref, next_set_next, next_set_prev,
    next_set_lock, prev_set_next, prev_set_prev, prev_set_lock, hb, hb.symm, if_true, if_false]

/-- One iteration of the loop of `binit` puts `buf[i]` at the front of the ring. -/
theorem isRing_binit_body {s : State} {l : List Nat} {i : Nat} (h : IsRing s l) (hi : i ∉ l) :
    IsRing (binit_body i s) (i :: l) := by
  obtain ⟨hnd, hl⟩ := h
  refine ⟨List.nodup_cons.mpr ⟨hi, hnd⟩, ?_⟩
  rw [links_iff_chain'] at hl ⊢
  have hLH : ∀ q ∈ l.map Ptr.slot, q ≠ Ptr.head := by
    intro q hq; simp at hq; obtain ⟨a, -, rfl⟩ := hq; simp
  have hLb : ∀ q ∈ l.map Ptr.slot, q ≠ Ptr.slot i := by
    intro q hq; simp at hq; obtain ⟨a, ha, rfl⟩ := hq
    intro h; injection h with h; exact hi (h ▸ ha)
  have hb : Ptr.slot i ≠ Ptr.head := by simp
  unfold cycle at hl ⊢
  rw [List.chain'_cons', List.chain'_append] at hl
  obtain ⟨hHy, hC, -, hlast⟩ := hl
  obtain ⟨f, hf, hHf, hfmem⟩ : ∃ f, f ∈ (l.map Ptr.slot ++ [Ptr.head]).head? ∧
      linked s Ptr.head f ∧ (f = Ptr.head ∨ f ∈ l.map Ptr.slot) := by
    cases l with
    | nil => exact ⟨Ptr.head, by simp, hHy _ (by simp), Or.inl rfl⟩
    | cons c t => exact ⟨Ptr.slot c, by simp, hHy _ (by simp), Or.inr (by simp)⟩
  have hfb : f ≠ Ptr.slot i := by
    rcases hfmem with h | h
    · rw [h]; exact hb.symm
    · exact hLb f h
  have hnext := binit_body_next s i
  have hprev := binit_body_prev s i
  rw [hHf.1] at hnext hprev
  have keep : ∀ {q q' : Ptr}, linked s q q' → q ≠ Ptr.head → q ≠ Ptr.slot i → q' ≠ Ptr.slot i →
      linked (binit_body i s) q q' := by
    intro q q' ⟨h1, h2⟩ hq hqb hq'b
    have hq'f : q' ≠ f := by
      rintro rfl; exact hq (by rw [← h2, hHf.2])
    exact ⟨by rw [hnext, if_neg hq, if_neg hqb, h1], by rw [hprev, if_neg hq'f, if_neg hq'b, h2]⟩
  rw [List.map_cons, List.cons_append, List.chain'_cons, List.chain'_cons', List.chain'_append]
  refine ⟨⟨?_, ?_⟩, ?_, ?_, List.chain'_singleton _, ?_⟩
  · rw [hnext, if_pos rfl]
  · rw [hprev, if_neg hfb.symm, if_pos rfl]
  · intro y hy
    have : y = f := Option.mem_unique hy hf
    subst this
    exact ⟨by rw [hnext, if_neg hb, if_pos rfl], by rw [hprev, if_pos rfl]⟩
  · rw [List.Chain'.iff_mem] at hC
    exact hC.imp fun q q' ⟨h1, h2, h3⟩ => keep h3 (hLH q h1) (hLb q h1) (hLb q' h2)
  · intro x hx y hy
    have hxm := List.mem_of_mem_getLast? hx
    have hy' : y = Ptr.head := by simpa using hy.symm
    subst hy'
    exact keep (hlast x hx _ hy) (hLH x hxm) (hLb x hxm) hb.symm

theorem isRing_binit_loop {s : State} (h : IsRing s []) :
    ∀ n, IsRing (binit_loop n s) (List.range n).reverse
  | 0 => by simpa [binit_loop] using h
  | n + 1 => by
    rw [binit_loop, List.range_succ, List.reverse_append, List.reverse_singleton,
      List.singleton_append]
    exact isRing_binit_body (isRing_binit_loop h n) (by simp)

theorem binit_loop_fields (s : State) (q : Ptr) :
    ∀ n, ((binit_loop n s).deref q).valid = (s.deref q).valid ∧
      ((binit_loop n s).deref q).disk = (s.deref q).disk ∧
      ((binit_loop n s).deref q).dev = (s.deref q).dev ∧
      ((binit_loop n s).deref q).blockno = (s.deref q).blockno ∧
      ((binit_loop n s).deref q).refcnt = (s.deref q).refcnt ∧
      ((binit_loop n s).deref q).data = (s.deref q).data ∧
      ((s.deref q).lock.holder = none → ((binit_loop n s).deref q).lock.holder = none) ∧
      (binit_loop n s).lock = s.lock ∧ (binit_loop n s).disk = s.disk ∧
      (binit_loop n s).trace = s.trace
  | 0 => by simp [binit_loop]
  | n + 1 => by
    have ih := binit_loop_fields s q n
    simp only [binit_loop, binit_body, initsleeplock, valid_set_next, valid_set_prev,
      valid_set_lock, disk_set_next, disk_set_prev, disk_set_lock, dev_set_next, dev_set_prev,
      dev_set_lock, blockno_set_next, blockno_set_prev, blockno_set_lock, refcnt_set_next,
      refcnt_set_prev, refcnt_set_lock, data_set_next, data_set_prev, data_set_lock,
      lock_set_next, lock_set_prev, lock_set_lock, st_lock_set_next, st_lock_set_prev,
      st_lock_set_lock, st_disk_set_next, st_disk_set_prev, st_disk_set_lock, st_trace_set_next,
      st_trace_set_prev, st_trace_set_lock]
    refine ⟨ih.1, ih.2.1, ih.2.2.1, ih.2.2.2.1, ih.2.2.2.2.1, ih.2.2.2.2.2.1, ?_,
      ih.2.2.2.2.2.2.2⟩
    intro h
    split
    · rfl
    · exact ih.2.2.2.2.2.2.1 h

/-- The pool that `binit` builds from the zero-filled `bcache`: the ring
`buf[NBUF-1], ..., buf[0]`, the spinlock free, every buffer zero. -/
theorem binit_boot (NBUF : Nat) (disk : Nat → Nat → List Nat) :
    WellFormed NBUF (binit NBUF (boot disk)) (List.range NBUF).reverse ∧
    (∀ q, ((binit NBUF (boot disk)).deref q).valid = 0 ∧
      ((binit NBUF (boot disk)).deref q).dev = 0 ∧
      ((binit NBUF (boot disk)).deref q).blockno = 0 ∧
      ((binit NBUF (boot disk)).deref q).refcnt = 0 ∧
      ((binit NBUF (boot disk)).deref q).lock.holder = none) ∧
    (binit NBUF (boot disk)).disk = disk ∧ (binit NBUF (boot disk)).trace = [] := by
  have h0 : IsRing (((initlock (boot disk)).set_prev Ptr.head Ptr.head).set_next Ptr.head Ptr.head)
      [] := by
    refine ⟨List.nodup_nil, ?_⟩
    simp [cycle, Links, linked]
  have hf := fun q => binit_loop_fields
    (((initlock (boot disk)).set_prev Ptr.head Ptr.head).set_next Ptr.head Ptr.head) q NBUF
  have hz : ∀ q, (boot disk).deref q =
      { valid := 0, disk := 0, dev := 0, blockno := 0, lock := { holder := none },
        refcnt := 0, prev := Ptr.head, next := Ptr.head, data := List.replicate BSIZE 0 } := by
    intro q; cases q <;> rfl
  have hi : ∀ q, (initlock (boot disk)).deref q = (boot disk).deref q := by
    intro q; cases q <;> rfl
  refine ⟨⟨isRing_binit_loop h0 NBUF, by simp, by simp, ?_⟩, ?_, ?_, ?_⟩
  · have := (hf Ptr.head).2.2.2.2.2.2.2.1
    simp only [binit, head_eq_deref]
    rw [this]; simp [initlock]
  · intro q
    have := hf q
    simp only [valid_set_next, valid_set_prev, dev_set_next, dev_set_prev, blockno_set_next,
      blockno_set_prev, refcnt_set_next, refcnt_set_prev, lock_set_next, lock_set_prev, hi, hz]
      at this
    simp only [binit, head_eq_deref]
    exact ⟨this.1, this.2.2.1, this.2.2.2.1, this.2.2.2.2.1, this.2.2.2.2.2.2.1 trivial⟩
  · have := (hf Ptr.head).2.2.2.2.2.2.2.2.1
    simp only [binit, head_eq_deref]
    rw [this]; simp [initlock, boot]
  · have := (hf Ptr.head).2.2.2.2.2.2.2.2.2
    simp only [binit, head_eq_deref]
    rw [this]; simp [initlock, boot]


/-! ## `bget` and `bread` on a well-formed pool -/

theorem wellFormed_mem_iff {NBUF : Nat} {s : State} {l : List Nat} (h : WellFormed NBUF s l)
    (i : Nat) : i ∈ l ↔ i < NBUF := ⟨h.2.1 i, h.2.2.1 i⟩

/-- A state with the same links and a free spinlock is as well-formed as the one it came from. -/
theorem wellFormed_congr {NBUF : Nat} {s t : State} {l : List Nat} (h : WellFormed NBUF s l)
    (hn : ∀ q, (t.deref q).next = (s.deref q).next)
    (hp : ∀ q, (t.deref q).prev = (s.deref q).prev) (hl : t.lock.locked = 0) :
    WellFormed NBUF t l :=
  ⟨isRing_congr h.1 hn hp, h.2.1, h.2.2.1, hl⟩


theorem wellFormed_mk {NBUF : Nat} {s : State} {l : List Nat} (hr : IsRing s l)
    (hmem : ∀ i, i ∈ l ↔ i < NBUF) (hl : s.lock.locked = 0) : WellFormed NBUF s l :=
  ⟨hr, fun i hi => (hmem i).mp hi, fun i hi => (hmem i).mpr hi, hl⟩

theorem bread_ok {fuel pid dev blockno : Nat} {s s' : State} {b : Ptr} :
    bread fuel pid dev blockno s = Result.ok b s' ↔
      ∃ s1, bget fuel pid dev blockno s = Result.ok b s1 ∧ s' = bread_fill b s1 := by
  unfold bread
  constructor
  · intro h
    split at h
    · next c t hg =>
      injection h with h1 h2
      subst h1
      exact ⟨t, hg, h2.symm⟩
    · next hne =>
      exact absurd h (hne b s')
  · rintro ⟨s1, hg, rfl⟩
    rw [hg]

theorem find?_slot_eq_some {p : Nat → Bool} {l l1 l2 : List Nat} {x : Nat}
    (hl : l = l1 ++ x :: l2) (hx : p x = true) (h1 : ∀ j ∈ l1, p j = false) :
    l.find? p = some x := by
  rw [List.find?_eq_some]
  exact ⟨hx, l1, l2, hl, by simpa using h1⟩

/-- On a well-formed pool a hit returns the first buffer of the recency list bound to the key. -/
theorem bget_hit_wf {NBUF fuel : Nat} (pid : Nat) {dev blockno : Nat} {s : State} {l l1 l2 : List Nat} {x : Nat}
    (hwf : WellFormed NBUF s l) (hf : NBUF < fuel) (hl : l = l1 ++ x :: l2)
    (hx : bound s dev blockno (Ptr.slot x))
    (h1 : ∀ j ∈ l1, ¬ bound s dev blockno (Ptr.slot j)) :
    bget fuel pid dev blockno s = bget_lock pid (Ptr.slot x) (bget_hit (Ptr.slot x) (acquired s)) := by
  have hr := hwf.1
  have hmem := wellFormed_mem_iff hwf
  have hlk := hwf.2.2.2
  have hlen : l.length ≤ NBUF := by
    have : l.toFinset ⊆ Finset.range NBUF := by
      intro i hi; simpa [hmem] using hi
    have := Finset.card_le_card this
    rwa [List.toFinset_card_of_nodup hr.1, Finset.card_range] at this
  apply bget_of_cached hlk
  rw [bget_cached_ring hr dev blockno fuel (by omega),
    find?_slot_eq_some hl (by simpa using hx) (by simpa using h1)]
  rfl

theorem wellFormed_length_le {NBUF : Nat} {s : State} {l : List Nat} (h : WellFormed NBUF s l) :
    l.length ≤ NBUF := by
  have hr := h.1
  have hmem := wellFormed_mem_iff h
  have : l.toFinset ⊆ Finset.range NBUF := by
    intro i hi; simpa [hmem] using hi
  have := Finset.card_le_card this
  rwa [List.toFinset_card_of_nodup hr.1, Finset.card_range] at this

/-- On a well-formed pool a miss recycles the last buffer of the recency list with
`refcnt == 0`. -/
theorem bget_miss_wf {NBUF fuel : Nat} (pid : Nat) {dev blockno : Nat} {s : State} {l l1 l2 : List Nat} {x : Nat}
    (hwf : WellFormed NBUF s l) (hf : NBUF < fuel)
    (hno : ∀ j ∈ l, ¬ bound s dev blockno (Ptr.slot j))
    (hl : l = l1 ++ x :: l2) (hx : (s.deref (Ptr.slot x)).refcnt = 0)
    (h2 : ∀ j ∈ l2, (s.deref (Ptr.slot j)).refcnt ≠ 0) :
    bget fuel pid dev blockno s =
      bget_lock pid (Ptr.slot x) (bget_miss dev blockno (Ptr.slot x) (acquired s)) := by
  have hlen := wellFormed_length_le hwf
  have hr := hwf.1
  have hmem := wellFormed_mem_iff hwf
  have hlk := hwf.2.2.2
  apply bget_of_recycle hlk
  · rw [bget_cached_ring hr dev blockno fuel (by omega)]
    have : (l.find? fun i => decide (bound s dev blockno (Ptr.slot i))) = none := by
      rw [List.find?_eq_none]; simpa using hno
    rw [this]; rfl
  · rw [bget_recycle_ring hr fuel (by omega)]
    have hrev : l.reverse = l2.reverse ++ x :: l1.reverse := by simp [hl]
    rw [find?_slot_eq_some hrev (by simpa using hx) (by simpa using h2)]
    rfl

/-- On a well-formed pool `bget` panics when no buffer is bound to the key and none has
`refcnt == 0`. -/
theorem bget_exhausted_wf {NBUF fuel : Nat} (pid : Nat) {dev blockno : Nat} {s : State} {l : List Nat}
    (hwf : WellFormed NBUF s l) (hf : NBUF < fuel)
    (hno : ∀ j ∈ l, ¬ bound s dev blockno (Ptr.slot j))
    (hbusy : ∀ j ∈ l, (s.deref (Ptr.slot j)).refcnt ≠ 0) :
    bget fuel pid dev blockno s = Result.panic "bget: no buffers" (acquired s) := by
  have hlen := wellFormed_length_le hwf
  have hr := hwf.1
  have hmem := wellFormed_mem_iff hwf
  have hlk := hwf.2.2.2
  apply bget_of_exhausted hlk
  · rw [bget_cached_ring hr dev blockno fuel (by omega)]
    have : (l.find? fun i => decide (bound s dev blockno (Ptr.slot i))) = none := by
      rw [List.find?_eq_none]; simpa using hno
    rw [this]; rfl
  · rw [bget_recycle_ring hr fuel (by omega)]
    have : (l.reverse.find? fun i => decide ((s.deref (Ptr.slot i)).refcnt = 0)) = none := by
      rw [List.find?_eq_none]; simpa using hbusy
    rw [this]; rfl

/-- The buffers after a returning hit on `b`. -/
theorem deref_hit (pid : Nat) (b q : Ptr) (s : State) :
    (acquiredsleep pid b (bget_hit b (acquired s))).deref q =
      if q = b then
        { s.deref b with refcnt := uint_inc (s.deref b).refcnt, lock := { holder := some pid } }
      else s.deref q := by
  by_cases h : q = b
  · subst h
    rw [if_pos rfl]
    apply buf_ext <;> simp
  · rw [if_neg h]
    apply buf_ext <;> simp [h]

/-- The buffers after a returning miss that recycled `b`. -/
theorem deref_miss (pid dev blockno : Nat) (b q : Ptr) (s : State) :
    (acquiredsleep pid b (bget_miss dev blockno b (acquired s))).deref q =
      if q = b then
        { s.deref b with dev := dev, blockno := blockno, valid := 0, refcnt := 1,
                         lock := { holder := some pid } }
      else s.deref q := by
  by_cases h : q = b
  · subst h
    rw [if_pos rfl]
    apply buf_ext <;> simp
  · rw [if_neg h]
    apply buf_ext <;> simp [h]

/-- The buffers when the caller goes to sleep after a hit on `b`. -/
theorem deref_hit_sleep (b q : Ptr) (s : State) :
    (bget_hit b (acquired s)).deref q =
      if q = b then { s.deref b with refcnt := uint_inc (s.deref b).refcnt } else s.deref q := by
  by_cases h : q = b
  · subst h
    rw [if_pos rfl]
    apply buf_ext <;> simp
  · rw [if_neg h]
    apply buf_ext <;> simp [h]

/-- The buffers when the caller goes to sleep after recycling `b`. -/
theorem deref_miss_sleep (dev blockno : Nat) (b q : Ptr) (s : State) :
    (bget_miss dev blockno b (acquired s)).deref q =
      if q = b then
        { s.deref b with dev := dev, blockno := blockno, valid := 0, refcnt := 1 }
      else s.deref q := by
  by_cases h : q = b
  · subst h
    rw [if_pos rfl]
    apply buf_ext <;> simp
  · rw [if_neg h]
    apply buf_ext <;> simp [h]

theorem exists_first {p : Nat → Prop} [DecidablePred p] :
    ∀ {l : List Nat}, (∃ i ∈ l, p i) →
      ∃ l1 x l2, l = l1 ++ x :: l2 ∧ p x ∧ ∀ j ∈ l1, ¬ p j
  | [], h => by simp at h
  | a :: t, h => by
    by_cases ha : p a
    · exact ⟨[], a, t, rfl, ha, by simp⟩
    · have : ∃ i ∈ t, p i := by
        obtain ⟨i, hi, hp⟩ := h
        rcases List.mem_cons.mp hi with rfl | hi
        · exact absurd hp ha
        · exact ⟨i, hi, hp⟩
      obtain ⟨l1, x, l2, hl, hx, h1⟩ := exists_first this
      refine ⟨a :: l1, x, l2, by simp [hl], hx, ?_⟩
      intro j hj
      rcases List.mem_cons.mp hj with rfl | hj
      · exact ha
      · exact h1 j hj

theorem exists_last {p : Nat → Prop} [DecidablePred p] {l : List Nat} (h : ∃ i ∈ l, p i) :
    ∃ l1 x l2, l = l1 ++ x :: l2 ∧ p x ∧ ∀ j ∈ l2, ¬ p j := by
  have : ∃ i ∈ l.reverse, p i := by simpa using h
  obtain ⟨r1, x, r2, hl, hx, h1⟩ := exists_first this
  refine ⟨r2.reverse, x, r1.reverse, ?_, hx, by simpa using h1⟩
  have := congrArg List.reverse hl
  simpa using this

/-- In a well-formed pool `bget` never runs out of budget nor spins: it returns, sleeps on the
content lock of the buffer it selected, or panics. -/
theorem bget_wf_total {NBUF fuel : Nat} (pid dev blockno : Nat) {s : State} {l : List Nat}
    (hwf : WellFormed NBUF s l) (hf : NBUF < fuel) :
    (∃ l1 x l2, l = l1 ++ x :: l2 ∧ bound s dev blockno (Ptr.slot x) ∧
        (∀ j ∈ l1, ¬ bound s dev blockno (Ptr.slot j)) ∧
        bget fuel pid dev blockno s =
          bget_lock pid (Ptr.slot x) (bget_hit (Ptr.slot x) (acquired s))) ∨
    (∃ l1 x l2, l = l1 ++ x :: l2 ∧ (∀ j ∈ l, ¬ bound s dev blockno (Ptr.slot j)) ∧
        (s.deref (Ptr.slot x)).refcnt = 0 ∧ (∀ j ∈ l2, (s.deref (Ptr.slot j)).refcnt ≠ 0) ∧
        bget fuel pid dev blockno s =
          bget_lock pid (Ptr.slot x) (bget_miss dev blockno (Ptr.slot x) (acquired s))) ∨
    ((∀ j ∈ l, ¬ bound s dev blockno (Ptr.slot j)) ∧
        (∀ j ∈ l, (s.deref (Ptr.slot j)).refcnt ≠ 0) ∧
        bget fuel pid dev blockno s = Result.panic "bget: no buffers" (acquired s)) := by
  by_cases hb : ∃ i ∈ l, bound s dev blockno (Ptr.slot i)
  · obtain ⟨l1, x, l2, hl, hx, h1⟩ := exists_first hb
    exact Or.inl ⟨l1, x, l2, hl, hx, h1, bget_hit_wf pid hwf hf hl hx h1⟩
  · have hno : ∀ j ∈ l, ¬ bound s dev blockno (Ptr.slot j) := fun j hj h => hb ⟨j, hj, h⟩
    by_cases hz : ∃ i ∈ l, (s.deref (Ptr.slot i)).refcnt = 0
    · obtain ⟨l1, x, l2, hl, hx, h2⟩ := exists_last hz
      exact Or.inr (Or.inl ⟨l1, x, l2, hl, hno, hx, h2, bget_miss_wf pid hwf hf hno hl hx h2⟩)
    · have hbusy : ∀ j ∈ l, (s.deref (Ptr.slot j)).refcnt ≠ 0 := fun j hj h => hz ⟨j, hj, h⟩
      exact Or.inr (Or.inr ⟨hno, hbusy, bget_exhausted_wf pid hwf hf hno hbusy⟩)


/-! ## `brelse`, `bpin`, `bunpin`, `bwrite` -/

/-- The pool after the decrement in `brelse`, before the test of the reference count. -/
theorem brelse_eq {pid : Nat} {b : Ptr} {s : State} (hh : (s.deref b).lock.holder = some pid)
    (hl : s.lock.locked = 0) :
    brelse pid b s =
      Result.ok ()
        (release
          (if uint_dec (s.deref b).refcnt = 0 then
            brelse_move b ((acquired (releasesleep b s)).set_refcnt b (uint_dec (s.deref b).refcnt))
          else (acquired (releasesleep b s)).set_refcnt b (uint_dec (s.deref b).refcnt))) := by
  have h1 : holdingsleep pid b s = true := by simp [holdingsleep, hh]
  have h2 : (releasesleep b s).lock.locked = 0 := by simp [hl]
  simp [brelse, h1, acquire_eq h2]

theorem brelse_panic {pid : Nat} {b : Ptr} {s : State} (hh : (s.deref b).lock.holder ≠ some pid) :
    brelse pid b s = Result.panic "brelse" s := by
  simp [brelse, holdingsleep, hh]

theorem brelse_spin {pid : Nat} {b : Ptr} {s : State} (hh : (s.deref b).lock.holder = some pid)
    (hl : s.lock.locked ≠ 0) :
    brelse pid b s = Result.spin (releasesleep b s) := by
  have h1 : holdingsleep pid b s = true := by simp [holdingsleep, hh]
  simp [brelse, h1, acquire, hl]

theorem bwrite_eq {pid : Nat} {b : Ptr} {s : State} (hh : (s.deref b).lock.holder = some pid) :
    bwrite pid b s = Result.ok () (virtio_disk_rw b true s) := by
  simp [bwrite, holdingsleep, hh]

theorem bwrite_panic {pid : Nat} {b : Ptr} {s : State} (hh : (s.deref b).lock.holder ≠ some pid) :
    bwrite pid b s = Result.panic "bwrite" s := by
  simp [bwrite, holdingsleep, hh]

theorem bpin_eq {b : Ptr} {s : State} (hl : s.lock.locked = 0) :
    bpin b s = Result.ok () (release ((acquired s).set_refcnt b (uint_inc (s.deref b).refcnt))) := by
  simp [bpin, acquire_eq hl]

theorem bunpin_eq {b : Ptr} {s : State} (hl : s.lock.locked = 0) :
    bunpin b s =
      Result.ok () (release ((acquired s).set_refcnt b (uint_dec (s.deref b).refcnt))) := by
  simp [bunpin, acquire_eq hl]

theorem brelse_ok {pid : Nat} {b : Ptr} {s s' : State} (h : brelse pid b s = Result.ok () s') :
    (s.deref b).lock.holder = some pid ∧ s.lock.locked = 0 := by
  by_cases hh : (s.deref b).lock.holder = some pid
  · by_cases hl : s.lock.locked = 0
    · exact ⟨hh, hl⟩
    · rw [brelse_spin hh hl] at h; cases h
  · rw [brelse_panic hh] at h; cases h

theorem bpin_ok {b : Ptr} {s s' : State} (h : bpin b s = Result.ok () s') : s.lock.locked = 0 := by
  by_contra hl
  simp [bpin, acquire, hl] at h

theorem bunpin_ok {b : Ptr} {s s' : State} (h : bunpin b s = Result.ok () s') :
    s.lock.locked = 0 := by
  by_contra hl
  simp [bunpin, acquire, hl] at h

theorem bwrite_ok {pid : Nat} {b : Ptr} {s s' : State} (h : bwrite pid b s = Result.ok () s') :
    (s.deref b).lock.holder = some pid ∧ s' = virtio_disk_rw b true s := by
  by_cases hh : (s.deref b).lock.holder = some pid
  · rw [bwrite_eq hh] at h
    injection h with _ h
    exact ⟨hh, h.symm⟩
  · rw [bwrite_panic hh] at h; cases h

theorem erase_middle {l1 l2 : List Nat} {x : Nat} (h : (l1 ++ x :: l2).Nodup) :
    (l1 ++ x :: l2).erase x = l1 ++ l2 := by
  have hx : x ∉ l1 := by
    intro hx
    rw [List.nodup_append] at h
    exact h.2.2 hx (by simp)
  rw [List.erase_append_right _ hx, List.erase_cons_head]

/-- `brelse` on a well-formed pool, in terms of the recency list. -/
theorem brelse_wf {NBUF pid x : Nat} {s : State} {l : List Nat} (hwf : WellFormed NBUF s l)
    (hx : x ∈ l) (hh : (s.deref (Ptr.slot x)).lock.holder = some pid) :
    ∃ s', brelse pid (Ptr.slot x) s = Result.ok () s' ∧
      (∀ q, (s'.deref q).valid = (s.deref q).valid ∧ (s'.deref q).disk = (s.deref q).disk ∧
        (s'.deref q).dev = (s.deref q).dev ∧ (s'.deref q).blockno = (s.deref q).blockno ∧
        (s'.deref q).data = (s.deref q).data ∧
        (s'.deref q).refcnt =
          (if q = Ptr.slot x then uint_dec (s.deref (Ptr.slot x)).refcnt
            else (s.deref q).refcnt) ∧
        (s'.deref q).lock = (if q = Ptr.slot x then { holder := none } else (s.deref q).lock)) ∧
      s'.disk = s.disk ∧
      s'.trace = Event.release :: Event.acquire :: Event.releasesleep (Ptr.slot x) :: s.trace ∧
      WellFormed NBUF s'
        (if uint_dec (s.deref (Ptr.slot x)).refcnt = 0 then x :: l.erase x else l) := by
  have hr := hwf.1
  have hmem := wellFormed_mem_iff hwf
  have hlk := hwf.2.2.2
  refine ⟨_, brelse_eq hh hlk, ?_, ?_, ?_, ?_⟩
  · intro q
    split
    · simp [(brelse_move_fields _ _ _).1, (brelse_move_fields _ _ _).2.1,
        (brelse_move_fields _ _ _).2.2.1, (brelse_move_fields _ _ _).2.2.2.1,
        (brelse_move_fields _ _ _).2.2.2.2.1, (brelse_move_fields _ _ _).2.2.2.2.2.1,
        (brelse_move_fields _ _ _).2.2.2.2.2.2]
    · simp
  · split
    · simp [(brelse_move_state _ _).2.1]
    · simp
  · split
    · simp [(brelse_move_state _ _).2.2]
    · simp
  · have hr2 : IsRing ((acquired (releasesleep (Ptr.slot x) s)).set_refcnt (Ptr.slot x)
        (uint_dec (s.deref (Ptr.slot x)).refcnt)) l := isRing_congr hr (by simp) (by simp)
    split
    · obtain ⟨l1, l2, rfl⟩ := List.append_of_mem hx
      rw [erase_middle hr.1]
      refine wellFormed_mk (isRing_congr (isRing_brelse_move hr2) (by simp) (by simp)) ?_
        (by simp)
      intro i
      rw [← hmem i]
      exact (List.perm_middle.mem_iff).symm
    · exact wellFormed_mk (isRing_congr hr2 (by simp) (by simp)) hmem (by simp)

/-! ### Frames -/

theorem deref_bread_fill_ne {b q : Ptr} (s : State) (h : q ≠ b) :
    (bread_fill b s).deref q = s.deref q := by
  unfold bread_fill
  split
  · apply buf_ext <;> simp [h]
  · rfl

theorem bread_fill_key (b q : Ptr) (s : State) :
    ((bread_fill b s).deref q).dev = (s.deref q).dev ∧
    ((bread_fill b s).deref q).blockno = (s.deref q).blockno ∧
    ((bread_fill b s).deref q).refcnt = (s.deref q).refcnt ∧
    ((bread_fill b s).deref q).lock = (s.deref q).lock ∧
    ((bread_fill b s).deref q).next = (s.deref q).next ∧
    ((bread_fill b s).deref q).prev = (s.deref q).prev ∧
    (bread_fill b s).lock = s.lock ∧ (bread_fill b s).disk = s.disk := by
  unfold bread_fill
  split <;> simp

/-- Whatever the outcome of `bget`, a buffer with a non-zero reference count keeps its key. -/
theorem bget_after_key {fuel pid dev blockno : Nat} {s t : State}
    (h : (bget fuel pid dev blockno s).after? = some t) (q : Ptr)
    (hq : (s.deref q).refcnt ≠ 0) :
    (t.deref q).dev = (s.deref q).dev ∧ (t.deref q).blockno = (s.deref q).blockno := by
  have key : ∀ b u, (bget_lock pid b u).after? = some t →
      (∀ q, (t.deref q).dev = (u.deref q).dev ∧ (t.deref q).blockno = (u.deref q).blockno) := by
    intro b u hu q
    by_cases hh : (u.deref b).lock.holder = none
    · rw [bget_lock_free hh] at hu
      injection hu with hu
      subst hu
      simp
    · rw [bget_lock_held hh] at hu
      injection hu with hu
      subst hu
      simp
  rcases bget_cases fuel pid dev blockno s with ⟨h1, -⟩ | h1 | ⟨-, h1⟩
  · rw [h1] at h
    injection h with h
    subst h
    exact ⟨rfl, rfl⟩
  · rw [h1] at h; cases h
  · rcases h1 with ⟨b, -, h1⟩ | ⟨b, -, hr, h1⟩ | ⟨-, -, h1⟩
    · rw [h1] at h
      have := key _ _ h q
      simpa using this
    · rw [h1] at h
      have := key _ _ h q
      have hb := (bget_recycle_some s fuel _ b hr).2
      have hne : q ≠ b := by
        rintro rfl; exact hq hb
      simpa [hne] using this
    · rw [h1] at h
      injection h with h
      subst h
      simp

theorem bread_after {fuel pid dev blockno : Nat} {s t : State}
    (h : (bread fuel pid dev blockno s).after? = some t) :
    (bget fuel pid dev blockno s).after? = some t ∨
    ∃ b s1, bget fuel pid dev blockno s = Result.ok b s1 ∧ t = bread_fill b s1 := by
  unfold bread at h
  split at h
  · next b s1 hg =>
    injection h with h
    exact Or.inr ⟨b, s1, hg, h.symm⟩
  · exact Or.inl h

/-- A returning `bread` leaves every buffer but the returned one as it was. -/
theorem bread_frame {fuel pid dev blockno : Nat} {s s' : State} {b : Ptr}
    (h : bread fuel pid dev blockno s = Result.ok b s') :
    (bound s dev blockno b ∨ (s.deref b).refcnt = 0) ∧ bound s' dev blockno b ∧
    ∀ q, q ≠ b → s'.deref q = s.deref q := by
  obtain ⟨s1, hg, rfl⟩ := bread_ok.mp h
  obtain ⟨-, -, ⟨-, hb, -, rfl⟩ | ⟨-, -, hz, -, rfl⟩⟩ := bget_ok hg
  · refine ⟨Or.inl hb, ?_, ?_⟩
    · have := bread_fill_key b b (acquiredsleep pid b (bget_hit b (acquired s)))
      unfold bound at hb ⊢
      rw [this.1, this.2.1]
      simpa using hb
    · intro q hq
      rw [deref_bread_fill_ne _ hq, deref_hit, if_neg hq]
  · refine ⟨Or.inr hz, ?_, ?_⟩
    · have := bread_fill_key b b (acquiredsleep pid b (bget_miss dev blockno b (acquired s)))
      unfold bound
      rw [this.1, this.2.1]
      simp
    · intro q hq
      rw [deref_bread_fill_ne _ hq, deref_miss, if_neg hq]

/-- A returning `brelse` changes, besides links, only the content lock and the reference count
of the released buffer. -/
theorem brelse_frame {pid : Nat} {b : Ptr} {s s' : State} (h : brelse pid b s = Result.ok () s') :
    ∀ q, (s'.deref q).valid = (s.deref q).valid ∧ (s'.deref q).dev = (s.deref q).dev ∧
      (s'.deref q).blockno = (s.deref q).blockno ∧ (s'.deref q).data = (s.deref q).data ∧
      (s'.deref q).refcnt = (if q = b then uint_dec (s.deref b).refcnt else (s.deref q).refcnt) ∧
      (s'.deref q).lock = (if q = b then { holder := none } else (s.deref q).lock) := by
  obtain ⟨hh, hl⟩ := brelse_ok h
  rw [brelse_eq hh hl] at h
  injection h with _ h
  subst h
  intro q
  split
  · simp [(brelse_move_fields _ _ _).1, (brelse_move_fields _ _ _).2.1,
      (brelse_move_fields _ _ _).2.2.1, (brelse_move_fields _ _ _).2.2.2.1,
      (brelse_move_fields _ _ _).2.2.2.2.1, (brelse_move_fields _ _ _).2.2.2.2.2.1,
      (brelse_move_fields _ _ _).2.2.2.2.2.2]
  · simp


/-! ## The at-most-one-binding invariant -/

theorem keyInv_congr {s t : State} {l : List Nat} (h : KeyInv s l)
    (hk : ∀ q, (t.deref q).dev = (s.deref q).dev ∧ (t.deref q).blockno = (s.deref q).blockno)
    (hr : ∀ q, (t.deref q).refcnt ≠ 0 → (s.deref q).refcnt ≠ 0) : KeyInv t l := by
  refine List.Pairwise.imp ?_ h
  intro a b hab hb hsame
  refine hab (hr _ hb) ?_
  unfold sameKey at hsame ⊢
  rw [← (hk _).1, ← (hk _).2, ← (hk _).1, ← (hk _).2]
  exact hsame

/-- A change of the reference count of `x` keeps the invariant when no buffer before `x`
shares its key. -/
theorem keyInv_refcnt {s t : State} {l1 l2 : List Nat} {x : Nat}
    (h : KeyInv s (l1 ++ x :: l2)) (hnd : (l1 ++ x :: l2).Nodup)
    (hk : ∀ q, (t.deref q).dev = (s.deref q).dev ∧ (t.deref q).blockno = (s.deref q).blockno)
    (hr : ∀ q, q ≠ Ptr.slot x → (t.deref q).refcnt = (s.deref q).refcnt)
    (hx : ∀ a ∈ l1, ¬ sameKey s (Ptr.slot a) (Ptr.slot x)) : KeyInv t (l1 ++ x :: l2) := by
  have hsk : ∀ a b, sameKey t a b ↔ sameKey s a b := by
    intro a b
    unfold sameKey
    rw [(hk a).1, (hk a).2, (hk b).1, (hk b).2]
  have hnd1 : ∀ a ∈ l1, a ≠ x := by
    intro a ha hax
    rw [List.nodup_append] at hnd
    exact hnd.2.2 ha (by simp [hax])
  have hnd2 : ∀ a ∈ l2, a ≠ x := by
    intro a ha hax
    rw [List.nodup_append, List.nodup_cons] at hnd
    exact hnd.2.1.1 (hax ▸ ha)
  have hstep : ∀ a b, b ≠ x →
      ((s.deref (Ptr.slot b)).refcnt ≠ 0 → ¬ sameKey s (Ptr.slot a) (Ptr.slot b)) →
      ((t.deref (Ptr.slot b)).refcnt ≠ 0 → ¬ sameKey t (Ptr.slot a) (Ptr.slot b)) := by
    intro a b hbx hab hbr hsame
    rw [hsk] at hsame
    have : Ptr.slot b ≠ Ptr.slot x := fun h => hbx (slot_injective h)
    rw [hr _ this] at hbr
    exact hab hbr hsame
  unfold KeyInv at h ⊢
  rw [List.pairwise_append, List.pairwise_cons] at h ⊢
  obtain ⟨h1, ⟨hx2, h2⟩, h12⟩ := h
  refine ⟨?_, ⟨?_, ?_⟩, ?_⟩
  · exact List.Pairwise.imp_of_mem (fun _ hb hab => hstep _ _ (hnd1 _ hb) hab) h1
  · intro b hb
    exact hstep _ _ (hnd2 b hb) (hx2 b hb)
  · exact List.Pairwise.imp_of_mem (fun _ hb hab => hstep _ _ (hnd2 _ hb) hab) h2
  · intro a ha b hb
    rcases List.mem_cons.mp hb with rfl | hb
    · intro _ hsame
      rw [hsk] at hsame
      exact hx a ha hsame
    · exact hstep _ _ (hnd2 b hb) (h12 a ha b (List.mem_cons_of_mem _ hb))

/-- Rebinding `x` to a key that no other buffer of the list carries keeps the invariant. -/
theorem keyInv_rebind {s t : State} {l : List Nat} (x dev blockno : Nat)
    (h : KeyInv s l) (hnd : l.Nodup)
    (hk : ∀ q, q ≠ Ptr.slot x →
      (t.deref q).dev = (s.deref q).dev ∧ (t.deref q).blockno = (s.deref q).blockno ∧
      (t.deref q).refcnt = (s.deref q).refcnt)
    (hx : bound t dev blockno (Ptr.slot x))
    (hno : ∀ j ∈ l, j ≠ x → ¬ bound s dev blockno (Ptr.slot j)) : KeyInv t l := by
  unfold KeyInv at h ⊢
  have hnd' : l.Pairwise (· ≠ ·) := hnd
  refine List.Pairwise.imp_of_mem ?_ (hnd'.and h)
  intro a b ha hb ⟨hne, hab⟩ hbr hsame
  have hsl : ∀ i, i ≠ x → Ptr.slot i ≠ Ptr.slot x := fun i hi h => hi (slot_injective h)
  unfold sameKey at hsame
  by_cases hax : a = x
  · subst hax
    have hbx : b ≠ a := fun h => hne h.symm
    have hb' := hk _ (hsl b hbx)
    refine hno b hb hbx ?_
    unfold bound at hx ⊢
    rw [← hb'.1, ← hb'.2.1, ← hsame.1, ← hsame.2]
    exact hx
  · by_cases hbx : b = x
    · subst hbx
      have ha' := hk _ (hsl a hax)
      refine hno a ha hax ?_
      unfold bound at hx ⊢
      rw [← ha'.1, ← ha'.2.1, hsame.1, hsame.2]
      exact hx
    · have ha' := hk _ (hsl a hax)
      have hb' := hk _ (hsl b hbx)
      rw [hb'.2.2] at hbr
      refine hab hbr ?_
      unfold sameKey
      rw [← ha'.1, ← ha'.2.1, ← hb'.1, ← hb'.2.1]
      exact hsame

/-- Moving `x` to the front with its reference count dropped to 0 keeps the invariant when
the count was not 0 before. -/
theorem keyInv_move {s t : State} {l1 l2 : List Nat} {x : Nat}
    (h : KeyInv s (l1 ++ x :: l2)) (hnd : (l1 ++ x :: l2).Nodup)
    (hk : ∀ q, (t.deref q).dev = (s.deref q).dev ∧ (t.deref q).blockno = (s.deref q).blockno)
    (hr : ∀ q, q ≠ Ptr.slot x → (t.deref q).refcnt = (s.deref q).refcnt)
    (hx : (s.deref (Ptr.slot x)).refcnt ≠ 0) : KeyInv t (x :: (l1 ++ l2)) := by
  have hsk : ∀ a b, sameKey t a b ↔ sameKey s a b := by
    intro a b
    unfold sameKey
    rw [(hk a).1, (hk a).2, (hk b).1, (hk b).2]
  have hnd1 : ∀ a ∈ l1, a ≠ x := by
    intro a ha hax
    rw [List.nodup_append] at hnd
    exact hnd.2.2 ha (by simp [hax])
  have hnd2 : ∀ a ∈ l2, a ≠ x := by
    intro a ha hax
    rw [List.nodup_append, List.nodup_cons] at hnd
    exact hnd.2.1.1 (hax ▸ ha)
  have hstep : ∀ a b, b ≠ x →
      ((s.deref (Ptr.slot b)).refcnt ≠ 0 → ¬ sameKey s (Ptr.slot a) (Ptr.slot b)) →
      ((t.deref (Ptr.slot b)).refcnt ≠ 0 → ¬ sameKey t (Ptr.slot a) (Ptr.slot b)) := by
    intro a b hbx hab hbr hsame
    rw [hsk] at hsame
    have : Ptr.slot b ≠ Ptr.slot x := fun h => hbx (slot_injective h)
    rw [hr _ this] at hbr
    exact hab hbr hsame
  unfold KeyInv at h ⊢
  rw [List.pairwise_append, List.pairwise_cons] at h
  obtain ⟨h1, ⟨hx2, h2⟩, h12⟩ := h
  rw [List.pairwise_cons, List.pairwise_append]
  refine ⟨?_, ?_, ?_, ?_⟩
  · intro b hb
    rcases List.mem_append.mp hb with hb | hb
    · -- `b` came before `x`
      intro hbr hsame
      rw [hsk] at hsame
      exact h12 b hb x (List.mem_cons_self _ _) hx ⟨hsame.1.symm, hsame.2.symm⟩
    · exact hstep _ _ (hnd2 b hb) (hx2 b hb)
  · exact List.Pairwise.imp_of_mem (fun _ hb hab => hstep _ _ (hnd1 _ hb) hab) h1
  · exact List.Pairwise.imp_of_mem (fun _ hb hab => hstep _ _ (hnd2 _ hb) hab) h2
  · intro a ha b hb
    exact hstep _ _ (hnd2 b hb) (h12 a ha b (List.mem_cons_of_mem _ hb))

theorem sameMeta_refl (s : State) : sameMeta s s := fun _ => ⟨rfl, rfl, rfl, rfl, rfl⟩

theorem poolInv_congr {NBUF : Nat} {s t : State} (h : PoolInv NBUF s) (hm : sameMeta s t) :
    PoolInv NBUF t := by
  obtain ⟨l, hr, hmem, hk⟩ := h
  refine ⟨l, isRing_congr hr (fun q => (hm q).1) (fun q => (hm q).2.1), hmem, ?_⟩
  exact keyInv_congr hk (fun q => ⟨(hm q).2.2.1, (hm q).2.2.2.1⟩)
    (fun q h => by rwa [(hm q).2.2.2.2] at h)

/-- Going to sleep or not, the tail of `bget` leaves links, keys and counts alone. -/
theorem bget_lock_after {pid : Nat} {b : Ptr} {u t : State}
    (h : (bget_lock pid b u).after? = some t) : sameMeta u t := by
  by_cases hh : (u.deref b).lock.holder = none
  · rw [bget_lock_free hh] at h
    injection h with h
    subst h
    intro q; simp
  · rw [bget_lock_held hh] at h
    injection h with h
    subst h
    exact sameMeta_refl u

theorem poolInv_bget {NBUF fuel pid dev blockno : Nat} {s t : State} (h : PoolInv NBUF s)
    (hf : NBUF < fuel) (ht : (bget fuel pid dev blockno s).after? = some t) :
    PoolInv NBUF t := by
  by_cases hl : s.lock.locked = 0
  · obtain ⟨l, hr, hmem, hk⟩ := h
    have hwf : WellFormed NBUF s l := wellFormed_mk hr hmem hl
    rcases bget_wf_total pid dev blockno hwf hf with
      ⟨l1, x, l2, hl', hb, h1, hg⟩ | ⟨l1, x, l2, hl', hno, hz, -, hg⟩ | ⟨-, -, hg⟩
    · rw [hg] at ht
      refine poolInv_congr ?_ (bget_lock_after ht)
      subst hl'
      refine ⟨_, isRing_congr hr (by simp) (by simp), hmem, ?_⟩
      refine keyInv_refcnt hk hr.1 (by simp) (fun q hq => by simp [hq]) ?_
      intro a ha hsame
      exact h1 a ha ⟨hsame.1.trans hb.1, hsame.2.trans hb.2⟩
    · rw [hg] at ht
      refine poolInv_congr ?_ (bget_lock_after ht)
      refine ⟨_, isRing_congr hr (by simp) (by simp), hmem, ?_⟩
      refine keyInv_rebind x dev blockno hk hr.1
        (fun q hq => by simp [hq]) (by simp [bound]) ?_
      intro j hj _
      exact hno j hj
    · rw [hg] at ht
      injection ht with ht
      subst ht
      exact poolInv_congr ⟨l, hr, hmem, hk⟩ (by intro q; simp)
  · have : bget fuel pid dev blockno s = Result.spin s := by simp [bget, acquire, hl]
    rw [this] at ht
    injection ht with ht
    subst ht
    exact h

theorem poolInv_bread {NBUF fuel pid dev blockno : Nat} {s t : State} (h : PoolInv NBUF s)
    (hf : NBUF < fuel) (ht : (bread fuel pid dev blockno s).after? = some t) :
    PoolInv NBUF t := by
  rcases bread_after ht with ht | ⟨b, s1, hg, rfl⟩
  · exact poolInv_bget h hf ht
  · have h1 : PoolInv NBUF s1 := poolInv_bget h hf (by rw [hg]; rfl)
    refine poolInv_congr h1 ?_
    intro q
    have := bread_fill_key b q s1
    exact ⟨this.2.2.2.2.1, this.2.2.2.2.2.1, this.1, this.2.1, this.2.2.1⟩

theorem poolInv_bwrite {NBUF pid : Nat} {b : Ptr} {s t : State} (h : PoolInv NBUF s)
    (ht : (bwrite pid b s).after? = some t) : PoolInv NBUF t := by
  by_cases hh : (s.deref b).lock.holder = some pid
  · rw [bwrite_eq hh] at ht
    injection ht with ht
    subst ht
    exact poolInv_congr h (by intro q; simp)
  · rw [bwrite_panic hh] at ht
    injection ht with ht
    subst ht
    exact h

/-- A change of the reference count of a buffer whose count is not 0 keeps the invariant. -/
theorem poolInv_refcnt {NBUF i : Nat} {s t : State} (h : PoolInv NBUF s) (hi : i < NBUF)
    (hpos : (s.deref (Ptr.slot i)).refcnt ≠ 0)
    (hn : ∀ q, (t.deref q).next = (s.deref q).next ∧ (t.deref q).prev = (s.deref q).prev ∧
      (t.deref q).dev = (s.deref q).dev ∧ (t.deref q).blockno = (s.deref q).blockno)
    (hr : ∀ q, q ≠ Ptr.slot i → (t.deref q).refcnt = (s.deref q).refcnt) : PoolInv NBUF t := by
  obtain ⟨l, hring, hmem, hk⟩ := h
  obtain ⟨l1, l2, rfl⟩ := List.append_of_mem ((hmem i).mpr hi)
  refine ⟨_, isRing_congr hring (fun q => (hn q).1) (fun q => (hn q).2.1), hmem, ?_⟩
  refine keyInv_refcnt hk hring.1 (fun q => ⟨(hn q).2.2.1, (hn q).2.2.2⟩) hr ?_
  intro a ha
  unfold KeyInv at hk
  rw [List.pairwise_append] at hk
  exact hk.2.2 a ha i (List.mem_cons_self _ _) hpos

theorem poolInv_bpin {NBUF i : Nat} {s t : State} (h : PoolInv NBUF s) (hi : i < NBUF)
    (hpos : 0 < (s.deref (Ptr.slot i)).refcnt)
    (ht : (bpin (Ptr.slot i) s).after? = some t) : PoolInv NBUF t := by
  by_cases hl : s.lock.locked = 0
  · rw [bpin_eq hl] at ht
    injection ht with ht
    subst ht
    exact poolInv_refcnt h hi (by omega) (by intro q; simp) (fun q hq => by simp [hq])
  · have : bpin (Ptr.slot i) s = Result.spin s := by simp [bpin, acquire, hl]
    rw [this] at ht
    injection ht with ht
    subst ht
    exact h

theorem poolInv_bunpin {NBUF i : Nat} {s t : State} (h : PoolInv NBUF s) (hi : i < NBUF)
    (hpos : 0 < (s.deref (Ptr.slot i)).refcnt)
    (ht : (bunpin (Ptr.slot i) s).after? = some t) : PoolInv NBUF t := by
  by_cases hl : s.lock.locked = 0
  · rw [bunpin_eq hl] at ht
    injection ht with ht
    subst ht
    exact poolInv_refcnt h hi (by omega) (by intro q; simp) (fun q hq => by simp [hq])
  · have : bunpin (Ptr.slot i) s = Result.spin s := by simp [bunpin, acquire, hl]
    rw [this] at ht
    injection ht with ht
    subst ht
    exact h

theorem poolInv_brelse {NBUF pid i : Nat} {s t : State} (h : PoolInv NBUF s) (hi : i < NBUF)
    (hpos : 0 < (s.deref (Ptr.slot i)).refcnt)
    (ht : (brelse pid (Ptr.slot i) s).after? = some t) : PoolInv NBUF t := by
  by_cases hh : (s.deref (Ptr.slot i)).lock.holder = some pid
  · by_cases hl : s.lock.locked = 0
    · rw [brelse_eq hh hl] at ht
      injection ht with ht
      subst ht
      split
      · -- the count reached 0: the buffer moves to the front
        obtain ⟨l, hring, hmem, hk⟩ := h
        obtain ⟨l1, l2, rfl⟩ := List.append_of_mem ((hmem i).mpr hi)
        have hr2 : IsRing ((acquired (releasesleep (Ptr.slot i) s)).set_refcnt (Ptr.slot i)
            (uint_dec (s.deref (Ptr.slot i)).refcnt)) (l1 ++ i :: l2) :=
          isRing_congr hring (by simp) (by simp)
        refine ⟨i :: (l1 ++ l2), isRing_congr (isRing_brelse_move hr2) (by simp) (by simp),
          ?_, ?_⟩
        · intro j
          rw [← hmem j]
          exact (List.perm_middle.mem_iff).symm
        · refine keyInv_move hk hring.1 ?_ ?_ (by omega)
          · intro q
            simp [(brelse_move_fields _ _ _).2.2.1, (brelse_move_fields _ _ _).2.2.2.1]
          · intro q hq
            simp [(brelse_move_fields _ _ _).2.2.2.2.2.1, hq]
      · exact poolInv_refcnt h hi (by omega) (by intro q; simp) (fun q hq => by simp [hq])
    · rw [brelse_spin hh hl] at ht
      injection ht with ht
      subst ht
      exact poolInv_congr h (by intro q; simp)
  · rw [brelse_panic hh] at ht
    injection ht with ht
    subst ht
    exact h

theorem poolInv_binit (NBUF : Nat) (disk : Nat → Nat → List Nat) :
    PoolInv NBUF (binit NBUF (boot disk)) := by
  obtain ⟨hwf, hz, -, -⟩ := binit_boot NBUF disk
  refine ⟨_, hwf.1, wellFormed_mem_iff hwf, ?_⟩
  exact List.pairwise_of_forall fun a b h => absurd (hz (Ptr.slot b)).2.2.2.1 h

theorem poolInv_of_reachable {NBUF : Nat} {s : State} (h : Reachable NBUF s) : PoolInv NBUF s := by
  induction h with
  | binit disk => exact poolInv_binit NBUF disk
  | bget fuel pid dev blockno _ hf ht ih => exact poolInv_bget ih hf ht
  | bread fuel pid dev blockno _ hf ht ih => exact poolInv_bread ih hf ht
  | bwrite pid b _ ht ih => exact poolInv_bwrite ih ht
  | brelse pid i _ hi hpos ht ih => exact poolInv_brelse ih hi hpos ht
  | bpin i _ hi hpos ht ih => exact poolInv_bpin ih hi hpos ht
  | bunpin i _ hi hpos ht ih => exact poolInv_bunpin ih hi hpos ht


/-! ## Pools reachable through the interface -/

/-- A returning `bread` on a well-formed pool: the buffer it returns and the pool it leaves. -/
theorem bread_wf {NBUF fuel pid dev blockno : Nat} {s s1 : State} {l : List Nat} {b : Ptr}
    (hwf : WellFormed NBUF s l) (hf : NBUF < fuel)
    (h : bread fuel pid dev blockno s = Result.ok b s1) :
    ∃ l1 x l2, l = l1 ++ x :: l2 ∧ b = Ptr.slot x ∧
      (s.deref (Ptr.slot x)).lock.holder = none ∧
      ((bound s dev blockno (Ptr.slot x) ∧ (∀ j ∈ l1, ¬ bound s dev blockno (Ptr.slot j)) ∧
          s1 = bread_fill b (acquiredsleep pid b (bget_hit b (acquired s)))) ∨
       ((∀ j ∈ l, ¬ bound s dev blockno (Ptr.slot j)) ∧ (s.deref (Ptr.slot x)).refcnt = 0 ∧
          (∀ j ∈ l2, (s.deref (Ptr.slot j)).refcnt ≠ 0) ∧
          s1 = bread_fill b (acquiredsleep pid b (bget_miss dev blockno b (acquired s))))) := by
  obtain ⟨t, hg, rfl⟩ := bread_ok.mp h
  rcases bget_wf_total pid dev blockno hwf hf with
    ⟨l1, x, l2, hl, hb, h1, hg'⟩ | ⟨l1, x, l2, hl, hno, hz, h2, hg'⟩ | ⟨-, -, hg'⟩
  · rw [hg'] at hg
    obtain ⟨rfl, hh, rfl⟩ := bget_lock_ok hg
    exact ⟨l1, x, l2, hl, rfl, by simpa using hh, Or.inl ⟨hb, h1, rfl⟩⟩
  · rw [hg'] at hg
    obtain ⟨rfl, hh, rfl⟩ := bget_lock_ok hg
    exact ⟨l1, x, l2, hl, rfl, by simpa using hh, Or.inr ⟨hno, hz, h2, rfl⟩⟩
  · rw [hg'] at hg; cases hg

/-- A returning `bread` keeps a well-formed pool well-formed, with the same recency list. -/
theorem wellFormed_bread {NBUF fuel pid dev blockno : Nat} {s s1 : State} {l : List Nat}
    {b : Ptr} (hwf : WellFormed NBUF s l) (hf : NBUF < fuel)
    (h : bread fuel pid dev blockno s = Result.ok b s1) : WellFormed NBUF s1 l := by
  obtain ⟨l1, x, l2, -, rfl, -, ⟨-, -, rfl⟩ | ⟨-, -, -, rfl⟩⟩ := bread_wf hwf hf h
  · refine wellFormed_congr hwf ?_ ?_ ?_
    · intro q; rw [(bread_fill_key _ q _).2.2.2.2.1]; simp
    · intro q; rw [(bread_fill_key _ q _).2.2.2.2.2.1]; simp
    · rw [(bread_fill_key _ Ptr.head _).2.2.2.2.2.2.1]; simp
  · refine wellFormed_congr hwf ?_ ?_ ?_
    · intro q; rw [(bread_fill_key _ q _).2.2.2.2.1]; simp
    · intro q; rw [(bread_fill_key _ q _).2.2.2.2.2.1]; simp
    · rw [(bread_fill_key _ Ptr.head _).2.2.2.2.2.2.1]; simp

theorem valid_bread_fill (b q : Ptr) (s : State) :
    ((bread_fill b s).deref q).valid =
      if q = b ∧ (s.deref b).valid = 0 then 1 else (s.deref q).valid := by
  unfold bread_fill
  by_cases hv : (s.deref b).valid = 0
  · rw [if_pos hv]
    by_cases hq : q = b
    · subst hq; simp [hv]
    · simp [hq]
  · rw [if_neg hv]
    simp [hv]

theorem validInv_bread {NBUF fuel pid dev blockno : Nat} {s s1 : State} {l : List Nat} {b : Ptr}
    (hwf : WellFormed NBUF s l) (hf : NBUF < fuel) (hv : ValidInv s)
    (h : bread fuel pid dev blockno s = Result.ok b s1) : ValidInv s1 := by
  obtain ⟨l1, x, l2, -, rfl, -, ⟨-, -, rfl⟩ | ⟨-, -, -, rfl⟩⟩ := bread_wf hwf hf h
  · intro q
    rw [valid_bread_fill, (bread_fill_key _ q _).2.2.1]
    by_cases hq : q = Ptr.slot x
    · subst hq
      rcases (hv (Ptr.slot x)).1 with h0 | h1
      · simp [h0]
      · simp [h1]
    · simpa [hq] using hv q
  · intro q
    rw [valid_bread_fill, (bread_fill_key _ q _).2.2.1]
    by_cases hq : q = Ptr.slot x
    · subst hq; simp
    · simpa [hq] using hv q

/-- A change of the reference count of a buffer whose count is positive keeps `ValidInv`. -/
theorem validInv_refcnt {s t : State} {b : Ptr} (hv : ValidInv s)
    (hpos : 0 < (s.deref b).refcnt)
    (hval : ∀ q, (t.deref q).valid = (s.deref q).valid)
    (hr : ∀ q, q ≠ b → (t.deref q).refcnt = (s.deref q).refcnt) : ValidInv t := by
  intro q
  rw [hval q]
  refine ⟨(hv q).1, ?_⟩
  intro h0
  by_cases hq : q = b
  · subst hq
    have := (hv q).2 h0
    omega
  · rw [hr q hq]
    exact (hv q).2 h0

/-- Every pool reachable through the interface is well-formed and satisfies `ValidInv`. -/
theorem apiReachable_inv {NBUF : Nat} {s : State} (h : ApiReachable NBUF s) :
    ∃ l, WellFormed NBUF s l ∧ ValidInv s := by
  induction h with
  | binit disk =>
    obtain ⟨hwf, hz, -, -⟩ := binit_boot NBUF disk
    exact ⟨_, hwf, fun q => ⟨Or.inl (hz q).1, fun _ => (hz q).2.2.2.1⟩⟩
  | bread fuel pid dev blockno b _ hf hb ih =>
    obtain ⟨l, hwf, hv⟩ := ih
    exact ⟨l, wellFormed_bread hwf hf hb, validInv_bread hwf hf hv hb⟩
  | bwrite pid b _ hb ih =>
    obtain ⟨l, hwf, hv⟩ := ih
    obtain ⟨-, rfl⟩ := bwrite_ok hb
    refine ⟨l, wellFormed_congr hwf (by simp) (by simp) (by simpa using hwf.2.2.2), ?_⟩
    intro q
    simpa using hv q
  | brelse pid i _ hi hpos hb ih =>
    obtain ⟨l, hwf, hv⟩ := ih
    obtain ⟨hh, -⟩ := brelse_ok hb
    obtain ⟨s', hs, hq, -, -, hw⟩ := brelse_wf hwf ((wellFormed_mem_iff hwf i).mpr hi) hh
    rw [hs] at hb
    injection hb with _ hb
    subst hb
    refine ⟨_, hw, validInv_refcnt hv hpos (fun q => (hq q).1) ?_⟩
    intro q hne
    rw [(hq q).2.2.2.2.2.1, if_neg hne]
  | bpin i _ hi hpos hb ih =>
    obtain ⟨l, hwf, hv⟩ := ih
    rw [bpin_eq hwf.2.2.2] at hb
    injection hb with _ hb
    subst hb
    exact ⟨l, wellFormed_congr hwf (by simp) (by simp) (by simp),
      validInv_refcnt hv hpos (by simp) (fun q hne => by simp [hne])⟩
  | bunpin i _ hi hpos hb ih =>
    obtain ⟨l, hwf, hv⟩ := ih
    rw [bunpin_eq hwf.2.2.2] at hb
    injection hb with _ hb
    subst hb
    exact ⟨l, wellFormed_congr hwf (by simp) (by simp) (by simp),
      validInv_refcnt hv hpos (by simp) (fun q hne => by simp [hne])⟩

theorem uint_dec_one : uint_dec 1 = 0 := by decide

theorem uint_inc_zero : uint_inc 0 = 1 := by decide

/-- A returning `bread` for a block that no buffer caches with valid data reads the block
into a buffer that only the caller references. -/
theorem bread_uncached {NBUF fuel pid dev blockno : Nat} {s s1 : State} {l : List Nat} {b : Ptr}
    (hwf : WellFormed NBUF s l) (hf : NBUF < fuel) (hv : ValidInv s)
    (hnc : ∀ i, i < NBUF → bound s dev blockno (Ptr.slot i) → (s.deref (Ptr.slot i)).valid ≠ 1)
    (h : bread fuel pid dev blockno s = Result.ok b s1) :
    ∃ x, x ∈ l ∧ b = Ptr.slot x ∧ bound s1 dev blockno b ∧ (s1.deref b).valid = 1 ∧
      (s1.deref b).refcnt = 1 ∧ (s1.deref b).lock.holder = some pid ∧
      (s1.deref b).data = s.disk dev blockno ∧ s1.disk = s.disk ∧
      reads s1.trace = reads s.trace + 1 ∧ writes s1.trace = writes s.trace := by
  obtain ⟨l1, x, l2, hl, rfl, -, ⟨hb, -, rfl⟩ | ⟨-, -, -, rfl⟩⟩ := bread_wf hwf hf h
  · have hx : x ∈ l := by simp [hl]
    have hv0 : (s.deref (Ptr.slot x)).valid = 0 := by
      rcases (hv (Ptr.slot x)).1 with h0 | h1
      · exact h0
      · exact absurd h1 (hnc x ((wellFormed_mem_iff hwf x).mp hx) hb)
    have hr0 := (hv (Ptr.slot x)).2 hv0
    refine ⟨x, hx, rfl, ?_⟩
    simp [bread_fill, bound, hv0, hr0, hb.1, hb.2, uint_inc_zero]
  · have hx : x ∈ l := by simp [hl]
    refine ⟨x, hx, rfl, ?_⟩
    simp [bread_fill, bound]

/-- A returning `bread` leaves the buffer valid and locked by the caller. -/
theorem bread_valid_locked {fuel pid dev blockno : Nat} {s s' : State} {b : Ptr}
    (hflag : (s.deref b).valid = 0 ∨ (s.deref b).valid = 1)
    (h : bread fuel pid dev blockno s = Result.ok b s') :
    (s'.deref b).valid = 1 ∧ (s'.deref b).lock.holder = some pid := by
  obtain ⟨s1, hg, rfl⟩ := bread_ok.mp h
  obtain ⟨-, -, ⟨-, -, -, rfl⟩ | ⟨-, -, -, -, rfl⟩⟩ := bget_ok hg
  · rcases hflag with hv | hv
    · simp [bread_fill, hv]
    · simp [bread_fill, hv]
  · simp [bread_fill]


/-! ## Least recently released -/

theorem lruRun_inv {NBUF : Nat} {s : State} {c : Nat} {r : Nat → Nat} (h : LruRun NBUF s c r) :
    ∃ l, WellFormed NBUF s l ∧ LruInv s c r l := by
  induction h with
  | binit disk =>
    obtain ⟨hwf, hz, -, -⟩ := binit_boot NBUF disk
    refine ⟨_, hwf, fun i _ => Or.inl ⟨(hz _).2.2.2.1, (hz _).2.2.2.2⟩, fun _ => le_refl _, ?_⟩
    exact List.pairwise_of_forall fun _ _ => Or.inr rfl
  | bread fuel pid dev blockno b _ hf hb ih =>
    obtain ⟨l, hwf, hrl, hc, hp⟩ := ih
    refine ⟨l, wellFormed_bread hwf hf hb, ?_, hc, hp⟩
    obtain ⟨l1, x, l2, hl, rfl, hfree, ⟨-, -, rfl⟩ | ⟨-, hz, -, rfl⟩⟩ := bread_wf hwf hf hb
    · intro i hi
      have hx : x ∈ l := by simp [hl]
      by_cases hix : i = x
      · subst hix
        right
        rcases hrl i hi with ⟨h0, -⟩ | ⟨-, h1⟩
        · rw [(bread_fill_key _ _ _).2.2.1, (bread_fill_key _ _ _).2.2.2.1]
          simp [h0, uint_inc_zero]
        · exact absurd hfree h1
      · have hne : Ptr.slot i ≠ Ptr.slot x := fun h => hix (slot_injective h)
        rw [(bread_fill_key _ _ _).2.2.1, (bread_fill_key _ _ _).2.2.2.1]
        simpa [hne] using hrl i hi
    · intro i hi
      by_cases hix : i = x
      · subst hix
        right
        rw [(bread_fill_key _ _ _).2.2.1, (bread_fill_key _ _ _).2.2.2.1]
        simp
      · have hne : Ptr.slot i ≠ Ptr.slot x := fun h => hix (slot_injective h)
        rw [(bread_fill_key _ _ _).2.2.1, (bread_fill_key _ _ _).2.2.2.1]
        simpa [hne] using hrl i hi
  | @brelse s s' c r pid i _ hi hb ih =>
    obtain ⟨l, hwf, hrl, hc, hp⟩ := ih
    obtain ⟨hh, -⟩ := brelse_ok hb
    have him : i ∈ l := (wellFormed_mem_iff hwf i).mpr hi
    have hr1 : (s.deref (Ptr.slot i)).refcnt = 1 := by
      rcases hrl i him with ⟨-, h0⟩ | ⟨h1, -⟩
      · rw [hh] at h0; cases h0
      · exact h1
    obtain ⟨t, hs, hq, -, -, hw⟩ := brelse_wf hwf him hh
    rw [hs] at hb
    injection hb with _ hb
    subst hb
    rw [hr1, if_pos uint_dec_one] at hw
    refine ⟨_, hw, ?_, ?_, ?_⟩
    · intro j hj
      have hjl : j ∈ l := by
        rcases List.mem_cons.mp hj with rfl | hj
        · exact him
        · exact List.mem_of_mem_erase hj
      rw [(hq _).2.2.2.2.2.1, (hq _).2.2.2.2.2.2]
      by_cases hji : j = i
      · subst hji
        left
        simp [hr1, uint_dec_one]
      · have hne : Ptr.slot j ≠ Ptr.slot i := fun h => hji (slot_injective h)
        simpa [hne] using hrl j hjl
    · intro j
      by_cases hji : j = i
      · simp [hji]
      · simp only [hji, if_false]
        exact Nat.le_succ_of_le (hc j)
    · rw [List.pairwise_cons]
      refine ⟨?_, ?_⟩
      · intro b hb
        have hbi : b ≠ i := fun h => by
          subst h
          exact (List.Nodup.not_mem_erase hwf.1.1) hb
        left
        simp only [hbi, if_false, if_true]
        exact Nat.lt_succ_of_le (hc b)
      · have hsub : (l.erase i).Pairwise fun a b => r b < r a ∨ r b = 0 :=
          hp.sublist (List.erase_sublist i l)
        refine List.Pairwise.imp_of_mem ?_ hsub
        intro a b ha hb hab
        have hai : a ≠ i := fun h => by
          subst h
          exact (List.Nodup.not_mem_erase hwf.1.1) ha
        have hbi : b ≠ i := fun h => by
          subst h
          exact (List.Nodup.not_mem_erase hwf.1.1) hb
        simpa [hai, hbi] using hab

/-- `bread` returns when every buffer it may select (bound to the key, or unreferenced) has a
free content lock, and one such buffer exists. -/
theorem bread_returns {NBUF fuel : Nat} (pid dev blockno : Nat) {s : State} {l : List Nat}
    (hwf : WellFormed NBUF s l) (hf : NBUF < fuel)
    (hex : ∃ i, i < NBUF ∧ (bound s dev blockno (Ptr.slot i) ∨ (s.deref (Ptr.slot i)).refcnt = 0))
    (hfree : ∀ i, i < NBUF →
      bound s dev blockno (Ptr.slot i) ∨ (s.deref (Ptr.slot i)).refcnt = 0 →
      (s.deref (Ptr.slot i)).lock.holder = none) :
    ∃ b s', bread fuel pid dev blockno s = Result.ok b s' := by
  have hmem := wellFormed_mem_iff hwf
  have hret : ∀ x ∈ l, ∀ t, (t.deref (Ptr.slot x)).lock.holder = none →
      bget fuel pid dev blockno s = bget_lock pid (Ptr.slot x) t →
      ∃ b s', bread fuel pid dev blockno s = Result.ok b s' := by
    intro x _ t ht hg
    rw [bget_lock_free ht] at hg
    exact ⟨_, _, bread_ok.mpr ⟨_, hg, rfl⟩⟩
  rcases bget_wf_total pid dev blockno hwf hf with
    ⟨l1, x, l2, hl, hb, -, hg⟩ | ⟨l1, x, l2, hl, -, hz, -, hg⟩ | ⟨hno, hbusy, -⟩
  · have hx : x ∈ l := by simp [hl]
    exact hret x hx _ (by simpa using hfree x ((hmem x).mp hx) (Or.inl hb)) hg
  · have hx : x ∈ l := by simp [hl]
    exact hret x hx _ (by simpa using hfree x ((hmem x).mp hx) (Or.inr hz)) hg
  · obtain ⟨i, hi, h | h⟩ := hex
    · exact absurd h (hno i ((hmem i).mpr hi))
    · exact absurd h (hbusy i ((hmem i).mpr hi))

theorem lruRun_api {NBUF : Nat} {s : State} {c : Nat} {r : Nat → Nat} (h : LruRun NBUF s c r) :
    ApiReachable NBUF s := by
  induction h with
  | binit disk => exact ApiReachable.binit disk
  | bread fuel pid dev blockno b _ hf hb ih => exact ApiReachable.bread fuel pid dev blockno b ih hf hb
  | @brelse s s' c r pid i hrun hi hb ih =>
    obtain ⟨l, hwf, hrl, -, -⟩ := lruRun_inv hrun
    obtain ⟨hh, -⟩ := brelse_ok hb
    refine ApiReachable.brelse pid i ih hi ?_ hb
    rcases hrl i ((wellFormed_mem_iff hwf i).mpr hi) with ⟨-, h0⟩ | ⟨h1, -⟩
    · rw [hh] at h0; cases h0
    · omega

/-- What a returning `bread` does in a run of `bread` and `brelse` calls. -/
theorem lru_bread {NBUF fuel pid dev blockno : Nat} {s s' : State} {c : Nat} {r : Nat → Nat}
    {b : Ptr} (hrun : LruRun NBUF s c r) (hf : NBUF < fuel)
    (h : bread fuel pid dev blockno s = Result.ok b s') :
    ∃ x, x < NBUF ∧ b = Ptr.slot x ∧ (s.deref b).refcnt = 0 ∧
      (bound s dev blockno b ∨ ∀ i, i < NBUF → ¬ bound s dev blockno (Ptr.slot i)) ∧
      bound s' dev blockno b ∧ (s'.deref b).valid = 1 ∧ (s'.deref b).refcnt = 1 ∧
      (s'.deref b).lock.holder = some pid ∧ (∀ q, q ≠ b → s'.deref q = s.deref q) ∧
      ((s.deref b).valid = 1 → bound s dev blockno b → reads s'.trace = reads s.trace) ∧
      (∀ j, j < NBUF → j ≠ x → (s.deref (Ptr.slot j)).refcnt = 0 →
        bound s dev blockno b ∨ r x = 0 ∨ r x < r j) := by
  obtain ⟨l, hwf, hrl, -, hp⟩ := lruRun_inv hrun
  obtain ⟨-, hv⟩ := (apiReachable_inv (lruRun_api hrun)).choose_spec
  have hmem := wellFormed_mem_iff hwf
  obtain ⟨hsel, hb', hfr⟩ := bread_frame h
  obtain ⟨l1, x, l2, hl, rfl, hfree, hcase⟩ := bread_wf hwf hf h
  have hx : x ∈ l := by simp [hl]
  have hr0 : (s.deref (Ptr.slot x)).refcnt = 0 := by
    rcases hrl x hx with ⟨h0, -⟩ | ⟨-, h1⟩
    · exact h0
    · exact absurd hfree h1
  obtain ⟨hv1, hh1⟩ := bread_valid_locked (hv (Ptr.slot x)).1 h
  have hrl' := (lruRun_inv (LruRun.bread fuel pid dev blockno _ hrun hf h)).choose_spec.2.1
  have hwf' := (lruRun_inv (LruRun.bread fuel pid dev blockno _ hrun hf h)).choose_spec.1
  have hr1 : (s'.deref (Ptr.slot x)).refcnt = 1 := by
    rcases hrl' x ((wellFormed_mem_iff hwf' x).mpr ((hmem x).mp hx)) with ⟨-, h0⟩ | ⟨h1, -⟩
    · rw [hh1] at h0; cases h0
    · exact h1
  refine ⟨x, (hmem x).mp hx, rfl, hr0, ?_, hb', hv1, hr1, hh1, hfr, ?_, ?_⟩
  · rcases hcase with ⟨hb, -, -⟩ | ⟨hno, -, -, -⟩
    · exact Or.inl hb
    · exact Or.inr fun i hi => hno i ((hmem i).mpr hi)
  · intro hval hb
    rcases hcase with ⟨-, -, rfl⟩ | ⟨hno, -, -, -⟩
    · simp [bread_fill, hval]
    · exact absurd hb (hno x hx)
  · intro j hj hjx hj0
    rcases hcase with ⟨hb, -, -⟩ | ⟨-, -, h2, -⟩
    · exact Or.inl hb
    · right
      have hjl : j ∈ l := (hmem j).mpr hj
      rw [hl] at hjl hp
      have hj1 : j ∈ l1 := by
        rcases List.mem_append.mp hjl with h | h
        · exact h
        · rcases List.mem_cons.mp h with h | h
          · exact absurd h hjx
          · exact absurd hj0 (h2 j h)
      rw [List.pairwise_append] at hp
      rcases hp.2.2 j hj1 x (List.mem_cons_self _ _) with h | h
      · exact Or.inr h
      · exact Or.inl h

/-- What `brelse` by the holder does in a run of `bread` and `brelse` calls. -/
theorem lru_brelse {NBUF pid i : Nat} {s : State} {c : Nat} {r : Nat → Nat}
    (hrun : LruRun NBUF s c r) (hi : i < NBUF)
    (hh : (s.deref (Ptr.slot i)).lock.holder = some pid) :
    ∃ s', brelse pid (Ptr.slot i) s = Result.ok () s' ∧
      (s'.deref (Ptr.slot i)).refcnt = 0 ∧ (s'.deref (Ptr.slot i)).lock.holder = none ∧
      (∀ q, (s'.deref q).valid = (s.deref q).valid ∧ (s'.deref q).dev = (s.deref q).dev ∧
        (s'.deref q).blockno = (s.deref q).blockno ∧ (s'.deref q).data = (s.deref q).data) ∧
      (∀ q, q ≠ Ptr.slot i → (s'.deref q).refcnt = (s.deref q).refcnt ∧
        (s'.deref q).lock = (s.deref q).lock) ∧
      reads s'.trace = reads s.trace := by
  obtain ⟨l, hwf, hrl, -, -⟩ := lruRun_inv hrun
  have him : i ∈ l := (wellFormed_mem_iff hwf i).mpr hi
  have hr1 : (s.deref (Ptr.slot i)).refcnt = 1 := by
    rcases hrl i him with ⟨-, h0⟩ | ⟨h1, -⟩
    · rw [hh] at h0; cases h0
    · exact h1
  obtain ⟨t, hs, hq, -, ht, -⟩ := brelse_wf hwf him hh
  refine ⟨t, hs, ?_, ?_, ?_, ?_, by simp [ht]⟩
  · rw [(hq _).2.2.2.2.2.1, if_pos rfl, hr1]; exact uint_dec_one
  · rw [(hq _).2.2.2.2.2.2, if_pos rfl]
  · intro q
    exact ⟨(hq q).1, (hq q).2.2.1, (hq q).2.2.2.1, (hq q).2.2.2.2.1⟩
  · intro q hne
    have := hq q
    rw [if_neg hne, if_neg hne] at this
    exact ⟨this.2.2.2.2.2.1, this.2.2.2.2.2.2⟩

theorem bound_congr {s t : State} {p : Ptr} {dev blockno : Nat}
    (h1 : (t.deref p).dev = (s.deref p).dev) (h2 : (t.deref p).blockno = (s.deref p).blockno) :
    bound t dev blockno p ↔ bound s dev blockno p := by
  unfold bound
  rw [h1, h2]

theorem bound_unique {s : State} {p : Ptr} {d n d' n' : Nat} (h : bound s d n p)
    (h' : bound s d' n' p) : d = d' ∧ n = n' :=
  ⟨h.1.symm.trans h'.1, h.2.symm.trans h'.2⟩

/-- The scripted sequence on a pool of two buffers: access `A`, release, access `B`, release,
access `C`, for three different keys. -/
theorem lru_scenario (disk : Nat → Nat → List Nat) (fuel pA pB pC pD dA nA dB nB dC nC : Nat)
    (hf : 2 < fuel) (hAB : ¬ (dA = dB ∧ nA = nB)) (hAC : ¬ (dA = dC ∧ nA = nC))
    (hBC : ¬ (dB = dC ∧ nB = nC)) :
    ∃ a b s1 s2 s3 s4 s5 s6,
      bread fuel pA dA nA (binit 2 (boot disk)) = Result.ok a s1 ∧
      brelse pA a s1 = Result.ok () s2 ∧
      bread fuel pB dB nB s2 = Result.ok b s3 ∧
      brelse pB b s3 = Result.ok () s4 ∧
      a ≠ b ∧ bound s4 dA nA a ∧ bound s4 dB nB b ∧
      bread fuel pC dC nC s4 = Result.ok a s5 ∧
      (∀ i, i < 2 → ¬ bound s5 dA nA (Ptr.slot i)) ∧ bound s5 dB nB b ∧
      bread fuel pD dB nB s5 = Result.ok b s6 ∧ reads s6.trace = reads s5.trace := by
  obtain ⟨hwf0, hz, -, -⟩ := binit_boot 2 disk
  have R0 : LruRun 2 (binit 2 (boot disk)) 0 (fun _ => 0) := LruRun.binit disk
  -- access A
  obtain ⟨a, s1, h1⟩ := bread_returns pA dA nA hwf0 hf
    ⟨0, by omega, Or.inr (hz _).2.2.2.1⟩ (fun i _ _ => (hz _).2.2.2.2)
  have R1 := LruRun.bread fuel pA dA nA a R0 hf h1
  obtain ⟨xa, hxa, rfl, -, -, hbA1, hvA1, -, hhA1, hfr1, -, -⟩ := lru_bread R0 hf h1
  -- release A
  obtain ⟨s2, h2, hr2, hh2, hq2, ho2, -⟩ := lru_brelse R1 hxa hhA1
  have R2 := LruRun.brelse pA xa R1 hxa h2
  have hbA2 : bound s2 dA nA (Ptr.slot xa) := (bound_congr (hq2 _).2.1 (hq2 _).2.2.1).mpr hbA1
  have hfree2 : ∀ i, (s2.deref (Ptr.slot i)).refcnt = 0 ∧
      (s2.deref (Ptr.slot i)).lock.holder = none := by
    intro i
    by_cases hi : i = xa
    · subst hi; exact ⟨hr2, hh2⟩
    · have hne : Ptr.slot i ≠ Ptr.slot xa := fun h => hi (slot_injective h)
      rw [(ho2 _ hne).1, (ho2 _ hne).2, hfr1 _ hne]
      exact ⟨(hz _).2.2.2.1, (hz _).2.2.2.2⟩
  -- access B
  obtain ⟨l2, hwf2, -⟩ := lruRun_inv R2
  obtain ⟨b, s3, h3⟩ := bread_returns pB dB nB hwf2 hf
    ⟨0, by omega, Or.inr (hfree2 0).1⟩ (fun i _ _ => (hfree2 i).2)
  have R3 := LruRun.bread fuel pB dB nB b R2 hf h3
  obtain ⟨xb, hxb, rfl, -, hselB, hbB3, hvB3, -, hhB3, hfr3, -, hlru3⟩ := lru_bread R2 hf h3
  have hab : xa ≠ xb := by
    intro heq
    subst heq
    have hnb : ¬ bound s2 dB nB (Ptr.slot xa) := fun h => hAB (bound_unique hbA2 h)
    have := hlru3 (1 - xa) (by omega) (by omega) (hfree2 _).1
    rcases this with h | h | h
    · exact hnb h
    · simp at h
    · have hne : 1 - xa ≠ xa := by omega
      simp [hne] at h
  have habp : Ptr.slot xa ≠ Ptr.slot xb := fun h => hab (slot_injective h)
  -- release B
  obtain ⟨s4, h4, hr4, hh4, hq4, ho4, -⟩ := lru_brelse R3 hxb hhB3
  have R4 := LruRun.brelse pB xb R3 hxb h4
  have hbB4 : bound s4 dB nB (Ptr.slot xb) := (bound_congr (hq4 _).2.1 (hq4 _).2.2.1).mpr hbB3
  have hvB4 : (s4.deref (Ptr.slot xb)).valid = 1 := by rw [(hq4 _).1]; exact hvB3
  have hbA4 : bound s4 dA nA (Ptr.slot xa) := by
    rw [bound_congr (hq4 _).2.1 (hq4 _).2.2.1]
    unfold bound
    rw [hfr3 _ habp]
    exact hbA2
  have hA4 : (s4.deref (Ptr.slot xa)).refcnt = 0 ∧
      (s4.deref (Ptr.slot xa)).lock.holder = none := by
    rw [(ho4 _ habp).1, (ho4 _ habp).2, hfr3 _ habp]
    exact hfree2 xa
  have hcases : ∀ i, i < 2 → i = xa ∨ i = xb := by
    intro i hi; omega
  -- access C
  obtain ⟨l4, hwf4, -⟩ := lruRun_inv R4
  obtain ⟨c, s5, h5⟩ := bread_returns pC dC nC hwf4 hf
    ⟨xa, hxa, Or.inr hA4.1⟩ (fun i hi _ => by
      rcases hcases i hi with rfl | rfl
      · exact hA4.2
      · exact hh4)
  have R5 := LruRun.bread fuel pC dC nC c R4 hf h5
  obtain ⟨xc, hxc, rfl, -, hselC, hbC5, -, hrC5, -, hfr5, -, hlru5⟩ := lru_bread R4 hf h5
  have hca : xc = xa := by
    rcases hcases xc hxc with h | h
    · exact h
    · exfalso
      subst h
      have hnb : ¬ bound s4 dC nC (Ptr.slot xc) := fun h => hBC (bound_unique hbB4 h)
      rcases hlru5 xa hxa hab hA4.1 with h | h | h
      · exact hnb h
      · simp at h
      · simp [hab, hab.symm] at h
  subst hca
  have hbB5 : bound s5 dB nB (Ptr.slot xb) := by
    unfold bound
    rw [hfr5 _ habp.symm]
    exact hbB4
  have hevict : ∀ i, i < 2 → ¬ bound s5 dA nA (Ptr.slot i) := by
    intro i hi hb
    rcases hcases i hi with rfl | rfl
    · exact hAC (bound_unique hb hbC5)
    · exact hAB (bound_unique hb hbB5)
  -- access B again
  obtain ⟨l5, hwf5, -⟩ := lruRun_inv R5
  have hB5 : (s5.deref (Ptr.slot xb)).lock.holder = none ∧ (s5.deref (Ptr.slot xb)).valid = 1 := by
    rw [hfr5 _ habp.symm]
    exact ⟨hh4, hvB4⟩
  obtain ⟨d, s6, h6⟩ := bread_returns pD dB nB hwf5 hf
    ⟨xb, hxb, Or.inl hbB5⟩ (fun i hi hsel => by
      rcases hcases i hi with rfl | rfl
      · rcases hsel with h | h
        · exact absurd (bound_unique h hbC5) hBC
        · rw [hrC5] at h; cases h
      · exact hB5.1)
  obtain ⟨xd, hxd, rfl, hrD, -, -, -, -, -, -, hnoio, -⟩ := lru_bread R5 hf h6
  have hdb : xd = xb := by
    rcases hcases xd hxd with h | h
    · subst h
      rw [hrC5] at hrD; cases hrD
    · exact h
  subst hdb
  exact ⟨_, _, s1, s2, s3, s4, s5, s6, h1, h2, h3, h4, habp, hbA4, hbB4, h5, hevict, hbB5, h6,
    hnoio hB5.2 hbB5⟩


/-! ## The claims -/

/-- C1: `bread` postcondition.  In any pool state, whenever `bread` returns a buffer, that
buffer is bound to the requested key, its `valid` flag is set (non-zero, and equal to 1
whenever the flag of the buffer that `bget` returned was 0 or 1, the only values the cache
stores) and its content lock is held by the caller; `bread` issues no write; if the buffer
that `bget` returned had `valid = 0` exactly one read is issued, for the requested block, and
the payload is what the backing store holds for it; otherwise nothing is issued after `bget`
and the payload is the one the buffer had before the call.  On a well-formed pool with free
content locks `bread` does return as soon as a buffer is bound to the key or has
`refcnt = 0`. -/
theorem bread_postcondition (fuel pid dev blockno : Nat) (s : State) :
    (∀ b s', bread fuel pid dev blockno s = Result.ok b s' →
      ∃ s1, bget fuel pid dev blockno s = Result.ok b s1 ∧
        (s'.deref b).dev = dev ∧ (s'.deref b).blockno = blockno ∧ (s'.deref b).valid ≠ 0 ∧
        ((s1.deref b).valid = 0 ∨ (s1.deref b).valid = 1 → (s'.deref b).valid = 1) ∧
        (s'.deref b).lock.holder = some pid ∧
        writes s'.trace = writes s.trace ∧
        ((s1.deref b).valid = 0 →
          reads s'.trace = reads s.trace + 1 ∧
          s'.trace = Event.disk_read dev blockno :: s1.trace ∧
          (s'.deref b).data = s.disk dev blockno) ∧
        ((s1.deref b).valid ≠ 0 →
          reads s'.trace = reads s.trace ∧ s'.trace = s1.trace ∧
          (s'.deref b).data = (s.deref b).data)) ∧
    (∀ NBUF l, WellFormed NBUF s l → NBUF < fuel →
      (∃ i ∈ l, bound s dev blockno (Ptr.slot i) ∨ (s.deref (Ptr.slot i)).refcnt = 0) →
      (∀ i ∈ l, (s.deref (Ptr.slot i)).lock.holder = none) →
      ∃ b s', bread fuel pid dev blockno s = Result.ok b s') := by
  refine ⟨?_, ?_⟩
  · intro b s' h
    obtain ⟨s1, hg, rfl⟩ := bread_ok.mp h
    refine ⟨s1, hg, ?_⟩
    obtain ⟨-, -, ⟨-, hb, -, rfl⟩ | ⟨-, -, -, -, rfl⟩⟩ := bget_ok hg
    · obtain ⟨hd, hn⟩ := hb
      by_cases hv : (s.deref b).valid = 0
      · simp [bread_fill, hv, hd, hn]
      · simp [bread_fill, hv, hd, hn]
    · simp [bread_fill]
  · intro NBUF l hwf hf hex hfree
    have hret : ∀ x ∈ l, ∀ t, (t.deref (Ptr.slot x)).lock.holder = none →
        bget fuel pid dev blockno s = bget_lock pid (Ptr.slot x) t →
        ∃ b s', bread fuel pid dev blockno s = Result.ok b s' := by
      intro x _ t ht hg
      rw [bget_lock_free ht] at hg
      exact ⟨_, _, bread_ok.mpr ⟨_, hg, rfl⟩⟩
    rcases bget_wf_total pid dev blockno hwf hf with
      ⟨l1, x, l2, hl, -, -, hg⟩ | ⟨l1, x, l2, hl, -, -, -, hg⟩ | ⟨hno, hbusy, -⟩
    · have hx : x ∈ l := by simp [hl]
      exact hret x hx _ (by simpa using hfree x hx) hg
    · have hx : x ∈ l := by simp [hl]
      exact hret x hx _ (by simpa using hfree x hx) hg
    · obtain ⟨i, hi, h | h⟩ := hex
      · exact absurd h (hno i hi)
      · exact absurd h (hbusy i hi)

/-- Witness for C1: a first `bread` on a fresh two-buffer pool returns a buffer with
`valid = 1` after one read. -/
theorem bread_postcondition_witness :
    ∃ b s', bread 3 7 1 1 pool2 = Result.ok b s' ∧ (s'.deref b).valid = 1 ∧
      reads s'.trace = 1 := by
  obtain ⟨h1, h2⟩ := bread_postcondition 3 7 1 1 pool2
  obtain ⟨b, s', hb⟩ := h2 2 [1, 0] (by decide) (by decide) ⟨0, by decide, Or.inr (by decide)⟩
    (by decide)
  obtain ⟨s1, hg, -, -, -, hv, -, -, hr, -⟩ := h1 b s' hb
  have hb0 : bread 3 7 1 1 pool2 = Result.ok (Ptr.slot 0) pool2_held := rfl
  rw [hb0] at hb
  injection hb with e1 e2
  subst e1 e2
  exact ⟨_, _, hb0, by decide, by decide⟩

/-- C2: `bget` cache hit.  On a well-formed pool with recency list `l` in which some buffer
is bound to the key, `bget` selects the first such buffer `x` of `l` (most recently used
first).  If the content lock of `x` is free `bget` returns `x`; afterwards `x` differs from
before only in `refcnt`, incremented by one as a `uint` (by exactly one unless it was the
largest `uint`), and in the content lock, now held by the caller, every other buffer is
unchanged, and so are the backing store, the number of reads and writes and the recency list.
If the lock is held the caller sleeps on it, the count of `x` already incremented. -/
theorem bget_cache_hit (NBUF fuel pid dev blockno : Nat) (s : State) (l : List Nat)
    (hwf : WellFormed NBUF s l) (hf : NBUF < fuel)
    (hex : ∃ i, i < NBUF ∧ bound s dev blockno (Ptr.slot i)) :
    ∃ l1 x l2, l = l1 ++ x :: l2 ∧ bound s dev blockno (Ptr.slot x) ∧
      (∀ j ∈ l1, ¬ bound s dev blockno (Ptr.slot j)) ∧
      ((s.deref (Ptr.slot x)).lock.holder = none →
        ∃ s', bget fuel pid dev blockno s = Result.ok (Ptr.slot x) s' ∧
          s'.deref (Ptr.slot x) =
            { s.deref (Ptr.slot x) with
              refcnt := ((s.deref (Ptr.slot x)).refcnt + 1) % 2 ^ 32,
              lock := { holder := some pid } } ∧
          ((s.deref (Ptr.slot x)).refcnt + 1 < 2 ^ 32 →
            (s'.deref (Ptr.slot x)).refcnt = (s.deref (Ptr.slot x)).refcnt + 1) ∧
          (∀ q, q ≠ Ptr.slot x → s'.deref q = s.deref q) ∧
          s'.disk = s.disk ∧ reads s'.trace = reads s.trace ∧
          writes s'.trace = writes s.trace ∧ WellFormed NBUF s' l) ∧
      ((s.deref (Ptr.slot x)).lock.holder ≠ none →
        ∃ s1, bget fuel pid dev blockno s = Result.sleep (Ptr.slot x) s1 ∧
          s1.deref (Ptr.slot x) =
            { s.deref (Ptr.slot x) with
              refcnt := ((s.deref (Ptr.slot x)).refcnt + 1) % 2 ^ 32 } ∧
          (∀ q, q ≠ Ptr.slot x → s1.deref q = s.deref q)) := by
  have hex' : ∃ i ∈ l, bound s dev blockno (Ptr.slot i) := by
    obtain ⟨i, hi, hb⟩ := hex
    exact ⟨i, (wellFormed_mem_iff hwf i).mpr hi, hb⟩
  obtain ⟨l1, x, l2, hl, hx, h1⟩ := exists_first hex'
  have hg := bget_hit_wf pid hwf hf hl hx h1
  refine ⟨l1, x, l2, hl, hx, h1, ?_, ?_⟩
  · intro hfree
    rw [bget_lock_free (by simpa using hfree)] at hg
    refine ⟨_, hg, ?_, ?_, ?_, by simp, by simp, by simp, ?_⟩
    · rw [deref_hit, if_pos rfl]; rfl
    · intro hlt
      rw [deref_hit, if_pos rfl]
      exact uint_inc_of_lt hlt
    · intro q hq
      rw [deref_hit, if_neg hq]
    · exact wellFormed_congr hwf (by simp) (by simp) (by simp)
  · intro hheld
    rw [bget_lock_held (by simpa using hheld)] at hg
    refine ⟨_, hg, ?_, ?_⟩
    · rw [deref_hit_sleep, if_pos rfl]; rfl
    · intro q hq
      rw [deref_hit_sleep, if_neg hq]

/-- Witness for C2: on a fresh two-buffer pool every buffer is bound to the key `(0, 0)`,
and `bget(0, 0)` returns one of them. -/
theorem bget_cache_hit_witness :
    WellFormed 2 pool2 [1, 0] ∧ (∃ i, i < 2 ∧ bound pool2 0 0 (Ptr.slot i)) ∧
    ∃ x s', bget 3 7 0 0 pool2 = Result.ok (Ptr.slot x) s' := by
  have hwf : WellFormed 2 pool2 [1, 0] := (binit_boot 2 disk0).1
  have hex : ∃ i, i < 2 ∧ bound pool2 0 0 (Ptr.slot i) := ⟨0, by decide, by decide⟩
  obtain ⟨_, x, _, -, -, -, h, -⟩ := bget_cache_hit 2 3 7 0 0 pool2 [1, 0] hwf (by decide) hex
  obtain ⟨s', hs, -⟩ := h ((binit_boot 2 disk0).2.1 _).2.2.2.2
  exact ⟨hwf, hex, x, s', hs⟩

/-- C3: `bget` miss.  On a well-formed pool with recency list `l` in which no buffer is bound
to the key and some buffer has `refcnt = 0`, `bget` selects the buffer `x` with `refcnt = 0`
nearest the least recently used end of `l` (every buffer after it in `l` has `refcnt ≠ 0`).
If the content lock of `x` is free `bget` returns `x`, rebound to the key with `valid = 0`,
`refcnt = 1` and the content lock held by the caller; no other field of `x` and no other
buffer changes, `x` is then the only buffer bound to the key, and the backing store, the
number of reads and writes and the recency list are as before.  If the lock is held the
caller sleeps on it, `x` already rebound. -/
theorem bget_miss_recycles (NBUF fuel pid dev blockno : Nat) (s : State) (l : List Nat)
    (hwf : WellFormed NBUF s l) (hf : NBUF < fuel)
    (hno : ∀ i, i < NBUF → ¬ bound s dev blockno (Ptr.slot i))
    (hex : ∃ i, i < NBUF ∧ (s.deref (Ptr.slot i)).refcnt = 0) :
    ∃ l1 x l2, l = l1 ++ x :: l2 ∧ (s.deref (Ptr.slot x)).refcnt = 0 ∧
      (∀ j ∈ l2, (s.deref (Ptr.slot j)).refcnt ≠ 0) ∧
      ((s.deref (Ptr.slot x)).lock.holder = none →
        ∃ s', bget fuel pid dev blockno s = Result.ok (Ptr.slot x) s' ∧
          s'.deref (Ptr.slot x) =
            { s.deref (Ptr.slot x) with
              dev := dev, blockno := blockno, valid := 0, refcnt := 1,
              lock := { holder := some pid } } ∧
          (∀ q, q ≠ Ptr.slot x → s'.deref q = s.deref q) ∧
          (∀ i, i < NBUF → (bound s' dev blockno (Ptr.slot i) ↔ i = x)) ∧
          s'.disk = s.disk ∧ reads s'.trace = reads s.trace ∧
          writes s'.trace = writes s.trace ∧ WellFormed NBUF s' l) ∧
      ((s.deref (Ptr.slot x)).lock.holder ≠ none →
        ∃ s1, bget fuel pid dev blockno s = Result.sleep (Ptr.slot x) s1 ∧
          s1.deref (Ptr.slot x) =
            { s.deref (Ptr.slot x) with
              dev := dev, blockno := blockno, valid := 0, refcnt := 1 } ∧
          (∀ q, q ≠ Ptr.slot x → s1.deref q = s.deref q)) := by
  have hno' : ∀ j ∈ l, ¬ bound s dev blockno (Ptr.slot j) :=
    fun j hj => hno j ((wellFormed_mem_iff hwf j).mp hj)
  have hex' : ∃ i ∈ l, (s.deref (Ptr.slot i)).refcnt = 0 := by
    obtain ⟨i, hi, hb⟩ := hex
    exact ⟨i, (wellFormed_mem_iff hwf i).mpr hi, hb⟩
  obtain ⟨l1, x, l2, hl, hx, h2⟩ := exists_last hex'
  have hg := bget_miss_wf pid hwf hf hno' hl hx h2
  refine ⟨l1, x, l2, hl, hx, h2, ?_, ?_⟩
  · intro hfree
    rw [bget_lock_free (by simpa using hfree)] at hg
    refine ⟨_, hg, ?_, ?_, ?_, by simp, by simp, by simp, ?_⟩
    · rw [deref_miss, if_pos rfl]
    · intro q hq
      rw [deref_miss, if_neg hq]
    · intro i hi
      unfold bound
      rw [deref_miss]
      by_cases hix : i = x
      · subst hix; simp
      · have : Ptr.slot i ≠ Ptr.slot x := fun h => hix (slot_injective h)
        rw [if_neg this]
        have := hno i hi
        unfold bound at this
        simp [hix, this]
    · exact wellFormed_congr hwf (by simp) (by simp) (by simp)
  · intro hheld
    rw [bget_lock_held (by simpa using hheld)] at hg
    refine ⟨_, hg, ?_, ?_⟩
    · rw [deref_miss_sleep, if_pos rfl]
    · intro q hq
      rw [deref_miss_sleep, if_neg hq]

/-- Witness for C3: on a fresh two-buffer pool no buffer is bound to `(1, 1)` and
`bget(1, 1)` recycles a buffer. -/
theorem bget_miss_recycles_witness :
    WellFormed 2 pool2 [1, 0] ∧ (∀ i, i < 2 → ¬ bound pool2 1 1 (Ptr.slot i)) ∧
    (∃ i, i < 2 ∧ (pool2.deref (Ptr.slot i)).refcnt = 0) ∧
    ∃ x s', bget 3 7 1 1 pool2 = Result.ok (Ptr.slot x) s' := by
  have hwf : WellFormed 2 pool2 [1, 0] := (binit_boot 2 disk0).1
  have hno : ∀ i, i < 2 → ¬ bound pool2 1 1 (Ptr.slot i) := by
    intro i _ h
    have := ((binit_boot 2 disk0).2.1 (Ptr.slot i)).2.1
    exact absurd (h.1.symm.trans this) (by decide)
  have hex : ∃ i, i < 2 ∧ (pool2.deref (Ptr.slot i)).refcnt = 0 := ⟨0, by decide, by decide⟩
  obtain ⟨_, x, _, -, -, -, h, -⟩ :=
    bget_miss_recycles 2 3 7 1 1 pool2 [1, 0] hwf (by decide) hno hex
  obtain ⟨s', hs, -⟩ := h ((binit_boot 2 disk0).2.1 _).2.2.2.2
  exact ⟨hwf, hno, hex, x, s', hs⟩

/-- C4: LRU correctness.  In every run of returning `bread` and `brelse` calls from a freshly
initialised pool of any capacity, a `bread` of a block bound to no buffer returns as soon as
some buffer has `refcnt = 0`, and the buffer `x` it rebinds has `refcnt = 0` and, among the
buffers with `refcnt = 0`, the oldest last release: either `x` was never released, or every
other such buffer was last released after `x`.  In particular on a pool of two buffers, for
three different keys `A`, `B`, `C`: access `A`, release, access `B`, release, access `C`
returns; `A` and `B` sit in different buffers, the access of `C` takes the buffer of `A`,
after it no buffer is bound to `A` while the buffer of `B` still is bound to `B`, and a
following access of `B` returns that buffer without a read. -/
theorem lru_correctness (NBUF : Nat) (s : State) (c : Nat) (r : Nat → Nat)
    (hrun : LruRun NBUF s c r) (fuel pid dev blockno : Nat) (hf : NBUF < fuel)
    (hmiss : ∀ i, i < NBUF → ¬ bound s dev blockno (Ptr.slot i)) :
    ((∃ i, i < NBUF ∧ (s.deref (Ptr.slot i)).refcnt = 0) →
      ∃ b s', bread fuel pid dev blockno s = Result.ok b s') ∧
    (∀ b s', bread fuel pid dev blockno s = Result.ok b s' →
      ∃ x, x < NBUF ∧ b = Ptr.slot x ∧ (s.deref (Ptr.slot x)).refcnt = 0 ∧
        bound s' dev blockno (Ptr.slot x) ∧
        ∀ j, j < NBUF → j ≠ x → (s.deref (Ptr.slot j)).refcnt = 0 → r x = 0 ∨ r x < r j) ∧
    (∀ (disk : Nat → Nat → List Nat) (fuel pA pB pC pD dA nA dB nB dC nC : Nat), 2 < fuel →
      ¬ (dA = dB ∧ nA = nB) → ¬ (dA = dC ∧ nA = nC) → ¬ (dB = dC ∧ nB = nC) →
      ∃ a b s1 s2 s3 s4 s5 s6,
        bread fuel pA dA nA (binit 2 (boot disk)) = Result.ok a s1 ∧
        brelse pA a s1 = Result.ok () s2 ∧
        bread fuel pB dB nB s2 = Result.ok b s3 ∧
        brelse pB b s3 = Result.ok () s4 ∧
        a ≠ b ∧ bound s4 dA nA a ∧ bound s4 dB nB b ∧
        bread fuel pC dC nC s4 = Result.ok a s5 ∧
        (∀ i, i < 2 → ¬ bound s5 dA nA (Ptr.slot i)) ∧ bound s5 dB nB b ∧
        bread fuel pD dB nB s5 = Result.ok b s6 ∧ reads s6.trace = reads s5.trace) := by
  refine ⟨?_, ?_, ?_⟩
  · rintro ⟨i, hi, h0⟩
    obtain ⟨l, hwf, hrl, -, -⟩ := lruRun_inv hrun
    refine bread_returns pid dev blockno hwf hf ⟨i, hi, Or.inr h0⟩ ?_
    intro j hj hsel
    rcases hsel with h | h
    · exact absurd h (hmiss j hj)
    · rcases hrl j ((wellFormed_mem_iff hwf j).mpr hj) with ⟨-, hh⟩ | ⟨h1, -⟩
      · exact hh
      · rw [h] at h1; cases h1
  · intro b s' h
    obtain ⟨x, hx, rfl, hr0, -, hb', -, -, -, -, -, hlru⟩ := lru_bread hrun hf h
    refine ⟨x, hx, rfl, hr0, hb', ?_⟩
    intro j hj hjx hj0
    rcases hlru j hj hjx hj0 with h | h
    · exact absurd h (hmiss x hx)
    · exact h
  · intro disk fuel pA pB pC pD dA nA dB nB dC nC hf hAB hAC hBC
    exact lru_scenario disk fuel pA pB pC pD dA nA dB nB dC nC hf hAB hAC hBC

/-- Witness for C4: on a fresh two-buffer pool no buffer is bound to `(1, 1)`, and `bread`
recycles a buffer that was never released. -/
theorem lru_correctness_witness :
    LruRun 2 pool2 0 (fun _ => 0) ∧ (∀ i, i < 2 → ¬ bound pool2 1 1 (Ptr.slot i)) ∧
    ∃ b s', bread 3 7 1 1 pool2 = Result.ok b s' := by
  have hrun : LruRun 2 pool2 0 (fun _ => 0) := LruRun.binit disk0
  have hno : ∀ i, i < 2 → ¬ bound pool2 1 1 (Ptr.slot i) := by
    intro i _ h
    have := ((binit_boot 2 disk0).2.1 (Ptr.slot i)).2.1
    exact absurd (h.1.symm.trans this) (by decide)
  exact ⟨hrun, hno,
    (lru_correctness 2 pool2 0 (fun _ => 0) hrun 3 7 1 1 (by decide) hno).1
      ⟨0, by decide, by decide⟩⟩

/-- C5: `brelse` effect.  On a well-formed pool with recency list `l`, for a buffer `x` whose
content lock the caller holds, `brelse` returns; it frees the content lock of `x` and
decrements its `refcnt` by one as a `uint` (by exactly one when the count is positive).  If
the new count is 0, `x` is the most recently used buffer (`head.next`) and the other buffers
keep their order (`x :: l.erase x`); otherwise the recency list is still `l`.  In both cases
`dev`, `blockno`, `valid` and the payload of every buffer, the `refcnt` and content lock of
every other buffer, and the backing store are unchanged, and no read or write is issued. -/
theorem brelse_effect (NBUF pid x : Nat) (s : State) (l : List Nat)
    (hwf : WellFormed NBUF s l) (hx : x < NBUF)
    (hh : (s.deref (Ptr.slot x)).lock.holder = some pid) :
    ∃ s', brelse pid (Ptr.slot x) s = Result.ok () s' ∧
      (s'.deref (Ptr.slot x)).lock.holder = none ∧
      (s'.deref (Ptr.slot x)).refcnt = ((s.deref (Ptr.slot x)).refcnt + 2 ^ 32 - 1) % 2 ^ 32 ∧
      (0 < (s.deref (Ptr.slot x)).refcnt → (s.deref (Ptr.slot x)).refcnt < 2 ^ 32 →
        (s'.deref (Ptr.slot x)).refcnt + 1 = (s.deref (Ptr.slot x)).refcnt) ∧
      ((s'.deref (Ptr.slot x)).refcnt = 0 →
        WellFormed NBUF s' (x :: l.erase x) ∧ s'.head.next = Ptr.slot x) ∧
      ((s'.deref (Ptr.slot x)).refcnt ≠ 0 → WellFormed NBUF s' l) ∧
      (∀ q, (s'.deref q).dev = (s.deref q).dev ∧ (s'.deref q).blockno = (s.deref q).blockno ∧
        (s'.deref q).valid = (s.deref q).valid ∧ (s'.deref q).data = (s.deref q).data) ∧
      (∀ q, q ≠ Ptr.slot x →
        (s'.deref q).refcnt = (s.deref q).refcnt ∧ (s'.deref q).lock = (s.deref q).lock) ∧
      s'.disk = s.disk ∧ reads s'.trace = reads s.trace ∧ writes s'.trace = writes s.trace := by
  obtain ⟨s', hs, hq, hd, ht, hw⟩ := brelse_wf hwf ((wellFormed_mem_iff hwf x).mpr hx) hh
  have hrc : (s'.deref (Ptr.slot x)).refcnt = uint_dec (s.deref (Ptr.slot x)).refcnt := by
    rw [(hq _).2.2.2.2.2.1, if_pos rfl]
  refine ⟨s', hs, ?_, hrc, ?_, ?_, ?_, ?_, ?_, hd, by simp [ht], by simp [ht]⟩
  · rw [(hq _).2.2.2.2.2.2, if_pos rfl]
  · intro h0 h1
    rw [hrc, uint_dec]
    omega
  · intro h0
    rw [hrc] at h0
    rw [if_pos h0] at hw
    refine ⟨hw, ?_⟩
    have := hw.1.2
    simp only [cycle, List.map_cons, List.cons_append, Links] at this
    exact this.1.1
  · intro h0
    rw [hrc] at h0
    rwa [if_neg h0] at hw
  · intro q
    exact ⟨(hq q).2.2.1, (hq q).2.2.2.1, (hq q).1, (hq q).2.2.2.2.1⟩
  · intro q hne
    have := hq q
    rw [if_neg hne, if_neg hne] at this
    exact ⟨this.2.2.2.2.2.1, this.2.2.2.2.2.2⟩

/-- Witness for C5: after `bread(1, 1)` on a fresh two-buffer pool the caller holds
`buf[0]`, and releasing it moves it to the front of the recency list. -/
theorem brelse_effect_witness :
    WellFormed 2 pool2_held [1, 0] ∧ (pool2_held.deref (Ptr.slot 0)).lock.holder = some 7 ∧
    ∃ s', brelse 7 (Ptr.slot 0) pool2_held = Result.ok () s' ∧ WellFormed 2 s' [0, 1] := by
  have hwf : WellFormed 2 pool2_held [1, 0] := by decide
  have hh : (pool2_held.deref (Ptr.slot 0)).lock.holder = some 7 := by decide
  obtain ⟨s', hs, -, hrc, -, h0, -⟩ := brelse_effect 2 7 0 pool2_held [1, 0] hwf (by decide) hh
  have hz : (s'.deref (Ptr.slot 0)).refcnt = 0 := by rw [hrc]; decide
  exact ⟨hwf, hh, s', hs, (h0 hz).1⟩

/-- C6: eviction safety, and pins block eviction.  In any pool state, whatever the outcome of
a `bget` or `bread` call, every buffer whose `refcnt` is positive before the call has the same
`dev` and `blockno` after it.  Consequently, when a buffer is acquired with `bread`, pinned
with `bpin` and released with `brelse` (its count before the acquisition not being the
largest `uint`, in particular when it was 0), then through any sequence of returning `bread`
calls for other keys and `brelse` calls on buffers of other keys it stays bound to its key
with the reference count the pin left, one more than before the acquisition; a `bunpin` then
brings the count back to what it was before the acquisition. -/
theorem eviction_safety (fuel pid dev blockno : Nat) (s : State) :
    (∀ q t, 0 < (s.deref q).refcnt →
      ((bget fuel pid dev blockno s).after? = some t ∨
        (bread fuel pid dev blockno s).after? = some t) →
      (t.deref q).dev = (s.deref q).dev ∧ (t.deref q).blockno = (s.deref q).blockno) ∧
    (∀ p s1 s2 s3, bread fuel pid dev blockno s = Result.ok p s1 →
      bpin p s1 = Result.ok () s2 → brelse pid p s2 = Result.ok () s3 →
      (s.deref p).refcnt + 1 < 2 ^ 32 →
      ∀ s', OtherCalls dev blockno s3 s' →
        bound s' dev blockno p ∧ (s'.deref p).refcnt = (s.deref p).refcnt + 1 ∧
        ∀ s'', bunpin p s' = Result.ok () s'' →
          bound s'' dev blockno p ∧ (s''.deref p).refcnt = (s.deref p).refcnt) := by
  refine ⟨?_, ?_⟩
  · intro q t hq h
    have hq' : (s.deref q).refcnt ≠ 0 := by omega
    rcases h with h | h
    · exact bget_after_key h q hq'
    · rcases bread_after h with h | ⟨b, s1, hg, rfl⟩
      · exact bget_after_key h q hq'
      · have h1 : (bget fuel pid dev blockno s).after? = some s1 := by rw [hg]; rfl
        have := bget_after_key h1 q hq'
        have hk := bread_fill_key b q s1
        exact ⟨hk.1.trans this.1, hk.2.1.trans this.2⟩
  · intro p s1 s2 s3 h1 h2 h3 hov s' hs'
    -- the count after the acquisition is one more than before
    have hb1 : bound s1 dev blockno p := (bread_frame h1).2.1
    have hr1 : (s1.deref p).refcnt = (s.deref p).refcnt + 1 := by
      obtain ⟨t, hg, rfl⟩ := bread_ok.mp h1
      rw [(bread_fill_key p p t).2.2.1]
      obtain ⟨-, -, ⟨-, -, -, rfl⟩ | ⟨-, -, hz, -, rfl⟩⟩ := bget_ok hg
      · rw [show ((acquiredsleep pid p (bget_hit p (acquired s))).deref p).refcnt =
          uint_inc (s.deref p).refcnt by simp]
        exact uint_inc_of_lt hov
      · rw [hz]; simp
    have hl1 := bpin_ok h2
    rw [bpin_eq hl1] at h2
    injection h2 with _ h2
    have hb2 : bound s2 dev blockno p := by
      subst h2; unfold bound at hb1 ⊢; simpa using hb1
    have hr2 : (s2.deref p).refcnt = uint_inc ((s.deref p).refcnt + 1) := by
      subst h2
      rw [show ((release ((acquired s1).set_refcnt p (uint_inc (s1.deref p).refcnt))).deref
          p).refcnt = uint_inc (s1.deref p).refcnt by simp, hr1]
    have hf3 := brelse_frame h3 p
    have hb3 : bound s3 dev blockno p := by
      unfold bound at hb2 ⊢; rw [hf3.2.1, hf3.2.2.1]; exact hb2
    have hr3 : (s3.deref p).refcnt = (s.deref p).refcnt + 1 := by
      rw [hf3.2.2.2.2.1, if_pos rfl, hr2]
      exact uint_dec_inc hov
    -- the invariant of the calls on other keys
    have inv : bound s' dev blockno p ∧ (s'.deref p).refcnt = (s.deref p).refcnt + 1 := by
      induction hs' with
      | refl => exact ⟨hb3, hr3⟩
      | bread fuel' pid' d n b _ hne hbr ih =>
        obtain ⟨ihb, ihr⟩ := ih
        obtain ⟨hsel, hbb, hfr⟩ := bread_frame hbr
        have hpb : p ≠ b := by
          rintro rfl
          rcases hsel with hsel | hsel
          · exact hne ⟨hsel.1.symm.trans ihb.1, hsel.2.symm.trans ihb.2⟩
          · omega
        unfold bound
        rw [hfr p hpb]
        exact ⟨ihb, ihr⟩
      | brelse pid' b _ hnb hbr ih =>
        obtain ⟨ihb, ihr⟩ := ih
        have hpb : p ≠ b := by
          rintro rfl; exact hnb ihb
        have hf := brelse_frame hbr p
        unfold bound
        rw [hf.2.1, hf.2.2.1, hf.2.2.2.2.1, if_neg hpb]
        exact ⟨ihb, ihr⟩
    refine ⟨inv.1, inv.2, ?_⟩
    intro s'' hu
    have hl := bunpin_ok hu
    rw [bunpin_eq hl] at hu
    injection hu with _ hu
    subst hu
    refine ⟨?_, ?_⟩
    · have := inv.1
      unfold bound at this ⊢
      simpa using this
    · rw [show ((release ((acquired s').set_refcnt p (uint_dec (s'.deref p).refcnt))).deref
          p).refcnt = uint_dec (s'.deref p).refcnt by simp, inv.2]
      exact uint_dec_succ (by omega)

/-- Witness for C6: on a fresh two-buffer pool, block `(1, 1)` is acquired in `buf[0]`, pinned
and released; a `bread` of block `(1, 2)` by another process then leaves `buf[0]` bound to
`(1, 1)`. -/
theorem eviction_safety_witness :
    bread 3 7 1 1 pool2 = Result.ok (Ptr.slot 0) pool2_held ∧
    OtherCalls 1 1 pool2_pinned pool2_other ∧
    bound pool2_other 1 1 (Ptr.slot 0) ∧ (pool2_other.deref (Ptr.slot 0)).refcnt = 1 := by
  have h1 : bread 3 7 1 1 pool2 = Result.ok (Ptr.slot 0) pool2_held := rfl
  have h2 : bpin (Ptr.slot 0) pool2_held =
      Result.ok () ((bpin (Ptr.slot 0) pool2_held).stateD pool2) := rfl
  have h3 : brelse 7 (Ptr.slot 0) ((bpin (Ptr.slot 0) pool2_held).stateD pool2) =
      Result.ok () pool2_pinned := rfl
  have h4 : OtherCalls 1 1 pool2_pinned pool2_other :=
    OtherCalls.bread 3 8 1 2 (Ptr.slot 1) (OtherCalls.refl _) (by decide) rfl
  have := ((eviction_safety 3 7 1 1 pool2).2 _ _ _ _ h1 h2 h3 (by decide) _ h4)
  exact ⟨h1, h4, this.1, this.2.1⟩

/-- C7: at-most-one binding.  In every pool state reachable from `binit` by `bget`, `bread`,
`bwrite`, `brelse`, `bpin` and `bunpin` (the last three on buffers with `refcnt > 0`), two
distinct buffers of the pool have different keys or one of them has `refcnt = 0`. -/
theorem at_most_one_binding (NBUF : Nat) (s : State) (h : Reachable NBUF s) (i j : Nat)
    (hi : i < NBUF) (hj : j < NBUF) (hij : i ≠ j) :
    ((s.deref (Ptr.slot i)).dev ≠ (s.deref (Ptr.slot j)).dev ∨
      (s.deref (Ptr.slot i)).blockno ≠ (s.deref (Ptr.slot j)).blockno) ∨
    (s.deref (Ptr.slot i)).refcnt = 0 ∨ (s.deref (Ptr.slot j)).refcnt = 0 := by
  obtain ⟨l, -, hmem, hk⟩ := poolInv_of_reachable h
  have hsym : Symmetric fun a b : Nat =>
      a = b ∨ ¬ sameKey s (Ptr.slot a) (Ptr.slot b) ∨
        (s.deref (Ptr.slot a)).refcnt = 0 ∨ (s.deref (Ptr.slot b)).refcnt = 0 := by
    rintro a b (h | h | h | h)
    · exact Or.inl h.symm
    · exact Or.inr (Or.inl fun hs => h ⟨hs.1.symm, hs.2.symm⟩)
    · exact Or.inr (Or.inr (Or.inr h))
    · exact Or.inr (Or.inr (Or.inl h))
  have hp : l.Pairwise fun a b : Nat =>
      a = b ∨ ¬ sameKey s (Ptr.slot a) (Ptr.slot b) ∨
        (s.deref (Ptr.slot a)).refcnt = 0 ∨ (s.deref (Ptr.slot b)).refcnt = 0 := by
    refine List.Pairwise.imp ?_ hk
    intro a b hab
    by_cases hb : (s.deref (Ptr.slot b)).refcnt = 0
    · exact Or.inr (Or.inr (Or.inr hb))
    · exact Or.inr (Or.inl (hab hb))
  have := List.Pairwise.forall_of_forall hsym (fun x _ => Or.inl rfl) hp
    ((hmem i).mpr hi) ((hmem j).mpr hj)
  rcases this with h | h | h
  · exact absurd h hij
  · left
    unfold sameKey at h
    by_cases hd : (s.deref (Ptr.slot i)).dev = (s.deref (Ptr.slot j)).dev
    · exact Or.inr fun hb => h ⟨hd, hb⟩
    · exact Or.inl hd
  · exact Or.inr h

/-- Witness for C7: the two-buffer pool in which `buf[0]` is pinned for block `(1, 1)` and
`buf[1]` is held for block `(1, 2)` is reachable, and the two keys differ. -/
theorem at_most_one_binding_witness :
    Reachable 2 pool2_other ∧
    (((pool2_other.deref (Ptr.slot 0)).dev ≠ (pool2_other.deref (Ptr.slot 1)).dev ∨
      (pool2_other.deref (Ptr.slot 0)).blockno ≠ (pool2_other.deref (Ptr.slot 1)).blockno) ∨
    (pool2_other.deref (Ptr.slot 0)).refcnt = 0 ∨
    (pool2_other.deref (Ptr.slot 1)).refcnt = 0) := by
  have h0 : Reachable 2 pool2 := Reachable.binit disk0
  have h1 : Reachable 2 pool2_held := Reachable.bread 3 7 1 1 h0 (by decide) rfl
  have h2 : Reachable 2 ((bpin (Ptr.slot 0) pool2_held).stateD pool2) :=
    Reachable.bpin 0 h1 (by decide) (by decide) rfl
  have h3 : Reachable 2 pool2_pinned := Reachable.brelse 7 0 h2 (by decide) (by decide) rfl
  have h4 : Reachable 2 pool2_other := Reachable.bread 3 8 1 2 h3 (by decide) rfl
  exact ⟨h4, at_most_one_binding 2 pool2_other h4 0 1 (by decide) (by decide) (by decide)⟩

/-- C8: a cache hit avoids I/O.  In every pool state reachable through the interface in which
no buffer caches the block with valid data, if a first `bread` of the block returns a buffer
`b`, then it issued exactly one read; `brelse(b)` returns and leaves `b` with `refcnt = 0`;
and a second `bread` of the block returns the same `b`, bound to the key with `valid = 1` and
the payload read by the first call, having issued no further read and no write. -/
theorem cache_hit_avoids_io (NBUF fuel pid dev blockno : Nat) (s s1 : State) (b : Ptr)
    (hreach : ApiReachable NBUF s) (hf : NBUF < fuel)
    (hnc : ∀ i, i < NBUF → bound s dev blockno (Ptr.slot i) → (s.deref (Ptr.slot i)).valid ≠ 1)
    (h1 : bread fuel pid dev blockno s = Result.ok b s1) :
    reads s1.trace = reads s.trace + 1 ∧ (s1.deref b).data = s.disk dev blockno ∧
    ∃ s2 s3, brelse pid b s1 = Result.ok () s2 ∧ (s2.deref b).refcnt = 0 ∧
      bound s2 dev blockno b ∧ (s2.deref b).valid = 1 ∧
      bread fuel pid dev blockno s2 = Result.ok b s3 ∧
      reads s3.trace = reads s.trace + 1 ∧ writes s3.trace = writes s.trace ∧
      bound s3 dev blockno b ∧ (s3.deref b).valid = 1 ∧
      (s3.deref b).data = (s1.deref b).data ∧ (s3.deref b).lock.holder = some pid := by
  obtain ⟨l, hwf, hv⟩ := apiReachable_inv hreach
  have hwf1 := wellFormed_bread hwf hf h1
  obtain ⟨x, hx, rfl, hb1, hv1, hr1, hh1, hd1, -, hrd1, hwr1⟩ := bread_uncached hwf hf hv hnc h1
  obtain ⟨s2, hs2, hq2, -, ht2, hwf2⟩ := brelse_wf hwf1 hx hh1
  rw [hr1, if_pos uint_dec_one] at hwf2
  have hb2 : bound s2 dev blockno (Ptr.slot x) := by
    unfold bound at hb1 ⊢
    rw [(hq2 _).2.2.1, (hq2 _).2.2.2.1]
    exact hb1
  have hv2 : (s2.deref (Ptr.slot x)).valid = 1 := by rw [(hq2 _).1]; exact hv1
  have hr2 : (s2.deref (Ptr.slot x)).refcnt = 0 := by
    rw [(hq2 _).2.2.2.2.2.1, if_pos rfl, hr1]; exact uint_dec_one
  have hh2 : (s2.deref (Ptr.slot x)).lock.holder = none := by
    rw [(hq2 _).2.2.2.2.2.2, if_pos rfl]
  have hg := bget_hit_wf pid hwf2 hf (List.nil_append _).symm hb2 (by simp)
  rw [bget_lock_free (by simpa using hh2)] at hg
  have hbr : bread fuel pid dev blockno s2 = Result.ok (Ptr.slot x)
      (acquiredsleep pid (Ptr.slot x) (bget_hit (Ptr.slot x) (acquired s2))) := by
    refine bread_ok.mpr ⟨_, hg, ?_⟩
    have : ((acquiredsleep pid (Ptr.slot x) (bget_hit (Ptr.slot x) (acquired s2))).deref
        (Ptr.slot x)).valid ≠ 0 := by
      simp [hv2]
    rw [bread_fill, if_neg this]
  refine ⟨hrd1, hd1, s2, _, hs2, hr2, hb2, hv2, hbr, ?_, ?_, ?_, ?_, ?_, ?_⟩
  · simp [ht2, hrd1]
  · simp [ht2, hwr1]
  · unfold bound at hb2 ⊢
    simpa using hb2
  · simpa using hv2
  · simp [(hq2 _).2.2.2.2.1]
  · simp

/-- Witness for C8: on a fresh two-buffer pool, `bread(1, 1); brelse; bread(1, 1)` issues one
read. -/
theorem cache_hit_avoids_io_witness :
    ApiReachable 2 pool2 ∧ bread 3 7 1 1 pool2 = Result.ok (Ptr.slot 0) pool2_held ∧
    ∃ s2 s3, brelse 7 (Ptr.slot 0) pool2_held = Result.ok () s2 ∧
      bread 3 7 1 1 s2 = Result.ok (Ptr.slot 0) s3 ∧ reads s3.trace = 1 := by
  have h0 : ApiReachable 2 pool2 := ApiReachable.binit disk0
  have h1 : bread 3 7 1 1 pool2 = Result.ok (Ptr.slot 0) pool2_held := rfl
  have hnc : ∀ i, i < 2 → bound pool2 1 1 (Ptr.slot i) → (pool2.deref (Ptr.slot i)).valid ≠ 1 := by
    intro i _ _
    have hz : (pool2.deref (Ptr.slot i)).valid = 0 := ((binit_boot 2 disk0).2.1 (Ptr.slot i)).1
    rw [hz]
    decide
  obtain ⟨-, -, s2, s3, hs2, -, -, -, hs3, hr3, -⟩ :=
    cache_hit_avoids_io 2 3 7 1 1 pool2 pool2_held (Ptr.slot 0) h0 (by decide) hnc h1
  exact ⟨h0, h1, s2, s3, hs2, hs3, hr3⟩

/-- C9: pool exhaustion is fatal, and only exhaustion is.  On a well-formed pool `bget` panics
exactly when no buffer is bound to the key and every buffer has `refcnt ≠ 0`, and its only
panic is `"bget: no buffers"`.  In every other case it selects a buffer of the pool: it
returns that buffer if its content lock is free, and otherwise the caller sleeps on that
lock.  The number of buffers with `refcnt > 0` is at most `NBUF`. -/
theorem bget_exhaustion (NBUF fuel pid dev blockno : Nat) (s : State) (l : List Nat)
    (hwf : WellFormed NBUF s l) (hf : NBUF < fuel) :
    ((∃ msg s', bget fuel pid dev blockno s = Result.panic msg s') ↔
      ((∀ i, i < NBUF → ¬ bound s dev blockno (Ptr.slot i)) ∧
       (∀ i, i < NBUF → (s.deref (Ptr.slot i)).refcnt ≠ 0))) ∧
    (∀ msg s', bget fuel pid dev blockno s = Result.panic msg s' → msg = "bget: no buffers") ∧
    (¬ ((∀ i, i < NBUF → ¬ bound s dev blockno (Ptr.slot i)) ∧
        (∀ i, i < NBUF → (s.deref (Ptr.slot i)).refcnt ≠ 0)) →
      ∃ x, x < NBUF ∧
        ((s.deref (Ptr.slot x)).lock.holder = none →
          ∃ s', bget fuel pid dev blockno s = Result.ok (Ptr.slot x) s') ∧
        ((s.deref (Ptr.slot x)).lock.holder ≠ none →
          ∃ s1, bget fuel pid dev blockno s = Result.sleep (Ptr.slot x) s1)) ∧
    ((List.range NBUF).filter fun i => decide (0 < (s.deref (Ptr.slot i)).refcnt)).length
      ≤ NBUF := by
  have hmem := wellFormed_mem_iff hwf
  have hsel : ∀ x ∈ l, ∀ t, (t.deref (Ptr.slot x)).lock.holder = (s.deref (Ptr.slot x)).lock.holder →
      bget fuel pid dev blockno s = bget_lock pid (Ptr.slot x) t →
      (¬ ∃ msg s', bget fuel pid dev blockno s = Result.panic msg s') ∧
      ∃ x, x < NBUF ∧
        ((s.deref (Ptr.slot x)).lock.holder = none →
          ∃ s', bget fuel pid dev blockno s = Result.ok (Ptr.slot x) s') ∧
        ((s.deref (Ptr.slot x)).lock.holder ≠ none →
          ∃ s1, bget fuel pid dev blockno s = Result.sleep (Ptr.slot x) s1) := by
    intro x hx t ht hg
    refine ⟨?_, x, (hmem x).mp hx, ?_, ?_⟩
    · rintro ⟨msg, s', hp⟩
      rw [hg] at hp
      by_cases hh : (t.deref (Ptr.slot x)).lock.holder = none
      · rw [bget_lock_free hh] at hp; cases hp
      · rw [bget_lock_held hh] at hp; cases hp
    · intro hh
      rw [hg, bget_lock_free (ht.trans hh)]
      exact ⟨_, rfl⟩
    · intro hh
      rw [hg, bget_lock_held (by rw [ht]; exact hh)]
      exact ⟨_, rfl⟩
  have hlen : ((List.range NBUF).filter fun i =>
      decide (0 < (s.deref (Ptr.slot i)).refcnt)).length ≤ NBUF := by
    calc _ ≤ (List.range NBUF).length := List.length_filter_le _ _
      _ = NBUF := List.length_range NBUF
  rcases bget_wf_total pid dev blockno hwf hf with
    ⟨l1, x, l2, hl, hb, -, hg⟩ | ⟨l1, x, l2, hl, -, hz, -, hg⟩ | ⟨hno, hbusy, hg⟩
  · have hx : x ∈ l := by simp [hl]
    obtain ⟨hnp, hret⟩ := hsel x hx _ (by simp) hg
    refine ⟨⟨fun h => absurd h hnp, fun h => absurd hb (h.1 x ((hmem x).mp hx))⟩, ?_,
      fun _ => hret, hlen⟩
    intro msg s' hp
    exact absurd ⟨msg, s', hp⟩ hnp
  · have hx : x ∈ l := by simp [hl]
    obtain ⟨hnp, hret⟩ := hsel x hx _ (by simp) hg
    refine ⟨⟨fun h => absurd h hnp, fun h => absurd hz (h.2 x ((hmem x).mp hx))⟩, ?_,
      fun _ => hret, hlen⟩
    intro msg s' hp
    exact absurd ⟨msg, s', hp⟩ hnp
  · have hex : (∀ i, i < NBUF → ¬ bound s dev blockno (Ptr.slot i)) ∧
        (∀ i, i < NBUF → (s.deref (Ptr.slot i)).refcnt ≠ 0) :=
      ⟨fun i hi => hno i ((hmem i).mpr hi), fun i hi => hbusy i ((hmem i).mpr hi)⟩
    refine ⟨⟨fun _ => hex, fun _ => ⟨_, _, hg⟩⟩, ?_, fun h => absurd hex h, hlen⟩
    intro msg s' hp
    rw [hg] at hp
    injection hp with h1 _
    exact h1.symm

/-- Witness for C9: with both buffers of a two-buffer pool held, `bget` of a third block
panics. -/
theorem bget_exhaustion_witness :
    WellFormed 2 pool2_other [1, 0] ∧
    ∃ s', bget 3 9 1 3 pool2_other = Result.panic "bget: no buffers" s' := by
  have hwf : WellFormed 2 pool2_other [1, 0] := by decide
  obtain ⟨h1, h2, -⟩ := bget_exhaustion 2 3 9 1 3 pool2_other [1, 0] hwf (by decide)
  obtain ⟨msg, s', hp⟩ := h1.mpr ⟨by decide, by decide⟩
  have := h2 msg s' hp
  subst this
  exact ⟨hwf, s', hp⟩

/-- C10: lock-discipline violations are fatal and atomic.  `bwrite(b)` panics exactly when the
caller does not hold the content lock of `b`, and so does `brelse(b)`; the pool, the backing
store and the log of the halted system are those from before the call, so no write was
issued and no reference count, lock or link was modified. -/
theorem lock_discipline_fatal (pid : Nat) (b : Ptr) (s : State) :
    (∀ msg s', bwrite pid b s = Result.panic msg s' ↔
      ((s.deref b).lock.holder ≠ some pid ∧ msg = "bwrite" ∧ s' = s)) ∧
    (∀ msg s', brelse pid b s = Result.panic msg s' ↔
      ((s.deref b).lock.holder ≠ some pid ∧ msg = "brelse" ∧ s' = s)) := by
  refine ⟨?_, ?_⟩
  · intro msg s'
    by_cases hh : (s.deref b).lock.holder = some pid
    · rw [bwrite_eq hh]
      constructor
      · intro h; cases h
      · intro h; exact absurd hh h.1
    · rw [bwrite_panic hh]
      constructor
      · intro h
        injection h with h1 h2
        exact ⟨hh, h1.symm, h2.symm⟩
      · rintro ⟨-, rfl, rfl⟩; rfl
  · intro msg s'
    by_cases hh : (s.deref b).lock.holder = some pid
    · constructor
      · intro h
        by_cases hl : s.lock.locked = 0
        · rw [brelse_eq hh hl] at h; cases h
        · rw [brelse_spin hh hl] at h; cases h
      · intro h; exact absurd hh h.1
    · rw [brelse_panic hh]
      constructor
      · intro h
        injection h with h1 h2
        exact ⟨hh, h1.symm, h2.symm⟩
      · rintro ⟨-, rfl, rfl⟩; rfl


/-! ## Frame properties of `bwrite`, `bpin`, `bunpin` -/

theorem isRing_iff_of_sameLinks {s t : State} (h : sameLinks s t) (l : List Nat) :
    IsRing t l ↔ IsRing s l :=
  ⟨fun ht => isRing_congr ht (fun q => (h q).1.symm) (fun q => (h q).2.symm),
   fun hs => isRing_congr hs (fun q => (h q).1) (fun q => (h q).2)⟩

theorem sameLinks_of_deref {s t : State} (h : ∀ q, t.deref q = s.deref q) : sameLinks s t :=
  fun q => by rw [h q]; exact ⟨rfl, rfl⟩

theorem disk_disk_write (b : Ptr) (s : State) (d n : Nat) :
    (virtio_disk_rw b true s).disk d n =
      if d = (s.deref b).dev ∧ n = (s.deref b).blockno then (s.deref b).data else s.disk d n := by
  simp [virtio_disk_rw]

/-- C11: `bwrite` frame.  In any pool state, for a buffer `b` whose content lock the caller
holds, `bwrite(b)` returns; it issues exactly one backing-store write and no read, the write
carries the payload of `b` to block `(b->dev, b->blockno)` of the backing store and leaves
every other block alone; every buffer and the sentinel are as before the call in all their
fields (`valid`, `refcnt`, `dev`, `blockno`, payload, content lock, `prev`, `next`), the
structural lock is untouched, and the recency list is the same list. -/
theorem bwrite_frame (pid : Nat) (b : Ptr) (s : State)
    (hh : (s.deref b).lock.holder = some pid) :
    ∃ s', bwrite pid b s = Result.ok () s' ∧
      s'.trace =
        Event.disk_write (s.deref b).dev (s.deref b).blockno (s.deref b).data :: s.trace ∧
      writes s'.trace = writes s.trace + 1 ∧ reads s'.trace = reads s.trace ∧
      s'.disk (s.deref b).dev (s.deref b).blockno = (s.deref b).data ∧
      (∀ d n, ¬ (d = (s.deref b).dev ∧ n = (s.deref b).blockno) → s'.disk d n = s.disk d n) ∧
      (∀ q, s'.deref q = s.deref q) ∧ s'.lock = s.lock ∧
      sameLinks s s' ∧ (∀ l, IsRing s' l ↔ IsRing s l) := by
  have hd : ∀ q, (virtio_disk_rw b true s).deref q = s.deref q := fun q => by simp
  refine ⟨_, bwrite_eq hh, by simp, by simp, by simp, ?_, ?_, hd, by simp,
    sameLinks_of_deref hd, isRing_iff_of_sameLinks (sameLinks_of_deref hd)⟩
  · rw [disk_disk_write, if_pos ⟨rfl, rfl⟩]
  · intro d n hne
    rw [disk_disk_write, if_neg hne]

/-- Witness for C11: process 7 holds `buf[0]` after `bread(1, 1)` on a fresh two-buffer pool
and writes it back. -/
theorem bwrite_frame_witness :
    (pool2_held.deref (Ptr.slot 0)).lock.holder = some 7 ∧
    ∃ s', bwrite 7 (Ptr.slot 0) pool2_held = Result.ok () s' ∧
      s'.trace = Event.disk_write 1 1 [1, 1] :: pool2_held.trace ∧ s'.disk 1 1 = [1, 1] := by
  have hh : (pool2_held.deref (Ptr.slot 0)).lock.holder = some 7 := by decide
  obtain ⟨s', hs, ht, -, -, hd, -⟩ := bwrite_frame 7 (Ptr.slot 0) pool2_held hh
  exact ⟨hh, s', hs, ht, hd⟩

theorem bpin_spin {b : Ptr} {s : State} (hl : s.lock.locked ≠ 0) : bpin b s = Result.spin s := by
  simp [bpin, acquire, hl]

theorem bunpin_spin {b : Ptr} {s : State} (hl : s.lock.locked ≠ 0) :
    bunpin b s = Result.spin s := by
  simp [bunpin, acquire, hl]

/-- The buffers of a pool after `p->refcnt = v` under the structural lock. -/
theorem deref_refcnt_locked (s : State) (b q : Ptr) (v : Nat) :
    (release ((acquired s).set_refcnt b v)).deref q =
      if q = b then { s.deref b with refcnt := v } else s.deref q := by
  by_cases h : q = b
  · subst h
    rw [if_pos rfl]
    apply buf_ext <;> simp
  · rw [if_neg h]
    apply buf_ext <;> simp [h]

/-- C12: pin and unpin change only the reference count.  In any pool state with the
structural lock free, `bpin(b)` and `bunpin(b)` return (with the lock taken they busy-wait
and change nothing).  `bpin` stores `refcnt + 1` and `bunpin` stores `refcnt - 1` in the
`uint` field `b->refcnt`: exactly one more when the count is below the largest `uint`, exactly
one less when it is positive.  Every other field of `b` (content lock, key, `valid`, payload,
`prev`, `next`), every other buffer, the sentinel, the structural lock and the backing store
are as before, no content lock is taken or released and no I/O is issued.  `bunpin(b)` after
`bpin(b)` returns and leaves the pool exactly as it was before the two calls: the state differs
only in the log of the four calls of `acquire` and `release`. -/
theorem pin_unpin_refcnt (b : Ptr) (s : State) :
    (s.lock.locked ≠ 0 → bpin b s = Result.spin s ∧ bunpin b s = Result.spin s) ∧
    (s.lock.locked = 0 →
      ∃ s1 s2, bpin b s = Result.ok () s1 ∧ bunpin b s = Result.ok () s2 ∧
        (s1.deref b).refcnt = ((s.deref b).refcnt + 1) % 2 ^ 32 ∧
        ((s.deref b).refcnt + 1 < 2 ^ 32 → (s1.deref b).refcnt = (s.deref b).refcnt + 1) ∧
        (s2.deref b).refcnt = ((s.deref b).refcnt + 2 ^ 32 - 1) % 2 ^ 32 ∧
        (0 < (s.deref b).refcnt → (s.deref b).refcnt < 2 ^ 32 →
          (s2.deref b).refcnt + 1 = (s.deref b).refcnt) ∧
        (∀ q, s1.deref q =
          if q = b then { s.deref b with refcnt := (s1.deref b).refcnt } else s.deref q) ∧
        (∀ q, s2.deref q =
          if q = b then { s.deref b with refcnt := (s2.deref b).refcnt } else s.deref q) ∧
        s1.lock = s.lock ∧ s2.lock = s.lock ∧ s1.disk = s.disk ∧ s2.disk = s.disk ∧
        s1.trace = Event.release :: Event.acquire :: s.trace ∧
        s2.trace = Event.release :: Event.acquire :: s.trace ∧
        sameLinks s s1 ∧ sameLinks s s2 ∧
        ((s.deref b).refcnt < 2 ^ 32 →
          ∃ s3, bunpin b s1 = Result.ok () s3 ∧
            s3 = { s with trace :=
              Event.release :: Event.acquire :: Event.release :: Event.acquire :: s.trace })) := by
  refine ⟨fun hl => ⟨bpin_spin hl, bunpin_spin hl⟩, fun hl => ?_⟩
  have hlock : ({ locked := 0 } : spinlock) = s.lock := by
    cases hs : s.lock
    rw [hs] at hl
    simp only at hl
    rw [hl]
  refine ⟨_, _, bpin_eq hl, bunpin_eq hl, ?_, ?_, ?_, ?_, ?_, ?_, ?_, ?_, by simp, by simp,
    by simp, by simp, ?_, ?_, ?_⟩
  · simp [uint_inc]
  · intro h
    rw [deref_refcnt_locked, if_pos rfl]
    exact uint_inc_of_lt h
  · simp [uint_dec]
  · intro h0 h1
    rw [deref_refcnt_locked, if_pos rfl]
    obtain ⟨k, hk⟩ : ∃ k, (s.deref b).refcnt = k + 1 := ⟨(s.deref b).refcnt - 1, by omega⟩
    rw [hk] at h1 ⊢
    show uint_dec (k + 1) + 1 = k + 1
    rw [uint_dec_succ h1]
  · intro q
    rw [deref_refcnt_locked, deref_refcnt_locked, if_pos rfl]
  · intro q
    rw [deref_refcnt_locked, deref_refcnt_locked, if_pos rfl]
  · simpa using hlock
  · simpa using hlock
  · intro q
    rw [deref_refcnt_locked]
    split
    · next h => subst h; exact ⟨rfl, rfl⟩
    · exact ⟨rfl, rfl⟩
  · intro q
    rw [deref_refcnt_locked]
    split
    · next h => subst h; exact ⟨rfl, rfl⟩
    · exact ⟨rfl, rfl⟩
  · intro hlt
    refine ⟨_, bunpin_eq (by simp), ?_⟩
    apply state_ext
    · simpa using hlock
    · intro q
      rw [deref_refcnt_locked]
      simp only [deref_with_trace]
      by_cases h : q = b
      · subst h
        rw [if_pos rfl, deref_refcnt_locked, if_pos rfl]
        apply buf_ext <;> simp [uint_dec_inc hlt]
      · rw [if_neg h, deref_refcnt_locked, if_neg h]
    · simp
    · simp

/-- Witness for C12: on the two-buffer pool in which process 7 holds `buf[0]` with
`refcnt = 1`, `bpin` makes the count 2, `bunpin` makes it 0, and `bunpin` after `bpin`
gives the pool back. -/
theorem pin_unpin_refcnt_witness :
    pool2_held.lock.locked = 0 ∧ (pool2_held.deref (Ptr.slot 0)).refcnt = 1 ∧
    ∃ s1 s2 s3, bpin (Ptr.slot 0) pool2_held = Result.ok () s1 ∧
      bunpin (Ptr.slot 0) pool2_held = Result.ok () s2 ∧
      (s1.deref (Ptr.slot 0)).refcnt = 2 ∧ (s2.deref (Ptr.slot 0)).refcnt = 0 ∧
      bunpin (Ptr.slot 0) s1 = Result.ok () s3 ∧ (∀ q, s3.deref q = pool2_held.deref q) := by
  have hl : pool2_held.lock.locked = 0 := by decide
  have hr : (pool2_held.deref (Ptr.slot 0)).refcnt = 1 := by decide
  obtain ⟨s1, s2, h1, h2, -, hi, -, hd, -, -, -, -, -, -, -, -, -, -, h3⟩ :=
    (pin_unpin_refcnt (Ptr.slot 0) pool2_held).2 hl
  obtain ⟨s3, h4, h5⟩ := h3 (by rw [hr]; decide)
  refine ⟨hl, hr, s1, s2, s3, h1, h2, ?_, ?_, h4, ?_⟩
  · rw [hi (by rw [hr]; decide), hr]
  · have := hd (by rw [hr]; decide) (by rw [hr]; decide)
    rw [hr] at this
    omega
  · intro q
    rw [h5]
    simp

/-! ## The recency order changes only in `brelse` -/

theorem sameLinks_refl (s : State) : sameLinks s s := fun _ => ⟨rfl, rfl⟩

theorem sameLinks_trans {s t u : State} (h1 : sameLinks s t) (h2 : sameLinks t u) :
    sameLinks s u :=
  fun q => ⟨(h2 q).1.trans (h1 q).1, (h2 q).2.trans (h1 q).2⟩

theorem sameLinks_of_sameMeta {s t : State} (h : sameMeta s t) : sameLinks s t :=
  fun q => ⟨(h q).1, (h q).2.1⟩

theorem sameLinks_bget {fuel pid dev blockno : Nat} {s t : State}
    (ht : (bget fuel pid dev blockno s).after? = some t) : sameLinks s t := by
  rcases bget_cases fuel pid dev blockno s with ⟨hg, -⟩ | hg | ⟨-, h⟩
  · rw [hg] at ht
    injection ht with ht
    subst ht
    exact sameLinks_refl s
  · rw [hg] at ht
    cases ht
  · rcases h with ⟨b, -, hg⟩ | ⟨b, -, -, hg⟩ | ⟨-, -, hg⟩
    · rw [hg] at ht
      refine sameLinks_trans ?_ (sameLinks_of_sameMeta (bget_lock_after ht))
      intro q
      simp
    · rw [hg] at ht
      refine sameLinks_trans ?_ (sameLinks_of_sameMeta (bget_lock_after ht))
      intro q
      simp
    · rw [hg] at ht
      injection ht with ht
      subst ht
      intro q
      simp

theorem sameLinks_bread {fuel pid dev blockno : Nat} {s t : State}
    (ht : (bread fuel pid dev blockno s).after? = some t) : sameLinks s t := by
  rcases bread_after ht with ht | ⟨b, s1, hg, rfl⟩
  · exact sameLinks_bget ht
  · have h1 : sameLinks s s1 := sameLinks_bget (by rw [hg]; rfl)
    refine sameLinks_trans h1 ?_
    intro q
    have := bread_fill_key b q s1
    exact ⟨this.2.2.2.2.1, this.2.2.2.2.2.1⟩

theorem sameLinks_bwrite {pid : Nat} {b : Ptr} {s t : State}
    (ht : (bwrite pid b s).after? = some t) : sameLinks s t := by
  by_cases hh : (s.deref b).lock.holder = some pid
  · rw [bwrite_eq hh] at ht
    injection ht with ht
    subst ht
    intro q
    simp
  · rw [bwrite_panic hh] at ht
    injection ht with ht
    subst ht
    exact sameLinks_refl s

theorem sameLinks_bpin {b : Ptr} {s t : State} (ht : (bpin b s).after? = some t) :
    sameLinks s t := by
  by_cases hl : s.lock.locked = 0
  · rw [bpin_eq hl] at ht
    injection ht with ht
    subst ht
    intro q
    simp
  · rw [bpin_spin hl] at ht
    injection ht with ht
    subst ht
    exact sameLinks_refl s

theorem sameLinks_bunpin {b : Ptr} {s t : State} (ht : (bunpin b s).after? = some t) :
    sameLinks s t := by
  by_cases hl : s.lock.locked = 0
  · rw [bunpin_eq hl] at ht
    injection ht with ht
    subst ht
    intro q
    simp
  · rw [bunpin_spin hl] at ht
    injection ht with ht
    subst ht
    exact sameLinks_refl s

/-- `brelse` keeps every link unless it returns with the count of `b` brought to 0. -/
theorem sameLinks_brelse {pid : Nat} {b : Ptr} {s t : State}
    (ht : (brelse pid b s).after? = some t)
    (hne : brelse pid b s = Result.ok () t → uint_dec (s.deref b).refcnt ≠ 0) :
    sameLinks s t := by
  by_cases hh : (s.deref b).lock.holder = some pid
  · by_cases hl : s.lock.locked = 0
    · have he := brelse_eq hh hl
      rw [he] at ht
      injection ht with ht
      have hn := hne (by rw [he, ht])
      rw [if_neg hn] at ht
      subst ht
      intro q
      simp
    · rw [brelse_spin hh hl] at ht
      injection ht with ht
      subst ht
      intro q
      simp
  · rw [brelse_panic hh] at ht
    injection ht with ht
    subst ht
    exact sameLinks_refl s

/-- The recency list of a pool is determined by its links. -/
theorem links_unique (s : State) :
    ∀ (l l' : List Nat) (a : Ptr), Links s (a :: (l.map Ptr.slot ++ [Ptr.head])) →
      Links s (a :: (l'.map Ptr.slot ++ [Ptr.head])) → l = l'
  | [], [], _, _, _ => rfl
  | [], y :: l', a, h, h' => by
    simp only [List.map_nil, List.nil_append, Links, List.map_cons, List.cons_append] at h h'
    have := h.1.1.symm.trans h'.1.1
    cases this
  | x :: l, [], a, h, h' => by
    simp only [List.map_nil, List.nil_append, Links, List.map_cons, List.cons_append] at h h'
    have := h.1.1.symm.trans h'.1.1
    cases this
  | x :: l, y :: l', a, h, h' => by
    simp only [Links, List.map_cons, List.cons_append] at h h'
    have hxy : Ptr.slot x = Ptr.slot y := h.1.1.symm.trans h'.1.1
    have hxy' : x = y := slot_injective hxy
    subst hxy'
    rw [links_unique s l l' (Ptr.slot x) h.2 h'.2]

theorem isRing_unique {s : State} {l l' : List Nat} (h : IsRing s l) (h' : IsRing s l') :
    l = l' :=
  links_unique s l l' Ptr.head h.2 h'.2

/-- C13: recency monotonicity.  In any pool state and for every outcome (returned, asleep,
spinning, halted) of `bget` (hit or miss), `bread`, `bwrite`, `bpin` and `bunpin`, the `prev`
and `next` links of the sentinel and of every buffer are those from before the call, and so
are they after a `brelse` that does not return with the count of its buffer brought to 0;
pools with the same links have the same recency list.  A `brelse` of `buf[x]` that returns
with the count at 0 on a well-formed pool with recency list `l` leaves the list
`x :: l.erase x`, and no other: the released buffer moved to the most-recently-used end,
the other buffers in their order. -/
theorem recency_monotonic (s : State) :
    (∀ fuel pid dev blockno t, (bget fuel pid dev blockno s).after? = some t → sameLinks s t) ∧
    (∀ fuel pid dev blockno t, (bread fuel pid dev blockno s).after? = some t → sameLinks s t) ∧
    (∀ pid b t, (bwrite pid b s).after? = some t → sameLinks s t) ∧
    (∀ b t, (bpin b s).after? = some t → sameLinks s t) ∧
    (∀ b t, (bunpin b s).after? = some t → sameLinks s t) ∧
    (∀ pid b t, (brelse pid b s).after? = some t →
      (brelse pid b s = Result.ok () t → (t.deref b).refcnt ≠ 0) → sameLinks s t) ∧
    (∀ t l, sameLinks s t → (IsRing t l ↔ IsRing s l)) ∧
    (∀ NBUF l pid x t, WellFormed NBUF s l → x < NBUF →
      brelse pid (Ptr.slot x) s = Result.ok () t → (t.deref (Ptr.slot x)).refcnt = 0 →
      IsRing t (x :: l.erase x) ∧ ∀ l', IsRing t l' → l' = x :: l.erase x) := by
  refine ⟨fun _ _ _ _ _ h => sameLinks_bget h, fun _ _ _ _ _ h => sameLinks_bread h,
    fun _ _ _ h => sameLinks_bwrite h, fun _ _ h => sameLinks_bpin h,
    fun _ _ h => sameLinks_bunpin h, ?_, fun _ l h => isRing_iff_of_sameLinks h l, ?_⟩
  · intro pid b t ht hne
    refine sameLinks_brelse ht ?_
    intro hok
    have := hne hok
    rwa [((brelse_frame hok) b).2.2.2.2.1, if_pos rfl] at this
  · intro NBUF l pid x t hwf hx hok h0
    obtain ⟨s', hs, -, -, -, hw⟩ :=
      brelse_wf hwf ((wellFormed_mem_iff hwf x).mpr hx) (brelse_ok hok).1
    have hts : t = s' := (Result.ok.inj (hok.symm.trans hs)).2
    subst hts
    rw [((brelse_frame hok) _).2.2.2.2.1, if_pos rfl] at h0
    rw [if_pos h0] at hw
    exact ⟨hw.1, fun l' hl' => isRing_unique hl' hw.1⟩

/-- Witness for C13: process 7 holds `buf[0]`, the least recently used buffer of the
two-buffer pool `[1, 0]`; `bpin` leaves the list as it is and `brelse` turns it into
`[0, 1]`. -/
theorem recency_monotonic_witness :
    WellFormed 2 pool2_held [1, 0] ∧
    (∃ t, bpin (Ptr.slot 0) pool2_held = Result.ok () t ∧ IsRing t [1, 0]) ∧
    (∃ t, brelse 7 (Ptr.slot 0) pool2_held = Result.ok () t ∧ IsRing t [0, 1]) := by
  have hwf : WellFormed 2 pool2_held [1, 0] := by decide
  obtain ⟨-, -, -, hpin, -, -, hsame, hmove⟩ := recency_monotonic pool2_held
  refine ⟨hwf, ?_, ?_⟩
  · obtain ⟨t, ht⟩ : ∃ t, bpin (Ptr.slot 0) pool2_held = Result.ok () t :=
      ⟨_, bpin_eq (by decide)⟩
    exact ⟨t, ht, (hsame t [1, 0] (hpin (Ptr.slot 0) t (by rw [ht]; rfl))).mpr hwf.1⟩
  · obtain ⟨t, ht⟩ : ∃ t, brelse 7 (Ptr.slot 0) pool2_held = Result.ok () t :=
      ⟨_, brelse_eq (by decide) (by decide)⟩
    have h0 : (t.deref (Ptr.slot 0)).refcnt = 0 := by
      rw [((brelse_frame ht) _).2.2.2.2.1, if_pos rfl]
      decide
    exact ⟨t, ht, (hmove 2 [1, 0] 7 0 t hwf (by decide) ht h0).1⟩

/-! ## The victim of a miss when buffers are pinned -/

theorem wellFormed_refcnt_locked {NBUF : Nat} {s : State} {l : List Nat} (b : Ptr) (v : Nat)
    (hwf : WellFormed NBUF s l) :
    WellFormed NBUF (release ((acquired s).set_refcnt b v)) l :=
  wellFormed_congr hwf (fun q => by simp) (fun q => by simp) (by simp)

/-- In a run with pins the recency list is a well-formed ring, no release is numbered above
`c`, and along the list the numbers `z` of the last release to 0 decrease strictly until the
buffers never released to 0. -/
theorem pinRun_inv {NBUF : Nat} {s : State} {c : Nat} {q z p : Nat → Nat}
    (h : PinRun NBUF s c q z p) :
    ∃ l, WellFormed NBUF s l ∧ (∀ i, z i ≤ c) ∧ l.Pairwise fun a b => z b < z a ∨ z b = 0 := by
  induction h with
  | binit disk =>
    exact ⟨_, (binit_boot NBUF disk).1, fun _ => le_refl _,
      List.pairwise_of_forall fun _ _ => Or.inr rfl⟩
  | bread fuel pid dev blockno b _ hf hb ih =>
    obtain ⟨l, hwf, hc, hp⟩ := ih
    exact ⟨l, wellFormed_bread hwf hf hb, hc, hp⟩
  | @brelse s s' c q z p pid i _ hi hb ih =>
    obtain ⟨l, hwf, hc, hp⟩ := ih
    have him : i ∈ l := (wellFormed_mem_iff hwf i).mpr hi
    obtain ⟨t, hs, -, -, -, hw⟩ := brelse_wf hwf him (brelse_ok hb).1
    have hts : s' = t := (Result.ok.inj (hb.symm.trans hs)).2
    subst hts
    have hrc : (s'.deref (Ptr.slot i)).refcnt = uint_dec (s.deref (Ptr.slot i)).refcnt := by
      rw [((brelse_frame hb) _).2.2.2.2.1, if_pos rfl]
    by_cases h0 : uint_dec (s.deref (Ptr.slot i)).refcnt = 0
    · rw [if_pos h0] at hw
      have h0' : (s'.deref (Ptr.slot i)).refcnt = 0 := hrc.trans h0
      refine ⟨_, hw, ?_, ?_⟩
      · intro j
        by_cases hji : j = i
        · simp [hji, h0']
        · simp only [hji, false_and, if_false]
          exact Nat.le_succ_of_le (hc j)
      · rw [List.pairwise_cons]
        refine ⟨?_, ?_⟩
        · intro b hb
          have hbi : b ≠ i := fun h => by
            subst h
            exact (List.Nodup.not_mem_erase hwf.1.1) hb
          left
          simp only [hbi, false_and, if_false, h0', and_self, if_true]
          exact Nat.lt_succ_of_le (hc b)
        · have hsub : (l.erase i).Pairwise fun a b => z b < z a ∨ z b = 0 :=
            hp.sublist (List.erase_sublist i l)
          refine List.Pairwise.imp_of_mem ?_ hsub
          intro a b ha hb hab
          have hai : a ≠ i := fun h => by
            subst h
            exact (List.Nodup.not_mem_erase hwf.1.1) ha
          have hbi : b ≠ i := fun h => by
            subst h
            exact (List.Nodup.not_mem_erase hwf.1.1) hb
          simpa [hai, hbi] using hab
    · rw [if_neg h0] at hw
      have h0' : (s'.deref (Ptr.slot i)).refcnt ≠ 0 := by rwa [hrc]
      refine ⟨l, hw, ?_, ?_⟩
      · intro j
        simp only [h0', and_false, if_false]
        exact Nat.le_succ_of_le (hc j)
      · simpa [h0'] using hp
  | @bpin s s' c q z p i _ hi hb ih =>
    obtain ⟨l, hwf, hc, hp⟩ := ih
    have he := @bpin_eq (Ptr.slot i) s (bpin_ok hb)
    have hts : s' = _ := (Result.ok.inj (hb.symm.trans he)).2
    subst hts
    exact ⟨l, wellFormed_refcnt_locked _ _ hwf, hc, hp⟩
  | @bunpin s s' c q z p i _ hi _ hb ih =>
    obtain ⟨l, hwf, hc, hp⟩ := ih
    have he := @bunpin_eq (Ptr.slot i) s (bunpin_ok hb)
    have hts : s' = _ := (Result.ok.inj (hb.symm.trans he)).2
    subst hts
    exact ⟨l, wellFormed_refcnt_locked _ _ hwf, hc, hp⟩

/-- The outcome of `bread` on a miss that recycles `b`. -/
theorem bread_of_miss {fuel pid dev blockno : Nat} {s : State} {b : Ptr}
    (hg : bget fuel pid dev blockno s =
      bget_lock pid b (bget_miss dev blockno b (acquired s))) :
    ∃ s', (bread fuel pid dev blockno s = Result.ok b s' ∨
        bread fuel pid dev blockno s = Result.sleep b s') ∧
      bound s' dev blockno b ∧ (s'.deref b).refcnt = 1 ∧
      ∀ q, q ≠ b → (s'.deref q).dev = (s.deref q).dev ∧
        (s'.deref q).blockno = (s.deref q).blockno ∧ (s'.deref q).refcnt = (s.deref q).refcnt := by
  by_cases hh : ((bget_miss dev blockno b (acquired s)).deref b).lock.holder = none
  · rw [bget_lock_free hh] at hg
    refine ⟨_, Or.inl (bread_ok.mpr ⟨_, hg, rfl⟩), ?_, ?_, ?_⟩
    · have := bread_fill_key b b (acquiredsleep pid b (bget_miss dev blockno b (acquired s)))
      unfold bound
      rw [this.1, this.2.1]
      simp
    · rw [(bread_fill_key _ _ _).2.2.1]
      simp
    · intro q hq
      rw [(bread_fill_key _ _ _).1, (bread_fill_key _ _ _).2.1, (bread_fill_key _ _ _).2.2.1]
      simp [hq]
  · rw [bget_lock_held hh] at hg
    refine ⟨bget_miss dev blockno b (acquired s), Or.inr ?_, ?_, ?_, ?_⟩
    · unfold bread
      rw [hg]
    · simp [bound]
    · simp
    · intro q hq
      simp [hq]

/-- The run of `tie5`: on a fresh two-buffer pool, process 7 reads block `(1, 1)` into
`buf[0]` and pins it, process 8 reads block `(1, 2)` into `buf[1]` and releases it (release 1,
count 0), process 7 releases `buf[0]` (release 2, count 1), and `bunpin` brings the count of
`buf[0]` to 0. -/
theorem pinRun_tie5 :
    ∃ q z p, PinRun 2 tie5 2 q z p ∧ q 0 = 2 ∧ q 1 = 1 ∧ z 0 = 0 ∧ z 1 = 1 ∧ p 0 = 0 := by
  have h0 : PinRun 2 pool2 0 _ _ _ := PinRun.binit disk0
  have h1 : PinRun 2 pool2_held 0 _ _ _ :=
    PinRun.bread 3 7 1 1 (Ptr.slot 0) h0 (by decide) rfl
  have h2 : PinRun 2 tie1 0 _ _ _ := PinRun.bpin 0 h1 (by decide) rfl
  have h3 : PinRun 2 tie2 0 _ _ _ := PinRun.bread 3 8 1 2 (Ptr.slot 1) h2 (by decide) rfl
  have h4 : PinRun 2 tie3 1 _ _ _ := PinRun.brelse 8 1 h3 (by decide) rfl
  have h5 : PinRun 2 tie4 2 _ _ _ := PinRun.brelse 7 0 h4 (by decide) rfl
  have h6 : PinRun 2 tie5 2 _ _ _ := PinRun.bunpin 0 h5 (by decide) (by decide) rfl
  exact ⟨_, _, _, h6, by decide, by decide, by decide, by decide, by decide⟩

/-- C14 (amended): the tie-break rule with pins in play.  In every pool state reached from
`binit` by returning `bread`, `brelse`, `bpin` and `bunpin` calls (each `bunpin` matching an
earlier `bpin`), a `bread` of a block bound to no buffer, when some buffer has `refcnt = 0`,
rebinds a buffer `x` with `refcnt = 0` and returns it, or waits for its content lock.  `x` is
the buffer with `refcnt = 0` nearest the least-recently-used end of the recency list, and
among the buffers with `refcnt = 0` it is the one whose last `brelse` that brought the count
to 0 is oldest: `buf[x]` had no such `brelse`, or every other such buffer had a later one.
A `brelse` that leaves the count positive and the `bunpin` that brings it to 0 afterwards do
not enter this order. -/
theorem tie_break_pins (NBUF : Nat) (s : State) (c : Nat) (q z p : Nat → Nat)
    (hrun : PinRun NBUF s c q z p) (fuel pid dev blockno : Nat) (hf : NBUF < fuel)
    (hmiss : ∀ i, i < NBUF → ¬ bound s dev blockno (Ptr.slot i))
    (hfree : ∃ i, i < NBUF ∧ (s.deref (Ptr.slot i)).refcnt = 0) :
    ∃ x s', x < NBUF ∧
      (bread fuel pid dev blockno s = Result.ok (Ptr.slot x) s' ∨
        bread fuel pid dev blockno s = Result.sleep (Ptr.slot x) s') ∧
      (s.deref (Ptr.slot x)).refcnt = 0 ∧
      bound s' dev blockno (Ptr.slot x) ∧ (s'.deref (Ptr.slot x)).refcnt = 1 ∧
      (∀ j, j ≠ x → (s'.deref (Ptr.slot j)).dev = (s.deref (Ptr.slot j)).dev ∧
        (s'.deref (Ptr.slot j)).blockno = (s.deref (Ptr.slot j)).blockno ∧
        (s'.deref (Ptr.slot j)).refcnt = (s.deref (Ptr.slot j)).refcnt) ∧
      (∃ l l1 l2, WellFormed NBUF s l ∧ l = l1 ++ x :: l2 ∧
        ∀ j ∈ l2, (s.deref (Ptr.slot j)).refcnt ≠ 0) ∧
      (∀ j, j < NBUF → j ≠ x → (s.deref (Ptr.slot j)).refcnt = 0 → z x = 0 ∨ z x < z j) := by
  obtain ⟨l, hwf, -, hp⟩ := pinRun_inv hrun
  have hmem := wellFormed_mem_iff hwf
  rcases bget_wf_total pid dev blockno hwf hf with
    ⟨l1, x, l2, hl, hb, -, -⟩ | ⟨l1, x, l2, hl, -, hz, h2, hg⟩ | ⟨-, hbusy, -⟩
  · have hx : x ∈ l := by simp [hl]
    exact absurd hb (hmiss x ((hmem x).mp hx))
  · have hx : x ∈ l := by simp [hl]
    obtain ⟨s', hout, hb', hr1, hfr⟩ := bread_of_miss hg
    refine ⟨x, s', (hmem x).mp hx, hout, hz, hb', hr1, ?_, ⟨l, l1, l2, hwf, hl, h2⟩, ?_⟩
    · intro j hj
      exact hfr _ fun h => hj (slot_injective h)
    · intro j hj hjx hj0
      have hjl : j ∈ l := (hmem j).mpr hj
      rw [hl] at hjl hp
      have hj1 : j ∈ l1 := by
        rcases List.mem_append.mp hjl with h | h
        · exact h
        · rcases List.mem_cons.mp h with h | h
          · exact absurd h hjx
          · exact absurd hj0 (h2 j h)
      have := (List.pairwise_append.mp hp).2.2 j hj1 x (List.mem_cons_self _ _)
      rcases this with h | h
      · exact Or.inr h
      · exact Or.inl h
  · obtain ⟨i, hi, h0⟩ := hfree
    exact absurd h0 (hbusy i ((hmem i).mpr hi))

/-- Witness for C14 (amended): in the pool `tie5` both buffers have `refcnt = 0` and no
buffer is bound to `(1, 3)`; the miss takes a buffer that no `brelse` had brought to 0. -/
theorem tie_break_pins_witness :
    ∃ q z p, PinRun 2 tie5 2 q z p ∧ (∀ i, i < 2 → ¬ bound tie5 1 3 (Ptr.slot i)) ∧
      ∃ x s', x < 2 ∧
        (bread 3 9 1 3 tie5 = Result.ok (Ptr.slot x) s' ∨
          bread 3 9 1 3 tie5 = Result.sleep (Ptr.slot x) s') ∧
        (∀ j, j < 2 → j ≠ x → (tie5.deref (Ptr.slot j)).refcnt = 0 → z x = 0 ∨ z x < z j) := by
  obtain ⟨q, z, p, hrun, -⟩ := pinRun_tie5
  have hno : ∀ i, i < 2 → ¬ bound tie5 1 3 (Ptr.slot i) := by decide
  obtain ⟨x, s', hx, hout, -, -, -, -, -, hz⟩ :=
    tie_break_pins 2 tie5 2 q z p hrun 3 9 1 3 (by decide) hno ⟨0, by decide, by decide⟩
  exact ⟨q, z, p, hrun, hno, x, s', hx, hout, hz⟩

/-- Counterexample for C14 as stated: in the run of `tie5` both buffers have `refcnt = 0`,
`buf[1]` was last released by release 1 and `buf[0]` by release 2, after which `bunpin`
brought its count to 0; no buffer is bound to `(1, 3)`, and `bread(1, 3)` rebinds `buf[0]`,
the more recently released one, while `buf[1]` keeps block `(1, 2)`. -/
theorem tie_break_counterexample :
    ∃ q z p, PinRun 2 tie5 2 q z p ∧ q 0 = 2 ∧ q 1 = 1 ∧
      (tie5.deref (Ptr.slot 0)).refcnt = 0 ∧ (tie5.deref (Ptr.slot 1)).refcnt = 0 ∧
      (∀ i, i < 2 → ¬ bound tie5 1 3 (Ptr.slot i)) ∧
      ∃ s', bread 3 9 1 3 tie5 = Result.ok (Ptr.slot 0) s' ∧
        bound s' 1 3 (Ptr.slot 0) ∧ bound s' 1 2 (Ptr.slot 1) ∧
        ¬ (q 0 = 0 ∨ q 0 < q 1) := by
  obtain ⟨q, z, p, hrun, hq0, hq1, -⟩ := pinRun_tie5
  refine ⟨q, z, p, hrun, hq0, hq1, by decide, by decide, by decide,
    (bread 3 9 1 3 tie5).stateD pool2, rfl, by decide, by decide, ?_⟩
  rw [hq0, hq1]
  decide

/-! ## Release of a buffer whose count is already 0 -/

theorem uint_dec_zero : uint_dec 0 = 2 ^ 32 - 1 := by decide

/-- C15: idempotent release.  On a well-formed pool with recency list `l`, for a buffer
`buf[x]` whose content lock the caller holds and whose `refcnt` is already 0 (an unpin took
the reference of the caller away), `brelse` returns and assigns no link: every `prev` and
`next` is as before, the recency list is still `l` and no other list, and the pool is still
well formed, the list being a ring through the sentinel in which each of the `NBUF` buffers
occurs exactly once.  (The `uint` decrement wraps the count to `2^32 - 1`, so the test
`b->refcnt == 0` fails.) -/
theorem idempotent_release (NBUF pid x : Nat) (s : State) (l : List Nat)
    (hwf : WellFormed NBUF s l) (hx : x < NBUF)
    (hh : (s.deref (Ptr.slot x)).lock.holder = some pid)
    (h0 : (s.deref (Ptr.slot x)).refcnt = 0) :
    ∃ s', brelse pid (Ptr.slot x) s = Result.ok () s' ∧ sameLinks s s' ∧
      WellFormed NBUF s' l ∧ (∀ l', IsRing s' l' → l' = l) ∧
      l.Nodup ∧ (∀ i, i ∈ l ↔ i < NBUF) ∧
      (s'.deref (Ptr.slot x)).refcnt = 2 ^ 32 - 1 := by
  obtain ⟨s', hs, hq, -, -, hw⟩ := brelse_wf hwf ((wellFormed_mem_iff hwf x).mpr hx) hh
  have hne : uint_dec (s.deref (Ptr.slot x)).refcnt ≠ 0 := by
    rw [h0]
    decide
  rw [if_neg hne] at hw
  refine ⟨s', hs, ?_, hw, fun l' hl' => isRing_unique hl' hw.1, hwf.1.1,
    wellFormed_mem_iff hwf, ?_⟩
  · exact sameLinks_brelse (by rw [hs]; rfl) (fun _ => hne)
  · rw [(hq _).2.2.2.2.2.1, if_pos rfl, h0, uint_dec_zero]

/-- Witness for C15: in the two-buffer pool `pool2_unpinned` process 7 holds `buf[0]`, whose
count an unpin brought to 0; its release leaves the recency list `[1, 0]`. -/
theorem idempotent_release_witness :
    WellFormed 2 pool2_unpinned [1, 0] ∧
    (pool2_unpinned.deref (Ptr.slot 0)).lock.holder = some 7 ∧
    (pool2_unpinned.deref (Ptr.slot 0)).refcnt = 0 ∧
    ∃ s', brelse 7 (Ptr.slot 0) pool2_unpinned = Result.ok () s' ∧ WellFormed 2 s' [1, 0] ∧
      (s'.deref (Ptr.slot 0)).refcnt = 4294967295 := by
  have hwf : WellFormed 2 pool2_unpinned [1, 0] := by decide
  have hh : (pool2_unpinned.deref (Ptr.slot 0)).lock.holder = some 7 := by decide
  have h0 : (pool2_unpinned.deref (Ptr.slot 0)).refcnt = 0 := by decide
  obtain ⟨s', hs, -, hw, -, -, -, hr⟩ :=
    idempotent_release 2 7 0 pool2_unpinned [1, 0] hwf (by decide) hh h0
  exact ⟨hwf, hh, h0, s', hs, hw, hr⟩

/-! ## The recency list is always a ring of all buffers -/

theorem links_next_prev (s : State) :
    ∀ (L : List Ptr) (a : Ptr), Links s (a :: L) →
      ∀ p ∈ (a :: L).dropLast, (s.deref (s.deref p).next).prev = p
  | [], _, _, p, hp => by simp at hp
  | b :: L, a, h, p, hp => by
    simp only [Links] at h
    rw [List.dropLast_cons₂, List.mem_cons] at hp
    rcases hp with rfl | hp
    · rw [h.1.1, h.1.2]
    · exact links_next_prev s L b h.2 p hp

theorem links_prev_next (s : State) :
    ∀ (L : List Ptr) (a : Ptr), Links s (a :: L) →
      ∀ p ∈ L, (s.deref (s.deref p).prev).next = p
  | [], _, _, p, hp => by simp at hp
  | b :: L, a, h, p, hp => by
    simp only [Links] at h
    rcases List.mem_cons.mp hp with rfl | hp
    · rw [h.1.2, h.1.1]
    · exact links_prev_next s L b h.2 p hp

/-- In a ring, `next` and `prev` are inverse to each other at the sentinel and at every
buffer of the list. -/
theorem isRing_inverse {s : State} {l : List Nat} (h : IsRing s l) (p : Ptr)
    (hp : p = Ptr.head ∨ ∃ i ∈ l, p = Ptr.slot i) :
    (s.deref (s.deref p).next).prev = p ∧ (s.deref (s.deref p).prev).next = p := by
  have hl := h.2
  unfold cycle at hl
  refine ⟨links_next_prev s _ _ hl p ?_, links_prev_next s _ _ hl p ?_⟩
  · rw [← List.cons_append, List.dropLast_concat]
    rcases hp with rfl | ⟨i, hi, rfl⟩
    · exact List.mem_cons_self _ _
    · exact List.mem_cons_of_mem _ (List.mem_map_of_mem _ hi)
  · rcases hp with rfl | ⟨i, hi, rfl⟩
    · simp
    · exact List.mem_append_left _ (List.mem_map_of_mem _ hi)

/-- Every call keeps the recency list a ring over the same buffers; only `brelse` may
reorder it. -/
theorem isRing_call {NBUF : Nat} {s t : State} {l : List Nat} (hr : IsRing s l)
    (hmem : ∀ i, i ∈ l ↔ i < NBUF) (h : Call NBUF s t) :
    ∃ l', IsRing t l' ∧ l'.Perm l := by
  have keep : sameLinks s t → ∃ l', IsRing t l' ∧ l'.Perm l := fun hs =>
    ⟨l, (isRing_iff_of_sameLinks hs l).mpr hr, List.Perm.refl l⟩
  cases h with
  | bget fuel pid dev blockno ht => exact keep (sameLinks_bget ht)
  | bread fuel pid dev blockno ht => exact keep (sameLinks_bread ht)
  | bwrite pid b ht => exact keep (sameLinks_bwrite ht)
  | bpin b ht => exact keep (sameLinks_bpin ht)
  | bunpin b ht => exact keep (sameLinks_bunpin ht)
  | brelse pid i hi ht =>
    by_cases hmove : brelse pid (Ptr.slot i) s = Result.ok () t ∧
        uint_dec (s.deref (Ptr.slot i)).refcnt = 0
    · obtain ⟨hok, h0⟩ := hmove
      obtain ⟨hh, hlk⟩ := brelse_ok hok
      have him : i ∈ l := (hmem i).mpr hi
      obtain ⟨s', hs, -, -, -, hw⟩ := brelse_wf (wellFormed_mk hr hmem hlk) him hh
      have hts : t = s' := (Result.ok.inj (hok.symm.trans hs)).2
      subst hts
      rw [if_pos h0] at hw
      exact ⟨_, hw.1, (List.perm_cons_erase him).symm⟩
    · refine keep (sameLinks_brelse ht ?_)
      intro hok h0
      exact hmove ⟨hok, h0⟩

theorem isRing_calls {NBUF : Nat} {s : State} (h : Calls NBUF s) :
    ∃ l, IsRing s l ∧ l.Perm (List.range NBUF) := by
  induction h with
  | binit disk =>
    exact ⟨_, (binit_boot NBUF disk).1.1, List.reverse_perm _⟩
  | call _ hc ih =>
    obtain ⟨l, hr, hp⟩ := ih
    have hmem : ∀ i, i ∈ l ↔ i < NBUF := fun i => by
      rw [hp.mem_iff, List.mem_range]
    obtain ⟨l', hr', hp'⟩ := isRing_call hr hmem hc
    exact ⟨l', hr', hp'.trans hp⟩

/-- C17: recency-list well-formedness.  `binit` leaves a well-formed pool whose recency list,
from most to least recently used, is `buf[NBUF-1], ..., buf[0]`.  In a ring no buffer occurs
twice and `next` and `prev` are inverse to each other at the sentinel and at every buffer.
Every call of `bget`, `bread`, `bwrite`, `brelse`, `bpin` or `bunpin`, whatever its outcome,
takes a ring over the buffers `buf[0..NBUF)` to a ring over a permutation of the same list,
so in every pool that arises from `binit` by calls the recency list is a ring over a
permutation of all `NBUF` buffers.  In particular a `brelse` that brings the count of the most
recently used buffer to 0 relinks it where it was: the pool is well formed with the same
list. -/
theorem recency_list_well_formed (NBUF : Nat) :
    (∀ disk, WellFormed NBUF (binit NBUF (boot disk)) (List.range NBUF).reverse) ∧
    (∀ s l, IsRing s l → l.Nodup ∧
      ∀ p, (p = Ptr.head ∨ ∃ i ∈ l, p = Ptr.slot i) →
        (s.deref (s.deref p).next).prev = p ∧ (s.deref (s.deref p).prev).next = p) ∧
    (∀ s t l, IsRing s l → (∀ i, i ∈ l ↔ i < NBUF) → Call NBUF s t →
      ∃ l', IsRing t l' ∧ l'.Perm l) ∧
    (∀ s, Calls NBUF s → ∃ l, IsRing s l ∧ l.Perm (List.range NBUF)) ∧
    (∀ s pid x l2, WellFormed NBUF s (x :: l2) →
      (s.deref (Ptr.slot x)).lock.holder = some pid → (s.deref (Ptr.slot x)).refcnt = 1 →
      ∃ t, brelse pid (Ptr.slot x) s = Result.ok () t ∧ (t.deref (Ptr.slot x)).refcnt = 0 ∧
        WellFormed NBUF t (x :: l2)) := by
  refine ⟨fun disk => (binit_boot NBUF disk).1, fun s l h => ⟨h.1, isRing_inverse h⟩,
    fun s t l hr hmem hc => isRing_call hr hmem hc, fun s h => isRing_calls h, ?_⟩
  intro s pid x l2 hwf hh h1
  obtain ⟨t, ht, hq, -, -, hw⟩ := brelse_wf hwf (List.mem_cons_self _ _) hh
  rw [h1, if_pos uint_dec_one, List.erase_cons_head] at hw
  refine ⟨t, ht, ?_, hw⟩
  rw [(hq _).2.2.2.2.2.1, if_pos rfl, h1, uint_dec_one]

/-- Witness for C17: in the two-buffer pool `pool2_front`, which arises from `binit` by
calls, process 7 holds the most recently used buffer `buf[0]`; its release leaves the
recency list `[0, 1]`. -/
theorem recency_list_well_formed_witness :
    Calls 2 pool2_front ∧ WellFormed 2 pool2_front [0, 1] ∧
    (pool2_front.deref (Ptr.slot 0)).lock.holder = some 7 ∧
    (pool2_front.deref (Ptr.slot 0)).refcnt = 1 ∧
    (∃ l, IsRing pool2_front l ∧ l.Perm (List.range 2)) ∧
    ∃ t, brelse 7 (Ptr.slot 0) pool2_front = Result.ok () t ∧ WellFormed 2 t [0, 1] := by
  have h0 : Calls 2 pool2 := Calls.binit disk0
  have h1 : Calls 2 pool2_held := Calls.call h0 (Call.bread 3 7 1 1 rfl)
  have h2 : Calls 2 ((brelse 7 (Ptr.slot 0) pool2_held).stateD pool2) :=
    Calls.call h1 (Call.brelse 7 0 (by decide) rfl)
  have h3 : Calls 2 pool2_front := Calls.call h2 (Call.bread 3 7 1 1 rfl)
  have hwf : WellFormed 2 pool2_front [0, 1] := by decide
  have hh : (pool2_front.deref (Ptr.slot 0)).lock.holder = some 7 := by decide
  have hr : (pool2_front.deref (Ptr.slot 0)).refcnt = 1 := by decide
  obtain ⟨-, -, -, hcalls, hmru⟩ := recency_list_well_formed 2
  obtain ⟨t, ht, -, hw⟩ := hmru pool2_front 7 0 [1] hwf hh hr
  exact ⟨h3, hwf, hh, hr, hcalls pool2_front h3, t, ht, hw⟩

/-! ## The structural lock is never held across a content lock or a transfer -/

theorem ordered_refl (s : State) : ordered s s := ⟨[], rfl, rfl⟩

theorem ordered_of_trace {s t : State} (ev : List Event) (h : t.trace = ev ++ s.trace)
    (ho : lock_order false ev.reverse = true) : ordered s t := ⟨ev, h, ho⟩

/-- The log and the structural lock after `bget`, for each outcome other than `panic`. -/
theorem bget_running {fuel pid dev blockno : Nat} {s t : State}
    (h : (bget fuel pid dev blockno s).running? = some t) :
    (bget fuel pid dev blockno s = Result.spin s ∧ t = s) ∨
    (∃ b, bget fuel pid dev blockno s = Result.ok b t ∧ t.lock.locked = 0 ∧
      t.trace = Event.acquiresleep b pid :: Event.release :: Event.acquire :: s.trace) ∨
    (∃ b, bget fuel pid dev blockno s = Result.sleep b t ∧ t.lock.locked = 0 ∧
      t.trace = Event.release :: Event.acquire :: s.trace) := by
  have lockcase : ∀ (b : Ptr) (u : State), u.lock.locked = 0 →
      u.trace = Event.release :: Event.acquire :: s.trace →
      bget fuel pid dev blockno s = bget_lock pid b u →
      (bget fuel pid dev blockno s).running? = some t →
      (∃ b, bget fuel pid dev blockno s = Result.ok b t ∧ t.lock.locked = 0 ∧
        t.trace = Event.acquiresleep b pid :: Event.release :: Event.acquire :: s.trace) ∨
      (∃ b, bget fuel pid dev blockno s = Result.sleep b t ∧ t.lock.locked = 0 ∧
        t.trace = Event.release :: Event.acquire :: s.trace) := by
    intro b u hul hut hg hrun
    by_cases hh : (u.deref b).lock.holder = none
    · rw [bget_lock_free hh] at hg
      rw [hg] at hrun
      injection hrun with hrun
      subst hrun
      exact Or.inl ⟨b, hg, by simpa using hul, by simp [hut]⟩
    · rw [bget_lock_held hh] at hg
      rw [hg] at hrun
      injection hrun with hrun
      subst hrun
      exact Or.inr ⟨b, hg, hul, hut⟩
  rcases bget_cases fuel pid dev blockno s with ⟨hg, -⟩ | hg | ⟨-, hc⟩
  · left
    rw [hg] at h
    injection h with h
    exact ⟨hg, h.symm⟩
  · rw [hg] at h
    cases h
  · right
    rcases hc with ⟨b, -, hg⟩ | ⟨b, -, -, hg⟩ | ⟨-, -, hg⟩
    · exact lockcase b _ (by simp) (by simp) hg h
    · exact lockcase b _ (by simp) (by simp) hg h
    · rw [hg] at h
      cases h

theorem trace_bread_fill (b : Ptr) (s : State) :
    (bread_fill b s).trace =
      if (s.deref b).valid = 0 then
        Event.disk_read (s.deref b).dev (s.deref b).blockno :: s.trace
      else s.trace := by
  unfold bread_fill
  split <;> simp

theorem ordered_bget {fuel pid dev blockno : Nat} {s t : State}
    (h : (bget fuel pid dev blockno s).running? = some t) : ordered s t := by
  rcases bget_running h with ⟨-, rfl⟩ | ⟨b, -, -, ht⟩ | ⟨b, -, -, ht⟩
  · exact ordered_refl _
  · exact ordered_of_trace [Event.acquiresleep b pid, Event.release, Event.acquire] ht rfl
  · exact ordered_of_trace [Event.release, Event.acquire] ht rfl

/-- The log and the structural lock after `bread`, for each outcome other than `panic`. -/
theorem bread_running {fuel pid dev blockno : Nat} {s t : State}
    (h : (bread fuel pid dev blockno s).running? = some t) :
    ordered s t ∧
    (∀ b, bread fuel pid dev blockno s = Result.ok b t ∨
      bread fuel pid dev blockno s = Result.sleep b t → t.lock.locked = 0) := by
  cases hb : bget fuel pid dev blockno s with
  | ok b u =>
    have hbr : bread fuel pid dev blockno s = Result.ok b (bread_fill b u) := by
      simp [bread, hb]
    rw [hbr] at h ⊢
    injection h with h
    subst h
    rcases bget_running (show (bget fuel pid dev blockno s).running? = some u by rw [hb]; rfl)
      with ⟨hsp, -⟩ | ⟨b', hok, hl, ht⟩ | ⟨b', hsl, -, -⟩
    · rw [hb] at hsp; cases hsp
    · have hbb : b = b' := (Result.ok.inj (hb.symm.trans hok)).1
      subst hbb
      refine ⟨?_, fun _ _ => by rw [(bread_fill_key b b u).2.2.2.2.2.2.1]; exact hl⟩
      by_cases hv : (u.deref b).valid = 0
      · refine ordered_of_trace
          [Event.disk_read (u.deref b).dev (u.deref b).blockno, Event.acquiresleep b pid,
            Event.release, Event.acquire] ?_ rfl
        rw [trace_bread_fill, if_pos hv, ht]
        rfl
      · refine ordered_of_trace [Event.acquiresleep b pid, Event.release, Event.acquire] ?_ rfl
        rw [trace_bread_fill, if_neg hv, ht]
        rfl
    · rw [hb] at hsl; cases hsl
  | panic msg u =>
    have hbr : bread fuel pid dev blockno s = Result.panic msg u := by simp [bread, hb]
    rw [hbr] at h
    cases h
  | spin u =>
    have hbr : bread fuel pid dev blockno s = Result.spin u := by simp [bread, hb]
    have hg : (bget fuel pid dev blockno s).running? = some t := by
      rw [hbr] at h
      rw [hb]
      exact h
    refine ⟨ordered_bget hg, ?_⟩
    intro b hcase
    rw [hbr] at hcase
    rcases hcase with hc | hc <;> cases hc
  | sleep b u =>
    have hbr : bread fuel pid dev blockno s = Result.sleep b u := by simp [bread, hb]
    have hg : (bget fuel pid dev blockno s).running? = some t := by
      rw [hbr] at h
      rw [hb]
      exact h
    refine ⟨ordered_bget hg, ?_⟩
    intro b' _
    rcases bget_running hg with ⟨hsp, -⟩ | ⟨b'', hok, -, -⟩ | ⟨b'', -, hl, -⟩
    · rw [hb] at hsp; cases hsp
    · rw [hb] at hok; cases hok
    · exact hl
  | outOfFuel =>
    have hbr : bread fuel pid dev blockno s = Result.outOfFuel := by simp [bread, hb]
    rw [hbr] at h
    cases h

theorem ordered_bwrite {pid : Nat} {b : Ptr} {s t : State}
    (h : (bwrite pid b s).running? = some t) : ordered s t ∧ t.lock = s.lock := by
  by_cases hh : (s.deref b).lock.holder = some pid
  · rw [bwrite_eq hh] at h
    injection h with h
    subst h
    exact ⟨ordered_of_trace
      [Event.disk_write (s.deref b).dev (s.deref b).blockno (s.deref b).data] (by simp) rfl,
      by simp⟩
  · rw [bwrite_panic hh] at h
    cases h

theorem ordered_brelse {pid : Nat} {b : Ptr} {s t : State}
    (h : (brelse pid b s).running? = some t) :
    ordered s t ∧ (brelse pid b s = Result.ok () t → t.lock.locked = 0) := by
  by_cases hh : (s.deref b).lock.holder = some pid
  · by_cases hl : s.lock.locked = 0
    · have he := brelse_eq hh hl
      rw [he] at h
      injection h with h
      subst h
      refine ⟨ordered_of_trace [Event.release, Event.acquire, Event.releasesleep b] ?_ rfl,
        fun _ => by simp⟩
      split <;> simp [(brelse_move_state _ _).2.2]
    · have he := brelse_spin hh hl
      rw [he] at h ⊢
      injection h with h
      subst h
      exact ⟨ordered_of_trace [Event.releasesleep b] (by simp) rfl, fun hc => by cases hc⟩
  · rw [brelse_panic hh] at h
    cases h

theorem ordered_bpin {b : Ptr} {s t : State} (h : (bpin b s).running? = some t) :
    ordered s t ∧ (bpin b s = Result.ok () t → t.lock.locked = 0) := by
  by_cases hl : s.lock.locked = 0
  · rw [bpin_eq hl] at h
    injection h with h
    subst h
    exact ⟨ordered_of_trace [Event.release, Event.acquire] (by simp) rfl, fun _ => by simp⟩
  · rw [bpin_spin hl] at h ⊢
    injection h with h
    subst h
    exact ⟨ordered_refl _, fun hc => by cases hc⟩

theorem ordered_bunpin {b : Ptr} {s t : State} (h : (bunpin b s).running? = some t) :
    ordered s t ∧ (bunpin b s = Result.ok () t → t.lock.locked = 0) := by
  by_cases hl : s.lock.locked = 0
  · rw [bunpin_eq hl] at h
    injection h with h
    subst h
    exact ⟨ordered_of_trace [Event.release, Event.acquire] (by simp) rfl, fun _ => by simp⟩
  · rw [bunpin_spin hl] at h ⊢
    injection h with h
    subst h
    exact ⟨ordered_refl _, fun hc => by cases hc⟩

/-- C18: lock hierarchy.  For every call of `bget`, `bread`, `bwrite`, `brelse`, `bpin` and
`bunpin` from any pool state and every outcome other than `panic` (returned, asleep on a
content lock, or busy-waiting for the structural lock), the collaborator calls the thread
logged respect the lock order: each `acquiresleep` and each transfer of `virtio_disk_rw`
comes with every `acquire` of `bcache.lock` before it matched by a `release`, and so does the
end of the log.  When `bget` or `bread` returns or sleeps on a content lock, and when
`brelse`, `bpin` or `bunpin` returns, the structural lock is free; `bwrite` never touches
it. -/
theorem lock_hierarchy (s t : State) :
    (∀ fuel pid dev blockno, (bget fuel pid dev blockno s).running? = some t → ordered s t) ∧
    (∀ fuel pid dev blockno, (bread fuel pid dev blockno s).running? = some t → ordered s t) ∧
    (∀ pid b, (bwrite pid b s).running? = some t → ordered s t) ∧
    (∀ pid b, (brelse pid b s).running? = some t → ordered s t) ∧
    (∀ b, (bpin b s).running? = some t → ordered s t) ∧
    (∀ b, (bunpin b s).running? = some t → ordered s t) ∧
    (∀ fuel pid dev blockno b, bget fuel pid dev blockno s = Result.ok b t ∨
      bget fuel pid dev blockno s = Result.sleep b t → t.lock.locked = 0) ∧
    (∀ fuel pid dev blockno b, bread fuel pid dev blockno s = Result.ok b t ∨
      bread fuel pid dev blockno s = Result.sleep b t → t.lock.locked = 0) ∧
    (∀ pid b, bwrite pid b s = Result.ok () t → t.lock = s.lock) ∧
    (∀ pid b, brelse pid b s = Result.ok () t → t.lock.locked = 0) ∧
    (∀ b, bpin b s = Result.ok () t → t.lock.locked = 0) ∧
    (∀ b, bunpin b s = Result.ok () t → t.lock.locked = 0) := by
  refine ⟨fun _ _ _ _ h => ordered_bget h, fun _ _ _ _ h => (bread_running h).1,
    fun _ _ h => (ordered_bwrite h).1, fun _ _ h => (ordered_brelse h).1,
    fun _ h => (ordered_bpin h).1, fun _ h => (ordered_bunpin h).1, ?_, ?_, ?_, ?_, ?_, ?_⟩
  · intro fuel pid dev blockno b hcase
    have hrun : (bget fuel pid dev blockno s).running? = some t := by
      rcases hcase with h | h <;> rw [h] <;> rfl
    rcases bget_running hrun with ⟨hsp, -⟩ | ⟨_, -, hl, -⟩ | ⟨_, -, hl, -⟩
    · rw [hsp] at hcase
      rcases hcase with h | h <;> cases h
    · exact hl
    · exact hl
  · intro fuel pid dev blockno b hcase
    have hrun : (bread fuel pid dev blockno s).running? = some t := by
      rcases hcase with h | h <;> rw [h] <;> rfl
    exact (bread_running hrun).2 b hcase
  · intro pid b h
    exact (ordered_bwrite (by rw [h]; rfl)).2
  · intro pid b h
    exact (ordered_brelse (by rw [h]; rfl)).2 h
  · intro b h
    exact (ordered_bpin (by rw [h]; rfl)).2 h
  · intro b h
    exact (ordered_bunpin (by rw [h]; rfl)).2 h

/-- Witness for C18: `bread(1, 1)` on a fresh two-buffer pool logs `acquire`, `release`,
`acquiresleep`, `disk_read` in this order and returns with the structural lock free. -/
theorem lock_hierarchy_witness :
    (bread 3 7 1 1 pool2).running? = some pool2_held ∧
    pool2_held.trace =
      [Event.disk_read 1 1, Event.acquiresleep (Ptr.slot 0) 7, Event.release, Event.acquire] ∧
    ordered pool2 pool2_held ∧ pool2_held.lock.locked = 0 := by
  have h : (bread 3 7 1 1 pool2).running? = some pool2_held := rfl
  obtain ⟨-, hbread, -, -, -, -, -, hlock, -⟩ := lock_hierarchy pool2 pool2_held
  exact ⟨h, rfl, hbread 3 7 1 1 h, hlock 3 7 1 1 (Ptr.slot 0) (Or.inl rfl)⟩

/-! ## Underflow of the reference count -/

theorem bunpin_all_deref (s : State) (hl : s.lock.locked = 0) :
    ∀ n, (bunpin_all n s).lock.locked = 0 ∧
      (bunpin_all n s).deref Ptr.head = s.deref Ptr.head ∧
      ∀ i, (bunpin_all n s).deref (Ptr.slot i) =
        if i < n then
          { s.deref (Ptr.slot i) with refcnt := uint_dec (s.deref (Ptr.slot i)).refcnt }
        else s.deref (Ptr.slot i)
  | 0 => ⟨hl, rfl, fun i => by simp [bunpin_all]⟩
  | n + 1 => by
    obtain ⟨hl', hh, hs⟩ := bunpin_all_deref s hl n
    have he : bunpin_all (n + 1) s =
        release ((acquired (bunpin_all n s)).set_refcnt (Ptr.slot n)
          (uint_dec ((bunpin_all n s).deref (Ptr.slot n)).refcnt)) := by
      show (bunpin (Ptr.slot n) (bunpin_all n s)).stateD (bunpin_all n s) = _
      rw [bunpin_eq hl']
      rfl
    rw [he]
    refine ⟨by simp, ?_, ?_⟩
    · rw [deref_refcnt_locked, if_neg (by simp), hh]
    · intro i
      rw [deref_refcnt_locked]
      by_cases hin : i = n
      · subst hin
        rw [if_pos rfl, if_pos (Nat.lt_succ_self i), hs i, if_neg (Nat.lt_irrefl i)]
      · have hne : Ptr.slot i ≠ Ptr.slot n := fun h => hin (slot_injective h)
        rw [if_neg hne, hs i]
        by_cases hlt : i < n
        · rw [if_pos hlt, if_pos (Nat.lt_succ_of_lt hlt)]
        · rw [if_neg hlt, if_neg (by omega)]

/-- A well-formed pool stays well formed under `bunpin_all`, which wraps the count of every
buffer with `refcnt = 0` to `2^32 - 1` and changes nothing else. -/
theorem bunpin_all_wf {NBUF : Nat} {s : State} {l : List Nat} (hwf : WellFormed NBUF s l)
    (h0 : ∀ i, i < NBUF → (s.deref (Ptr.slot i)).refcnt = 0) :
    WellFormed NBUF (bunpin_all NBUF s) l ∧
    ∀ i, i < NBUF →
      (bunpin_all NBUF s).deref (Ptr.slot i) =
        { s.deref (Ptr.slot i) with refcnt := 2 ^ 32 - 1 } := by
  obtain ⟨hl, hh, hs⟩ := bunpin_all_deref s hwf.2.2.2 NBUF
  have hq : ∀ q, ((bunpin_all NBUF s).deref q).next = (s.deref q).next ∧
      ((bunpin_all NBUF s).deref q).prev = (s.deref q).prev := by
    intro q
    cases q with
    | head => rw [hh]; exact ⟨rfl, rfl⟩
    | slot i =>
      rw [hs i]
      split <;> exact ⟨rfl, rfl⟩
  refine ⟨wellFormed_congr hwf (fun q => (hq q).1) (fun q => (hq q).2) hl, ?_⟩
  intro i hi
  rw [hs i, if_pos hi, h0 i hi, uint_dec_zero]

theorem bread_of_panic {fuel pid dev blockno : Nat} {s t : State} {msg : String}
    (h : bget fuel pid dev blockno s = Result.panic msg t) :
    bread fuel pid dev blockno s = Result.panic msg t := by
  simp [bread, h]

/-- C19: reference-count underflow wraps instead of failing.  With the structural lock free,
`bunpin` of a buffer whose `refcnt` is 0 returns with the count at `2^32 - 1`, and so does
`brelse` by the holder of its content lock: neither panics.  The eviction scan of `bget`
never selects a buffer whose `refcnt` is not 0, and no outcome of `bget` changes the key of
one.  Hence on a well-formed pool in which every buffer has `refcnt = 0`, after one `bunpin`
of each buffer every count is `2^32 - 1`, keys, content locks and links are as before, and
`bget` and `bread` of a block bound to no buffer halt in `panic("bget: no buffers")`; on a
freshly initialised pool, where no content lock is held, this happens for every block other
than `(0, 0)`. -/
theorem refcnt_underflow_wraps (NBUF : Nat) :
    (∀ b s, s.lock.locked = 0 → (s.deref b).refcnt = 0 →
      ∃ s', bunpin b s = Result.ok () s' ∧ (s'.deref b).refcnt = 2 ^ 32 - 1) ∧
    (∀ pid b s, s.lock.locked = 0 → (s.deref b).lock.holder = some pid →
      (s.deref b).refcnt = 0 →
      ∃ s', brelse pid b s = Result.ok () s' ∧ (s'.deref b).refcnt = 2 ^ 32 - 1) ∧
    (∀ s fuel p b, (s.deref b).refcnt ≠ 0 → bget_recycle s fuel p ≠ some (some b)) ∧
    (∀ fuel pid dev blockno s t q, (bget fuel pid dev blockno s).after? = some t →
      (s.deref q).refcnt ≠ 0 →
      (t.deref q).dev = (s.deref q).dev ∧ (t.deref q).blockno = (s.deref q).blockno) ∧
    (∀ s l, WellFormed NBUF s l → (∀ i, i < NBUF → (s.deref (Ptr.slot i)).refcnt = 0) →
      WellFormed NBUF (bunpin_all NBUF s) l ∧
      (∀ i, i < NBUF → (bunpin_all NBUF s).deref (Ptr.slot i) =
        { s.deref (Ptr.slot i) with refcnt := 2 ^ 32 - 1 }) ∧
      ∀ fuel pid dev blockno, NBUF < fuel →
        (∀ i, i < NBUF → ¬ bound s dev blockno (Ptr.slot i)) →
        ∃ t, bget fuel pid dev blockno (bunpin_all NBUF s) =
            Result.panic "bget: no buffers" t ∧
          bread fuel pid dev blockno (bunpin_all NBUF s) =
            Result.panic "bget: no buffers" t) ∧
    (∀ disk fuel pid dev blockno, NBUF < fuel → ¬ (dev = 0 ∧ blockno = 0) →
      (∀ i, i < NBUF →
        ((bunpin_all NBUF (binit NBUF (boot disk))).deref (Ptr.slot i)).lock.holder = none ∧
        ((bunpin_all NBUF (binit NBUF (boot disk))).deref (Ptr.slot i)).refcnt = 2 ^ 32 - 1) ∧
      ∃ t, bread fuel pid dev blockno (bunpin_all NBUF (binit NBUF (boot disk))) =
        Result.panic "bget: no buffers" t) := by
  have general : ∀ s l, WellFormed NBUF s l →
      (∀ i, i < NBUF → (s.deref (Ptr.slot i)).refcnt = 0) →
      WellFormed NBUF (bunpin_all NBUF s) l ∧
      (∀ i, i < NBUF → (bunpin_all NBUF s).deref (Ptr.slot i) =
        { s.deref (Ptr.slot i) with refcnt := 2 ^ 32 - 1 }) ∧
      ∀ fuel pid dev blockno, NBUF < fuel →
        (∀ i, i < NBUF → ¬ bound s dev blockno (Ptr.slot i)) →
        ∃ t, bget fuel pid dev blockno (bunpin_all NBUF s) =
            Result.panic "bget: no buffers" t ∧
          bread fuel pid dev blockno (bunpin_all NBUF s) =
            Result.panic "bget: no buffers" t := by
    intro s l hwf h0
    obtain ⟨hwf', hd⟩ := bunpin_all_wf hwf h0
    refine ⟨hwf', hd, ?_⟩
    intro fuel pid dev blockno hf hno
    have hmem := wellFormed_mem_iff hwf
    have hg := bget_exhausted_wf pid hwf' hf
      (fun j hj hb => hno j ((hmem j).mp hj) (by
        rw [bound, hd j ((hmem j).mp hj)] at hb
        exact hb))
      (fun j hj => by
        rw [hd j ((hmem j).mp hj)]
        show 2 ^ 32 - 1 ≠ 0
        decide)
    exact ⟨_, hg, bread_of_panic hg⟩
  refine ⟨?_, ?_, ?_, ?_, general, ?_⟩
  · intro b s hl h0
    refine ⟨_, bunpin_eq hl, ?_⟩
    rw [deref_refcnt_locked, if_pos rfl, h0, uint_dec_zero]
  · intro pid b s hl hh h0
    have hne : uint_dec (s.deref b).refcnt ≠ 0 := by
      rw [h0]
      decide
    have he := brelse_eq hh hl
    rw [if_neg hne] at he
    refine ⟨_, he, ?_⟩
    rw [h0, uint_dec_zero]
    simp
  · intro s fuel p b hb h
    exact hb (bget_recycle_some s fuel p b h).2
  · intro fuel pid dev blockno s t q h hq
    exact bget_after_key h q hq
  · intro disk fuel pid dev blockno hf hkey
    obtain ⟨hwf, hz, -, -⟩ := binit_boot NBUF disk
    obtain ⟨-, hd, hp⟩ := general _ _ hwf (fun i _ => (hz _).2.2.2.1)
    refine ⟨fun i hi => ?_, ?_⟩
    · rw [hd i hi]
      exact ⟨(hz _).2.2.2.2, rfl⟩
    · obtain ⟨t, -, hb⟩ := hp fuel pid dev blockno hf (fun i _ hb => by
        apply hkey
        exact ⟨hb.1.symm.trans (hz _).2.1, hb.2.symm.trans (hz _).2.2.1⟩)
      exact ⟨t, hb⟩

/-- Witness for C19: on a fresh two-buffer pool one `bunpin` of each buffer leaves both
counts at `4294967295`, and `bread(1, 3)` halts although no content lock is held. -/
theorem refcnt_underflow_wraps_witness :
    WellFormed 2 pool2 [1, 0] ∧
    ((bunpin_all 2 pool2).deref (Ptr.slot 0)).refcnt = 4294967295 ∧
    ((bunpin_all 2 pool2).deref (Ptr.slot 1)).refcnt = 4294967295 ∧
    ((bunpin_all 2 pool2).deref (Ptr.slot 0)).lock.holder = none ∧
    ((bunpin_all 2 pool2).deref (Ptr.slot 1)).lock.holder = none ∧
    ∃ t, bread 3 9 1 3 (bunpin_all 2 pool2) = Result.panic "bget: no buffers" t := by
  have hwf : WellFormed 2 pool2 [1, 0] := by decide
  obtain ⟨-, -, -, -, -, hfresh⟩ := refcnt_underflow_wraps 2
  obtain ⟨hall, hp⟩ := hfresh disk0 3 9 1 3 (by decide) (by decide)
  exact ⟨hwf, (hall 0 (by decide)).2, (hall 1 (by decide)).2, (hall 0 (by decide)).1,
    (hall 1 (by decide)).1, hp⟩

/-! ## The first `bread(0, 0)` on a fresh pool -/

theorem range_reverse_succ (n : Nat) :
    (List.range (n + 1)).reverse = n :: (List.range n).reverse := by
  rw [List.range_succ, List.reverse_append]
  rfl

theorem range_reverse_last (n : Nat) :
    (List.range (n + 1)).reverse = ((List.range n).map Nat.succ).reverse ++ [0] := by
  rw [List.range_succ_eq_map, List.reverse_cons]

/-- What `bread` returns on a hit of `buf[x]` whose content lock is free and whose `valid`
flag is 0. -/
theorem bread_hit_invalid {fuel pid dev blockno : Nat} {s : State} {b : Ptr}
    (hg : bget fuel pid dev blockno s = bget_lock pid b (bget_hit b (acquired s)))
    (hh : (s.deref b).lock.holder = none) (hv : (s.deref b).valid = 0) :
    ∃ s', bread fuel pid dev blockno s = Result.ok b s' ∧
      s'.trace = Event.disk_read (s.deref b).dev (s.deref b).blockno ::
        Event.acquiresleep b pid :: Event.release :: Event.acquire :: s.trace ∧
      (s'.deref b).valid = 1 ∧ (s'.deref b).refcnt = uint_inc (s.deref b).refcnt ∧
      (s'.deref b).data = s.disk (s.deref b).dev (s.deref b).blockno ∧
      (s'.deref b).lock.holder = some pid ∧
      ∀ q, q ≠ b → s'.deref q = s.deref q := by
  rw [bget_lock_free (by simpa using hh)] at hg
  have hv' : ((acquiredsleep pid b (bget_hit b (acquired s))).deref b).valid = 0 := by
    simpa using hv
  refine ⟨_, bread_ok.mpr ⟨_, hg, rfl⟩, ?_, ?_, ?_, ?_, ?_, ?_⟩
  · rw [trace_bread_fill, if_pos hv']
    simp
  · rw [valid_bread_fill, if_pos ⟨rfl, hv'⟩]
  · rw [(bread_fill_key _ _ _).2.2.1]
    simp
  · unfold bread_fill
    rw [if_pos hv']
    simp
  · rw [(bread_fill_key _ _ _).2.2.2.1]
    simp
  · intro q hq
    rw [deref_bread_fill_ne _ hq]
    apply buf_ext <;> simp [hq]

/-- C20: a hit does not require a prior binding.  On a freshly initialised pool of
`NBUF > 0` buffers every buffer carries the key `(0, 0)` with `valid = 0` and `refcnt = 0`.
The first scan of `bget(0, 0)` stops at `head.next = buf[NBUF-1]`, the most recently used
buffer, so `bread(0, 0)` returns `buf[NBUF-1]` by the hit path (`refcnt++`), and because its
`valid` flag is 0 it issues one backing-store read of block `(0, 0)`.  For any other key the
first scan finds no buffer, and `bread` recycles and returns `buf[0]`, the least recently
used buffer. -/
theorem hit_without_binding (NBUF fuel pid : Nat) (disk : Nat → Nat → List Nat)
    (hN : 0 < NBUF) (hf : NBUF < fuel) :
    (∀ i, i < NBUF → bound (binit NBUF (boot disk)) 0 0 (Ptr.slot i) ∧
      ((binit NBUF (boot disk)).deref (Ptr.slot i)).valid = 0 ∧
      ((binit NBUF (boot disk)).deref (Ptr.slot i)).refcnt = 0) ∧
    (binit NBUF (boot disk)).head.next = Ptr.slot (NBUF - 1) ∧
    bget_cached 0 0 (binit NBUF (boot disk)) fuel (binit NBUF (boot disk)).head.next =
      some (some (Ptr.slot (NBUF - 1))) ∧
    (∃ s', bread fuel pid 0 0 (binit NBUF (boot disk)) = Result.ok (Ptr.slot (NBUF - 1)) s' ∧
      s' = bread_fill (Ptr.slot (NBUF - 1))
        (acquiredsleep pid (Ptr.slot (NBUF - 1))
          (bget_hit (Ptr.slot (NBUF - 1)) (acquired (binit NBUF (boot disk))))) ∧
      s'.trace = [Event.disk_read 0 0, Event.acquiresleep (Ptr.slot (NBUF - 1)) pid,
        Event.release, Event.acquire] ∧
      reads s'.trace = 1 ∧
      (s'.deref (Ptr.slot (NBUF - 1))).valid = 1 ∧
      (s'.deref (Ptr.slot (NBUF - 1))).refcnt = 1 ∧
      (s'.deref (Ptr.slot (NBUF - 1))).data = disk 0 0 ∧
      ∀ q, q ≠ Ptr.slot (NBUF - 1) → s'.deref q = (binit NBUF (boot disk)).deref q) ∧
    (∀ dev blockno, ¬ (dev = 0 ∧ blockno = 0) →
      bget_cached dev blockno (binit NBUF (boot disk)) fuel
        (binit NBUF (boot disk)).head.next = some none ∧
      bget_recycle (binit NBUF (boot disk)) fuel (binit NBUF (boot disk)).head.prev =
        some (some (Ptr.slot 0)) ∧
      ∃ s'', bread fuel pid dev blockno (binit NBUF (boot disk)) =
        Result.ok (Ptr.slot 0) s'') := by
  obtain ⟨n, rfl⟩ : ∃ n, NBUF = n + 1 := ⟨NBUF - 1, by omega⟩
  obtain ⟨hwf, hz, hdisk, htrace⟩ := binit_boot (n + 1) disk
  have hlen : (List.range (n + 1)).reverse.length < fuel := by simpa using hf
  have hb0 : ∀ q, bound (binit (n + 1) (boot disk)) 0 0 q := fun q => ⟨(hz q).2.1, (hz q).2.2.1⟩
  have hfirst : (List.range (n + 1)).reverse = [] ++ n :: (List.range n).reverse :=
    range_reverse_succ n
  have hg := bget_hit_wf pid hwf hf hfirst (hb0 _) (fun j hj => by simp at hj)
  simp only [Nat.add_sub_cancel]
  refine ⟨fun i _ => ⟨hb0 _, (hz _).1, (hz _).2.2.2.1⟩, ?_, ?_, ?_, ?_⟩
  · have := hwf.1.2
    rw [range_reverse_succ] at this
    simp only [cycle, List.map_cons, List.cons_append, Links] at this
    exact this.1.1
  · rw [bget_cached_ring hwf.1 0 0 fuel hlen, range_reverse_succ, List.find?_cons_of_pos]
    · rfl
    · exact decide_eq_true (hb0 _)
  · obtain ⟨s', hs, ht, hv, hr, hd, -, hfr⟩ :=
      bread_hit_invalid hg (hz _).2.2.2.2 (hz _).1
    have hs' := (bread_ok.mp hs)
    obtain ⟨s1, hs1, hs2⟩ := hs'
    rw [bget_lock_free (by simpa using (hz (Ptr.slot n)).2.2.2.2)] at hg
    have h12 : s1 = _ := (Result.ok.inj (hs1.symm.trans hg)).2
    rw [h12] at hs2
    rw [(hz _).2.1, (hz _).2.2.1, htrace] at ht
    refine ⟨s', hs, hs2, ht, by rw [ht]; rfl, hv, ?_, ?_, hfr⟩
    · rw [hr, (hz _).2.2.2.1]
      rfl
    · rw [hd, hdisk, (hz _).2.1, (hz _).2.2.1]
  · intro dev blockno hkey
    have hno : ∀ j ∈ (List.range (n + 1)).reverse,
        ¬ bound (binit (n + 1) (boot disk)) dev blockno (Ptr.slot j) := by
      intro j _ hb
      exact hkey ⟨hb.1.symm.trans (hz _).2.1, hb.2.symm.trans (hz _).2.2.1⟩
    have hm := bget_miss_wf pid hwf hf hno (range_reverse_last n) (hz _).2.2.2.1
      (fun j hj => by simp at hj)
    refine ⟨?_, ?_, ?_⟩
    · rw [bget_cached_ring hwf.1 dev blockno fuel hlen, List.find?_eq_none.mpr]
      · rfl
      · intro j hj
        simpa using hno j hj
    · rw [bget_recycle_ring hwf.1 fuel hlen, range_reverse_last, List.reverse_append,
        List.reverse_singleton, List.singleton_append, List.find?_cons_of_pos]
      · rfl
      · exact decide_eq_true (hz _).2.2.2.1
    · rw [bget_lock_free (by simpa using (hz (Ptr.slot 0)).2.2.2.2)] at hm
      exact ⟨_, bread_ok.mpr ⟨_, hm, rfl⟩⟩

/-- Witness for C20: on a fresh two-buffer pool `bread(0, 0)` returns `buf[1]` after one
read, while `bread(1, 1)` returns `buf[0]`. -/
theorem hit_without_binding_witness :
    (∃ s', bread 3 7 0 0 pool2 = Result.ok (Ptr.slot 1) s' ∧ reads s'.trace = 1) ∧
    ∃ s'', bread 3 7 1 1 pool2 = Result.ok (Ptr.slot 0) s'' := by
  obtain ⟨-, -, -, ⟨s', hs, -, -, hr, -⟩, hmiss⟩ :=
    hit_without_binding 2 3 7 disk0 (by decide) (by decide)
  exact ⟨⟨s', hs, hr⟩, (hmiss 1 1 (by decide)).2.2⟩

end Bio

